import Mathlib

/-!
Verification of the nicogif GIF encoder (Go) against its natural-language
specification.  Each Go function relevant to the claims is shallowly embedded
as an executable Lean definition; machine integers are modelled as `Nat`/`Int`
(Go's `int` division truncates toward zero, i.e. `Int.tdiv`; `byte(x)` keeps
the low 8 bits).  Mutable buffers are modelled as lists with functional
updates, and bounded `for`/`while` loops as structural recursion (with the
iteration count made explicit where the source loop's trip count is fixed by
its bounds).
-/

set_option maxRecDepth 100000

namespace NicoGif

/-! ## Encoder configuration setters (src/unnamed/part_000) -/

/-- `SetFrameRate` (part_000 lines 68-70): `ge.delay = 100 / fps`.  The result
is the new `delay` field.  Go's integer division panics on a zero divisor, so
the fallible operation is embedded as an `Option`: `none` models the
division-by-zero panic, which the source does not guard against. -/
def SetFrameRate (fps : Int) : Option Int :=
  if fps = 0 then none else some (Int.tdiv 100 fps)

/-- `SetQuality` (part_000 lines 90-95): clamps `quality` to at least 1 and
stores it in `ge.sample`.  The result is the new `sample` field. -/
def SetQuality (quality : Int) : Int :=
  if quality < 1 then 1 else quality

/-- `SetDispose` (part_000 lines 73-77): stores `disposalCode` in `ge.dispose`
only when it is non-negative; `old` is the previous `ge.dispose`. -/
def SetDispose (old disposalCode : Int) : Int :=
  if 0 ≤ disposalCode then disposalCode else old

/-! ## NeuQuant sampling-stride selection (src/NeuQuant.go) -/

def prime1 : Nat := 499
def prime2 : Nat := 491
def prime3 : Nat := 487
def prime4 : Nat := 503
def minpicturebytes : Nat := 3 * prime4

/-- Stride selection from `learn` (NeuQuant.go lines 243-255).  Returns the
pair `(samplefac', step)`: the (possibly reset) sample factor and the chosen
byte stride. -/
def learnStride (lengthcount samplefac : Nat) : Nat × Nat :=
  if lengthcount < minpicturebytes then (1, 3)
  else if lengthcount % prime1 ≠ 0 then (samplefac, 3 * prime1)
  else if lengthcount % prime2 ≠ 0 then (samplefac, 3 * prime2)
  else if lengthcount % prime3 ≠ 0 then (samplefac, 3 * prime3)
  else (samplefac, 3 * prime4)

/-- Modelled from the spec: the stride the specification describes, "the first
of {3×499, 3×491, 3×487, 3×503} whose corresponding prime does not evenly
divide the total byte count", tried in exactly that order. -/
def firstNonDividingPrime (lengthcount : Nat) : Option Nat :=
  [prime1, prime2, prime3, prime4].find? (fun p => lengthcount % p ≠ 0)

/-- Formalisation of claim C6 at one input: below `3×503` the stride is 3 and
the sample factor falls back to 1; otherwise the stride is three times the
first prime in the fixed order that does not divide the byte count. -/
def strideClaimHolds (lengthcount samplefac : Nat) : Prop :=
  if lengthcount < minpicturebytes then
    learnStride lengthcount samplefac = (1, 3)
  else
    ∃ p, firstNonDividingPrime lengthcount = some p ∧
      (learnStride lengthcount samplefac).2 = 3 * p

/-! ## Graphic control extension (src/unnamed/part_000, writeGraphicCtrlExt) -/

/-- Go's `color.RGBA`; only presence/absence matters for the disposal logic. -/
structure RGBA where
  r : Nat
  g : Nat
  b : Nat
  a : Nat
deriving DecidableEq, Repr

/-- Packed-fields byte of the Graphic Control Extension (part_000 lines
351-372): `transp`/`disp` defaulting, the `& 7` mask on a non-negative user
override, the `disp <<= 2` shift and the final OR follow the source
line-for-line. -/
def gcePackedByte (transparent : Option RGBA) (dispose : Int) : Nat :=
  let transp : Nat := if transparent = none then 0 else 1
  let dispDefault : Nat := if transparent = none then 0 else 2
  let disp : Nat := if 0 ≤ dispose then dispose.toNat &&& 7 else dispDefault
  (disp <<< 2) ||| transp

/-- `writeGraphicCtrlExt` (part_000 lines 346-377): the eight bytes of the
Graphic Control Extension block; `byte(...)` truncation is `% 256` /
`&&& 0xFF` and `writeShort` emits the delay little-endian. -/
def writeGraphicCtrlExt (transparent : Option RGBA) (dispose : Int)
    (delay : Nat) (transIndex : Nat) : List Nat :=
  [0x21, 0xf9, 4, gcePackedByte transparent dispose,
    delay &&& 0xFF, (delay >>> 8) &&& 0xFF, transIndex % 256, 0]

/-! ## Palette serialisation (src/unnamed/part_000, writePalette) -/

/-- `writePalette` (part_000 lines 434-440): writes `colorTab` and then
`(3*256) - len(colorTab)` zero bytes.  In Go the pad count is a signed int and
the pad loop body never runs when it is negative, which truncated `Nat`
subtraction models exactly. -/
def writePalette (colorTab : List Nat) : List Nat :=
  colorTab ++ List.replicate (3 * 256 - colorTab.length) 0

/-! ## Pixel extraction (src/unnamed/part_000, getImagePixels) -/

/-- Abstract Go `image.Image`: integer bounds and the `At(x,y).RGBA()`
accessor, which in Go returns 16-bit channel values 0..65535. -/
structure GoImage where
  minX : Int
  minY : Int
  maxX : Int
  maxY : Int
  At : Int → Int → Nat × Nat × Nat

/-- Go's `byte(v >> 8)`: high byte of a 16-bit channel value. -/
def byteConv (v : Nat) : Nat := (v >>> 8) % 256

/-- Width actually iterated by `getImagePixels` (part_000 lines 308-319): the
declared canvas width, shrunk to the image's available width only when the
latter is smaller (negative available sizes run the loop zero times, which
`Int.toNat` models). -/
def extractedWidth (img : GoImage) (width : Nat) : Nat :=
  if img.maxX - img.minX < (width : Int) then (img.maxX - img.minX).toNat
  else width

/-- Height actually iterated by `getImagePixels`, symmetric to
`extractedWidth`. -/
def extractedHeight (img : GoImage) (height : Nat) : Nat :=
  if img.maxY - img.minY < (height : Int) then (img.maxY - img.minY).toNat
  else height

/-- `getImagePixels` (part_000 lines 295-343): row-major extraction of the
available `w×h` region, three bytes per pixel written contiguously from the
start of the `width*height*3` buffer, followed by the 255-fill loop
(`for count < expectedSize { pixels[count] = 255 }`). -/
def getImagePixels (img : GoImage) (width height : Nat) : List Nat :=
  let w := extractedWidth img width
  let h := extractedHeight img height
  let core := (List.range h).flatMap (fun y =>
    (List.range w).flatMap (fun x =>
      [byteConv (img.At (img.minX + (x : Int)) (img.minY + (y : Int))).1,
       byteConv (img.At (img.minX + (x : Int)) (img.minY + (y : Int))).2.1,
       byteConv (img.At (img.minX + (x : Int)) (img.minY + (y : Int))).2.2]))
  core ++ List.replicate (width * height * 3 - core.length) 255

/-! ## Container writer, block level (src/unnamed/part_000 AddFrame and the
writers it calls, src/unnamed/part_003 batch layer)

`AddFrame` is embedded at the granularity of the blocks it appends to the
output stream; blocks whose byte content none of the claims C5/C8 inspect
(`header`, `logicalScreenDesc`, `netscapeExt`, `graphicCtrlExt`,
`pixelData`) carry no payload here — their contents are covered by the
dedicated embeddings (`writeGraphicCtrlExt`, the LZW encoder). -/

/-- One block appended to the output stream by the container writer. -/
inductive Block where
  | header : Block
  | logicalScreenDesc : Block
  | palette : List Nat → Block
  | netscapeExt : Block
  | graphicCtrlExt : Block
  | imageDesc : Nat → Block
  | pixelData : Block
  | trailer : Block
deriving DecidableEq, Repr

/-- The `GIFEncoder` fields that drive block emission (part_000 lines 9-60).
`globalPalette := none` models Go `nil`, `some []` a non-nil empty slice —
`AddFrame` checks `!= nil && len > 0` while `writeImageDesc` checks only
`!= nil`, so the two must stay distinguishable. -/
structure EncState where
  firstFrame : Bool
  globalPalette : Option (List Nat)
  rept : Int
  dispose : Int
  transparent : Option RGBA
  delay : Int
deriving DecidableEq, Repr

/-- `NewGIFEncoder` (part_000 lines 45-60), restricted to the fields above. -/
def NewGIFEncoder : EncState :=
  { firstFrame := true, globalPalette := none, rept := -1, dispose := -1,
    transparent := none, delay := 0 }

/-- Color table chosen for a frame (AddFrame lines 161-165 plus
analyzePixels lines 214-218): the caller's global palette when it is non-nil
and non-empty, otherwise the freshly quantized palette `quantPal` (standing
for `NewNeuQuant(...).GetColormap()` on this frame's pixels). -/
def frameColorTab (globalPalette : Option (List Nat)) (quantPal : List Nat) :
    List Nat :=
  match globalPalette with
  | some p => if 0 < p.length then p else quantPal
  | none => quantPal

/-- Whether `analyzePixels` runs the NeuQuant quantizer for this frame
(analyzePixels line 214: `ge.colorTab == nil`). -/
def frameQuantizes (globalPalette : Option (List Nat)) : Bool :=
  match globalPalette with
  | some p => decide (p.length = 0)
  | none => true

/-- Packed byte of the Image Descriptor (writeImageDesc lines 388-399): 0
when the global color table is in use, else `0x80 | palSize` announcing a
local color table. -/
def imageDescPacked (firstFrame : Bool) (globalPalette : Option (List Nat))
    (palSize : Nat) : Nat :=
  if firstFrame || globalPalette.isSome then 0
  else 0x80 ||| palSize

/-- Pure body of `AddFrame` (part_000 lines 158-190): the updated state, the
blocks appended to the stream in source order, and whether the frame was
quantized.  `analyzePixels` always sets `palSize = 7` before the descriptors
are written. -/
def addFrameCore (st : EncState) (quantPal : List Nat) :
    EncState × List Block × Bool :=
  let colorTab := frameColorTab st.globalPalette quantPal
  let headerBlocks : List Block :=
    if st.firstFrame then
      [Block.header, Block.logicalScreenDesc,
        Block.palette (writePalette colorTab)] ++
      (if 0 ≤ st.rept then [Block.netscapeExt] else [])
    else []
  let frameBlocks : List Block :=
    [Block.graphicCtrlExt,
      Block.imageDesc (imageDescPacked st.firstFrame st.globalPalette 7)] ++
    (if ¬st.firstFrame ∧ st.globalPalette = none then
      [Block.palette (writePalette colorTab)] else []) ++
    [Block.pixelData]
  ({ st with firstFrame := false }, headerBlocks ++ frameBlocks,
    frameQuantizes st.globalPalette)

/-- `AddFrame` (part_000 lines 158-190): performs `addFrameCore` and ends in
`return nil` — it can never return a non-nil error. -/
def AddFrame (st : EncState) (quantPal : List Nat) :
    Except String (EncState × List Block × Bool) :=
  Except.ok (addFrameCore st quantPal)

/-- Frame loop shared by the two batch functions (part_003 lines 21-31 and
87-97): set the per-frame delay (`SetDelay` divides milliseconds by 10), add
the frame, abort on a non-nil error.  `delayAt i` is the millisecond delay
the caller chooses for frame `i`. -/
def encodeLoop (quantPal : GoImage → List Nat) (delayAt : Nat → Int)
    (st : EncState) (imgs : List GoImage) (i : Nat) (acc : List Block) :
    Except String (List Block) :=
  match imgs with
  | [] => Except.ok acc
  | img :: rest =>
    let st1 := { st with delay := Int.tdiv (delayAt i) 10 }
    match AddFrame st1 (quantPal img) with
    | Except.error e => Except.error e
    | Except.ok (st2, blocks, _) =>
      encodeLoop quantPal delayAt st2 rest (i + 1) (acc ++ blocks)

/-- `EncodeGIF` (part_003 lines 11-35): rejects an empty image slice, then
encodes every frame (repeat 0, quality 10, per-frame delay `delays[i]` with a
100ms default past the end) and appends the trailer.  `quantPal` abstracts
the per-frame quantized palette. -/
def EncodeGIF (quantPal : GoImage → List Nat) (images : List GoImage)
    (delays : List Int) : Except String (List Block) :=
  if images.length = 0 then Except.error "no images provided"
  else
    match encodeLoop quantPal
        (fun i => if i < delays.length then delays.getD i 0 else 100)
        { NewGIFEncoder with rept := 0 } images 0 [] with
    | Except.error e => Except.error e
    | Except.ok blocks => Except.ok (blocks ++ [Block.trailer])

/-- Options struct of `EncodeGIFWithOptions` (part_003 lines 38-46),
restricted to the fields the block-level model consumes. -/
structure EncodeOptions where
  rept : Int
  globalPalette : Option (List Nat)
  delays : List Int
deriving Repr

/-- `EncodeGIFWithOptions` (part_003 lines 49-101): rejects an empty image
slice; otherwise configures repeat/global palette, encodes every frame and
appends the trailer.  Per-frame delays default to 100ms when absent or
non-positive. -/
def EncodeGIFWithOptions (quantPal : GoImage → List Nat)
    (images : List GoImage) (opts : EncodeOptions) :
    Except String (List Block) :=
  if images.length = 0 then Except.error "no images provided"
  else
    let st0 := { NewGIFEncoder with
      rept := if opts.rept ≠ 0 then opts.rept else 0,
      globalPalette := opts.globalPalette }
    match encodeLoop quantPal
        (fun i => if i < opts.delays.length ∧ 0 < opts.delays.getD i 0
          then opts.delays.getD i 0 else 100)
        st0 images 0 [] with
    | Except.error e => Except.error e
    | Except.ok blocks => Except.ok (blocks ++ [Block.trailer])

/-! ## Error-diffusion dithering (src/unnamed/part_002)

The Go kernels store `float64` weights.  Every weight of FloydSteinberg,
FalseFloydSteinberg and Atkinson is a dyadic rational, for which the
source's `float64` arithmetic (`int(float64(er) * d)` with `|er| ≤ 255`)
is exact, so those weights are embedded as exact numerator/denominator
pairs with truncating division.  Stucki's weights (n/42) are not dyadic;
no theorem below evaluates a Stucki deposit numerically — Stucki is only
reasoned about geometrically (which positions a tap touches), which is
independent of the weight's value. -/

/-- One row of a `DitheringKernel`: weight numerator/denominator and the
(Δx, Δy) tap offsets. -/
structure Tap where
  wn : Int
  wd : Int
  dx : Int
  dy : Int
deriving DecidableEq, Repr

/-- `FalseFloydSteinberg` kernel (part_002 lines 9-13). -/
def FalseFloydSteinberg : List Tap :=
  [⟨3, 8, 1, 0⟩, ⟨3, 8, 0, 1⟩, ⟨2, 8, 1, 1⟩]

/-- `FloydSteinberg` kernel (part_002 lines 16-21). -/
def FloydSteinberg : List Tap :=
  [⟨7, 16, 1, 0⟩, ⟨3, 16, -1, 1⟩, ⟨5, 16, 0, 1⟩, ⟨1, 16, 1, 1⟩]

/-- `Stucki` kernel (part_002 lines 24-37). -/
def Stucki : List Tap :=
  [⟨8, 42, 1, 0⟩, ⟨4, 42, 2, 0⟩, ⟨2, 42, -2, 1⟩, ⟨4, 42, -1, 1⟩,
   ⟨8, 42, 0, 1⟩, ⟨4, 42, 1, 1⟩, ⟨2, 42, 2, 1⟩, ⟨1, 42, -2, 2⟩,
   ⟨2, 42, -1, 2⟩, ⟨4, 42, 0, 2⟩, ⟨2, 42, 1, 2⟩, ⟨1, 42, 2, 2⟩]

/-- `Atkinson` kernel (part_002 lines 40-47). -/
def Atkinson : List Tap :=
  [⟨1, 8, 1, 0⟩, ⟨1, 8, 2, 0⟩, ⟨1, 8, -1, 1⟩, ⟨1, 8, 0, 1⟩, ⟨1, 8, 1, 1⟩,
   ⟨1, 8, 0, 2⟩]

/-- `clamp` (part_002 lines 174-182). -/
def clamp (value : Int) : Nat :=
  if value < 0 then 0
  else if value > 255 then 255
  else value.toNat

/-- Mutable state threaded through `ditherPixels`: the working pixel buffer
(`ge.pixels`, mutated in place by error deposits), the output index buffer
(`ge.indexedPixels`) and the used-entry bookkeeping (`ge.usedEntry`). -/
structure DitherState where
  data : List Nat
  indexed : List Nat
  used : List Bool
deriving DecidableEq, Repr

/-- Deposit of one kernel tap while processing pixel `(x, y)` (part_002
lines 144-159 loop body): bounds check on the target `(x+Δx, y+Δy)`, then
the three clamped channel updates `data[nIdx+c] += int(err * weight)`. -/
def tapDeposit (width height x y : Nat) (er eg eb : Int) (tap : Tap)
    (data : List Nat) : List Nat :=
  let nx : Int := (x : Int) + tap.dx
  let ny : Int := (y : Int) + tap.dy
  if 0 ≤ nx ∧ nx < (width : Int) ∧ 0 ≤ ny ∧ ny < (height : Int) then
    let nIdx := (ny.toNat * width + nx.toNat) * 3
    let d1 := data.set nIdx
      (clamp ((data.getD nIdx 0 : Int) + Int.tdiv (er * tap.wn) tap.wd))
    let d2 := d1.set (nIdx + 1)
      (clamp ((d1.getD (nIdx + 1) 0 : Int) + Int.tdiv (eg * tap.wn) tap.wd))
    d2.set (nIdx + 2)
      (clamp ((d2.getD (nIdx + 2) 0 : Int) + Int.tdiv (eb * tap.wn) tap.wd))
  else data

/-- Tap iteration order of the source (part_002 lines 135-142): forward for
direction 1, reversed for direction -1; the offsets themselves are reused
unchanged in both directions. -/
def orderedTaps (direction : Int) (kernel : List Tap) : List Tap :=
  if direction = 1 then kernel else kernel.reverse

/-- Modelled from the spec: the tap order the specification describes for
serpentine right-to-left rows, where additionally "each tap's horizontal
offset is mirrored" (Δx negated).  No function in src implements this; it
exists only to compare the spec's description against `orderedTaps`. -/
def mirroredTaps (direction : Int) (kernel : List Tap) : List Tap :=
  if direction = 1 then kernel
  else (kernel.map (fun t => { t with dx := -t.dx })).reverse

/-- Error diffusion for one processed pixel, generic in the tap-order policy
`policy` (the source uses `orderedTaps`). -/
def diffuseError (policy : Int → List Tap → List Tap) (kernel : List Tap)
    (width height x y : Nat) (er eg eb : Int) (direction : Int)
    (data : List Nat) : List Nat :=
  (policy direction kernel).foldl
    (fun d tap => tapDeposit width height x y er eg eb tap d) data

/-- Body of the per-pixel loop of `ditherPixels` (part_002 lines 109-168):
read the (possibly already error-adjusted) color, look up the nearest
palette index via `findClosest` (= `ge.findClosestRGB`), record it, compute
the per-channel quantization error against `colorTab` and diffuse it. -/
def ditherStep (policy : Int → List Tap → List Tap)
    (findClosest : Nat → Nat → Nat → Nat) (colorTab : List Nat)
    (kernel : List Tap) (width height : Nat) (direction : Int) (x y : Nat)
    (st : DitherState) : DitherState :=
  let index := y * width + x
  let idx := index * 3
  let r1 := st.data.getD idx 0
  let g1 := st.data.getD (idx + 1) 0
  let b1 := st.data.getD (idx + 2) 0
  let colorIdx := findClosest r1 g1 b1
  let used := st.used.set colorIdx true
  let indexed := st.indexed.set index colorIdx
  let paletteIdx := colorIdx * 3
  let r2 := colorTab.getD paletteIdx 0
  let g2 := colorTab.getD (paletteIdx + 1) 0
  let b2 := colorTab.getD (paletteIdx + 2) 0
  let er : Int := (r1 : Int) - (r2 : Int)
  let eg : Int := (g1 : Int) - (g2 : Int)
  let eb : Int := (b1 : Int) - (b2 : Int)
  let data := diffuseError policy kernel width height x y er eg eb direction
    st.data
  { data := data, indexed := indexed, used := used }

/-- Inner `for x != xEnd` loop of `ditherPixels`: starting from `x0` it
processes exactly `width` pixels stepping by `direction` (for direction 1:
`x = 0` up to `xEnd = width`; for direction -1: `x = width-1` down to
`xEnd = -1` — either way exactly `width` iterations). -/
def ditherRow (policy : Int → List Tap → List Tap)
    (findClosest : Nat → Nat → Nat → Nat) (colorTab : List Nat)
    (kernel : List Tap) (width height : Nat) (y : Nat) (direction : Int) :
    Nat → Int → DitherState → DitherState
  | 0, _, st => st
  | count + 1, x, st =>
    ditherRow policy findClosest colorTab kernel width height y direction
      count (x + direction)
      (ditherStep policy findClosest colorTab kernel width height direction
        x.toNat y st)

/-- Outer row loop of `ditherPixels` (part_002 lines 92-170): before each
row, serpentine mode flips `direction`; the row start is 0 (left-to-right)
or `width-1` (right-to-left). -/
def ditherRows (policy : Int → List Tap → List Tap)
    (findClosest : Nat → Nat → Nat → Nat) (colorTab : List Nat)
    (kernel : List Tap) (width height : Nat) (serpentine : Bool) :
    Nat → Nat → Int → DitherState → DitherState
  | 0, _, _, st => st
  | rows + 1, y, direction, st =>
    let dir := if serpentine then -direction else direction
    let x0 : Int := if dir = 1 then 0 else (width : Int) - 1
    ditherRows policy findClosest colorTab kernel width height serpentine
      rows (y + 1) dir
      (ditherRow policy findClosest colorTab kernel width height y dir
        width x0 st)

/-- `ditherPixels` with the tap-order policy abstracted; the working buffer
starts as the frame's pixels, `indexedPixels` as `len(pixels)/3` zeros,
`usedEntry` as 256 `false`s, and the initial direction is `-1` for
serpentine (flipped to 1 before row 0) and `1` otherwise. -/
def ditherPixelsWith (policy : Int → List Tap → List Tap)
    (findClosest : Nat → Nat → Nat → Nat) (colorTab : List Nat)
    (kernel : List Tap) (width height : Nat) (serpentine : Bool)
    (pixels : List Nat) : DitherState :=
  ditherRows policy findClosest colorTab kernel width height serpentine
    height 0 (if serpentine then -1 else 1)
    { data := pixels, indexed := List.replicate (pixels.length / 3) 0,
      used := List.replicate 256 false }

/-- `ditherPixels` (part_002 lines 64-171) for the four recognised kernels:
the source's tap order (`orderedTaps` — reversed on right-to-left rows,
offsets unchanged). -/
def ditherPixels (findClosest : Nat → Nat → Nat → Nat) (colorTab : List Nat)
    (kernel : List Tap) (width height : Nat) (serpentine : Bool)
    (pixels : List Nat) : DitherState :=
  ditherPixelsWith orderedTaps findClosest colorTab kernel width height
    serpentine pixels

/-- Modelled from the spec: `ditherPixels` as claim C2 describes it, with
every tap's horizontal offset mirrored on right-to-left rows. -/
def ditherPixelsMirrored (findClosest : Nat → Nat → Nat → Nat)
    (colorTab : List Nat) (kernel : List Tap) (width height : Nat)
    (serpentine : Bool) (pixels : List Nat) : DitherState :=
  ditherPixelsWith mirroredTaps findClosest colorTab kernel width height
    serpentine pixels

/-- Position of pixel `(x, y)` in the serpentine processing order: row-major
rows, odd rows scanned right-to-left when serpentine is on. -/
def scanRank (serpentine : Bool) (width : Nat) (p : Nat × Nat) : Nat :=
  if serpentine ∧ p.2 % 2 = 1 then p.2 * width + (width - 1 - p.1)
  else p.2 * width + p.1

/-! ## NeuQuant index build and nearest-color search (src/NeuQuant.go)

After `unbiasnet` each network entry holds three channel values 0..255 in
positions 0,1,2 (fed from the pixel stream in byte order, the source names
them b,g,r) and its stamped original position in field 3.  `inxbuild`
selection-sorts the network on field 1 (the "g" key) and fills the 256-entry
`netindex` lookup table; `inxsearch` then runs the bidirectional
branch-and-bound scan.  `int32` values are embedded as `Int`. -/

def netsize : Nat := 256
def maxnetpos : Nat := netsize - 1

/-- One network entry: the three color channels and the stamped index. -/
structure NQEntry where
  b : Int
  g : Int
  r : Int
  idx : Int
deriving DecidableEq, Repr

/-- Default entry used for out-of-range reads (never reached on in-range
indices, which all proofs establish). -/
def dEnt : NQEntry := ⟨0, 0, 0, 0⟩

/-- Inner minimum scan of `inxbuild` (NeuQuant.go lines 305-311): walks `j`
over the remaining `count` positions keeping the first position of the
strictly smallest `g` value seen. -/
def findSmallestAux (net : List NQEntry) :
    Nat → Nat → Nat → Int → Nat × Int
  | 0, _, smallpos, smallval => (smallpos, smallval)
  | count + 1, j, smallpos, smallval =>
    if (net.getD j dEnt).g < smallval then
      findSmallestAux net count (j + 1) j (net.getD j dEnt).g
    else
      findSmallestAux net count (j + 1) smallpos smallval

/-- The `smallpos`/`smallval` pair computed for outer index `i`: minimum of
positions `i..netsize-1` on the `g` key. -/
def findSmallest (net : List NQEntry) (i : Nat) : Nat × Int :=
  findSmallestAux net (maxnetpos - i) (i + 1) i (net.getD i dEnt).g

/-- The parallel swap `network[i], network[smallpos] =
network[smallpos], network[i]` (line 317); the source guards it with
`i != smallpos`, which is a no-op optimisation. -/
def swapList (net : List NQEntry) (i j : Nat) : List NQEntry :=
  (net.set i (net.getD j dEnt)).set j (net.getD i dEnt)

/-- The `for j := previouscol + 1; j < smallval; j++ { netindex[j] = i }`
fill (lines 324-326 and 333-335): sets `count` consecutive entries starting
at `start` to `v`. -/
def fillIndex (v : Int) : List Int → Nat → Nat → List Int
  | ni, _, 0 => ni
  | ni, start, count + 1 => fillIndex v (ni.set start v) (start + 1) count

/-- Outer loop of `inxbuild` (lines 299-330), running `count` more
iterations from position `i`: selection-sort step plus the `netindex`
bookkeeping (`previouscol`, `startpos`). -/
def inxbuildLoop (net : List NQEntry) (netindex : List Int) (i : Nat)
    (previouscol : Int) (startpos : Nat) :
    Nat → List NQEntry × List Int × Int × Nat
  | 0 => (net, netindex, previouscol, startpos)
  | count + 1 =>
    let sm := findSmallest net i
    let smallpos := sm.1
    let smallval := sm.2
    let net1 := swapList net i smallpos
    if smallval ≠ previouscol then
      let ni1 := netindex.set previouscol.toNat ((startpos + i) >>> 1 : Nat)
      let ni2 := fillIndex (i : Int) ni1 (previouscol.toNat + 1)
        (smallval - previouscol - 1).toNat
      inxbuildLoop net1 ni2 (i + 1) smallval i count
    else
      inxbuildLoop net1 netindex (i + 1) previouscol startpos count

/-- `inxbuild` (lines 295-336): sorts the network by the `g` key and builds
`netindex[0..255]`, finishing with `netindex[previouscol] =
(startpos + maxnetpos) >> 1` and the tail fill with `maxnetpos`. -/
def inxbuild (net : List NQEntry) : List NQEntry × List Int :=
  let res := inxbuildLoop net (List.replicate 256 0) 0 0 0 netsize
  let net1 := res.1
  let ni := res.2.1
  let previouscol := res.2.2.1
  let startpos := res.2.2.2
  let ni1 := ni.set previouscol.toNat ((startpos + maxnetpos) >>> 1 : Nat)
  let ni2 := fillIndex (maxnetpos : Int) ni1 (previouscol.toNat + 1)
    (255 - previouscol.toNat)
  (net1, ni2)

/-- Upward (`i`) half of the `inxsearch` loop body (lines 347-377): prune by
setting `i = netsize` when even the `g`-key distance reaches `bestd`,
otherwise accumulate the Manhattan distance with the source's two early
exits and update `bestd`/`best`.  Returns the new `(i, bestd, best)`. -/
def searchStepI (net : List NQEntry) (b g r : Int) (i : Nat)
    (bestd best : Int) : Nat × Int × Int :=
  let p := net.getD i dEnt
  let dist := p.g - g
  if dist ≥ bestd then (netsize, bestd, best)
  else
    let dist1 := if dist < 0 then -dist else dist
    let a := p.b - b
    let a1 := if a < 0 then -a else a
    let dist2 := dist1 + a1
    if dist2 < bestd then
      let a2 := p.r - r
      let a3 := if a2 < 0 then -a2 else a2
      let dist3 := dist2 + a3
      if dist3 < bestd then (i + 1, dist3, p.idx) else (i + 1, bestd, best)
    else (i + 1, bestd, best)

/-- Downward (`j`) half of the `inxsearch` loop body (lines 379-409),
symmetric to `searchStepI` with the reversed `g` difference and `j = -1` as
the stop marker. -/
def searchStepJ (net : List NQEntry) (b g r : Int) (j : Int)
    (bestd best : Int) : Int × Int × Int :=
  let p := net.getD j.toNat dEnt
  let dist := g - p.g
  if dist ≥ bestd then (-1, bestd, best)
  else
    let dist1 := if dist < 0 then -dist else dist
    let a := p.b - b
    let a1 := if a < 0 then -a else a
    let dist2 := dist1 + a1
    if dist2 < bestd then
      let a2 := p.r - r
      let a3 := if a2 < 0 then -a2 else a2
      let dist3 := dist2 + a3
      if dist3 < bestd then (j - 1, dist3, p.idx) else (j - 1, bestd, best)
    else (j - 1, bestd, best)

/-- `while i < netsize || j >= 0` loop of `inxsearch` (lines 346-410); each
iteration runs the `i` half (when `i < netsize`) and then the `j` half
(when `j ≥ 0`) on the updated `bestd`/`best`.  The fuel only bounds the
iteration count: 520 exceeds the loop measure `(netsize - i) + (j+1)`,
which every iteration strictly decreases, so the fuel case is dead code. -/
def inxsearchLoop (net : List NQEntry) (b g r : Int) :
    Nat → Nat → Int → Int → Int → Int
  | 0, _, _, _, best => best
  | fuel + 1, i, j, bestd, best =>
    if i < netsize ∨ 0 ≤ j then
      let s1 := if i < netsize then searchStepI net b g r i bestd best
        else (i, bestd, best)
      let s2 := if 0 ≤ j then searchStepJ net b g r j s1.2.1 s1.2.2
        else (j, s1.2.1, s1.2.2)
      inxsearchLoop net b g r fuel s1.1 s2.1 s2.2.1 s2.2.2
    else best

/-- `inxsearch` (lines 339-413): biggest-possible-distance sentinel 1000,
start position `netindex[g]`, bidirectional scan. -/
def inxsearch (net : List NQEntry) (netindex : List Int) (b g r : Int) :
    Int :=
  let i := (netindex.getD g.toNat 0).toNat
  inxsearchLoop net b g r 520 i ((i : Int) - 1) 1000 (-1)

/-- `LookupRGB` (lines 132-136): passes the query channels positionally to
`inxsearch` — the first argument is compared against network channel 0,
which was fed from the first byte of each RGB pixel triple. -/
def LookupRGB (net : List NQEntry) (netindex : List Int) (r g b : Int) :
    Int :=
  inxsearch net netindex r g b

/-- Manhattan distance between an entry's three channels and a query
(channel 0 against `c0`, channel 1 against `c1`, channel 2 against `c2`) —
the metric `inxsearch` accumulates. -/
def queryDist (e : NQEntry) (c0 c1 c2 : Int) : Int :=
  |e.b - c0| + |e.g - c1| + |e.r - c2|

/-- Channel bounds established by `unbiasnet` for every trained entry. -/
def entryInRange (e : NQEntry) : Prop :=
  0 ≤ e.b ∧ e.b ≤ 255 ∧ 0 ≤ e.g ∧ e.g ≤ 255 ∧ 0 ≤ e.r ∧ e.r ≤ 255

/-! ## GIF-LZW entropy coder (src/LZWEncoder.go)

Go `int` values are embedded as `Int`.  The only value that is ever
negative in the arithmetic of `compress` is `ent = EOF = -1` on an empty
pixel stream, but Go's `&`, `|` and `<<` operate on two's-complement
integers, so the embedding provides exact two's-complement `intAnd`,
`intOr` and `intShl` (`>>` on a negative Go int is an arithmetic shift,
which is exactly `Int.shiftRight`).  `Nat &&& / |||` cover the nonnegative
cases; the and-not needed for negative operands is `bdiff` below. -/

/-- Bitwise and-not on `Nat` (`m &&& ~~~n`), fueled binary recursion; fuel
64 covers every value a Go `int64` can hold. -/
def bdiffAux : Nat → Nat → Nat → Nat
  | 0, _, _ => 0
  | f + 1, m, n => (m % 2) * (1 - n % 2) + 2 * bdiffAux f (m / 2) (n / 2)

/-- `m &&& ~~~n` for `m < 2^64`. -/
def bdiff (m n : Nat) : Nat := bdiffAux 64 m n

/-- Two's-complement bitwise AND on `Int` (Go `&`). -/
def intAnd : Int → Int → Int
  | Int.ofNat m, Int.ofNat n => Int.ofNat (m &&& n)
  | Int.ofNat m, Int.negSucc n => Int.ofNat (bdiff m n)
  | Int.negSucc m, Int.ofNat n => Int.ofNat (bdiff n m)
  | Int.negSucc m, Int.negSucc n => Int.negSucc (m ||| n)

/-- Two's-complement bitwise OR on `Int` (Go `|`). -/
def intOr : Int → Int → Int
  | Int.ofNat m, Int.ofNat n => Int.ofNat (m ||| n)
  | Int.ofNat m, Int.negSucc n => Int.negSucc (bdiff n m)
  | Int.negSucc m, Int.ofNat n => Int.negSucc (bdiff m n)
  | Int.negSucc m, Int.negSucc n => Int.negSucc (m &&& n)

/-- Two's-complement left shift on `Int` (Go `<<`): multiplication by a
power of two, also for negative values. -/
def intShl (a : Int) (k : Nat) : Int := a * ((2 ^ k : Nat) : Int)

def BITS : Nat := 12
def HSIZE : Nat := 5003

/-- `masks` table of LZWEncoder.go lines 33-37. -/
def masks : List Int :=
  [0x0000, 0x0001, 0x0003, 0x0007, 0x000F, 0x001F,
   0x003F, 0x007F, 0x00FF, 0x01FF, 0x03FF, 0x07FF,
   0x0FFF, 0x1FFF, 0x3FFF, 0x7FFF, 0xFFFF]

/-- `MAXCODE` (line 87-89). -/
def MAXCODE (nBits : Nat) : Nat := (1 <<< nBits) - 1

/-- The closure-captured mutable state of `compress` (lines 93-119):
code-width bookkeeping, the sub-block staging buffer `accum` (its length is
the source's `aCount`), the rolling bit accumulator, the output bytes
written so far, and the two hash arrays as total functions from slot to
stored value (`htab` holds `-1` for an empty slot). -/
structure LZWState where
  clearFlg : Bool
  nBits : Nat
  maxcode : Nat
  freeEnt : Nat
  accum : List Nat
  curAccum : Int
  curBits : Nat
  out : List Nat
  htab : Nat → Int
  codetab : Nat → Nat

/-- `flushChar` (lines 122-128): emit the staging buffer as a
length-prefixed sub-block. -/
def flushChar (s : LZWState) : LZWState :=
  if 0 < s.accum.length then
    { s with out := s.out ++ [s.accum.length] ++ s.accum, accum := [] }
  else s

/-- `charOut` (lines 131-137): append one byte to the staging buffer and
flush it once it holds 254 bytes. -/
def charOut (c : Nat) (s : LZWState) : LZWState :=
  let s1 := { s with accum := s.accum ++ [c] }
  if 254 ≤ s1.accum.length then flushChar s1 else s1

/-- The `for curBits >= 8` drain inside `output` (lines 158-162).  `curBits`
never exceeds 7 + 12 before the drain, so fuel 3 is never exhausted. -/
def drainLoop : Nat → LZWState → LZWState
  | 0, s => s
  | f + 1, s =>
    if 8 ≤ s.curBits then
      drainLoop f (charOut (intAnd s.curAccum 0xff).toNat
        { s with curAccum := s.curAccum >>> 8, curBits := s.curBits - 8 })
    else s

/-- The `for curBits > 0` flush at EOF inside `output` (lines 184-188);
in Go `curBits` is an int driven negative by the final `-= 8`, and
truncated `Nat` subtraction exits the loop at the same iteration. -/
def flushRest : Nat → LZWState → LZWState
  | 0, s => s
  | f + 1, s =>
    if 0 < s.curBits then
      flushRest f (charOut (intAnd s.curAccum 0xff).toNat
        { s with curAccum := s.curAccum >>> 8, curBits := s.curBits - 8 })
    else s

/-- `output` (lines 146-191): mask the pending bits, merge `code` above
them, drain whole bytes, grow the code width when the dictionary outgrows
it (with the reset-after-clear special case), and flush everything once the
EOF code goes out. -/
def output (initBits : Nat) (code : Int) (s : LZWState) : LZWState :=
  let s0 := { s with curAccum := intAnd s.curAccum (masks.getD s.curBits 0) }
  let s1 :=
    if 0 < s0.curBits then
      { s0 with curAccum := intOr s0.curAccum (intShl code s0.curBits) }
    else { s0 with curAccum := code }
  let s2 := { s1 with curBits := s1.curBits + s1.nBits }
  let s3 := drainLoop 3 s2
  let s4 :=
    if s3.maxcode < s3.freeEnt ∨ s3.clearFlg then
      if s3.clearFlg then
        { s3 with nBits := initBits, maxcode := MAXCODE initBits,
                  clearFlg := false }
      else
        let mc := if s3.nBits + 1 = BITS then 1 <<< BITS
          else MAXCODE (s3.nBits + 1)
        { s3 with nBits := s3.nBits + 1, maxcode := mc }
    else s3
  if code = ((1 <<< (initBits - 1)) + 1 : Nat) then
    flushChar (flushRest 3 s4)
  else s4

/-- `clBlock` (lines 194-199): clear the hash table, reset `freeEnt`, raise
`clearFlg` and emit the clear code (whose `output` call then resets the
width). -/
def clBlock (initBits : Nat) (s : LZWState) : LZWState :=
  output initBits ((1 <<< (initBits - 1) : Nat) : Int)
    { s with htab := (fun _ => -1),
             freeEnt := (1 <<< (initBits - 1)) + 2, clearFlg := true }

/-- The `hshift` computation of lines 204-208: double `fcode` from `HSIZE`
until it reaches 65536, counting the doublings. -/
def hshiftLoop : Nat → Nat → Nat → Nat
  | 0, _, h => h
  | f + 1, fc, h => if fc < 65536 then hshiftLoop f (fc * 2) (h + 1) else h

/-- `hshift = 8 - #doublings` (evaluates to 4 for `HSIZE = 5003`). -/
def hshift : Nat := 8 - hshiftLoop 17 HSIZE 0

/-- Result of the secondary-probe loop: a stored code for the probed
`fcode`, or the empty slot where the search ended. -/
inductive ProbeResult where
  | found : Nat → ProbeResult
  | empty : Nat → ProbeResult
deriving DecidableEq, Repr

/-- The secondary-hash probe loop (lines 234-248): step the slot by
`-disp` modulo `HSIZE` until the probed `fcode` or an empty slot turns up.
Fuel `HSIZE` always suffices because the probe sequence visits every slot
and the table is never full. -/
def probeLoop (htab : Nat → Int) (codetab : Nat → Nat) (fcode : Int)
    (disp : Nat) : Nat → Nat → Option ProbeResult
  | 0, _ => none
  | f + 1, i =>
    let i1 := if i < disp then i + HSIZE - disp else i - disp
    if htab i1 = fcode then some (ProbeResult.found (codetab i1))
    else if htab i1 < 0 then some (ProbeResult.empty i1)
    else probeLoop htab codetab fcode disp f i1

/-- The body of the `outerLoop` of `compress` (lines 216-261) for one input
symbol `c` with current prefix code `ent`: primary hash check, secondary
probing, and on a miss the emission of `ent` followed by an insert (or
`clBlock` once the code space is exhausted).  Returns the new state and new
`ent` (which is ≥ 0 whenever the loop runs, since it comes from a pixel or
from `codetab`). -/
def compressStep (initBits : Nat) (c : Nat) (ent : Nat) (s : LZWState) :
    LZWState × Nat :=
  let fcode : Int := (((c <<< BITS) : Nat) : Int) + (ent : Int)
  let i0 : Nat := (c <<< hshift) ^^^ ent
  let miss : Nat → LZWState × Nat := fun slot =>
    let s1 := output initBits (ent : Int) s
    if s1.freeEnt < (1 <<< BITS) then
      ({ s1 with
          codetab := fun t => if t = slot then s1.freeEnt else s1.codetab t,
          freeEnt := s1.freeEnt + 1,
          htab := fun t => if t = slot then fcode else s1.htab t }, c)
    else (clBlock initBits s1, c)
  if s.htab i0 = fcode then (s, s.codetab i0)
  else if 0 ≤ s.htab i0 then
    let disp := if i0 = 0 then 1 else HSIZE - i0
    match probeLoop s.htab s.codetab fcode disp HSIZE i0 with
    | some (ProbeResult.found code) => (s, code)
    | some (ProbeResult.empty slot) => miss slot
    | none => (s, ent)
  else miss i0

/-- The `outerLoop` over the remaining pixels. -/
def compressLoop (initBits : Nat) : List Nat → LZWState → Nat →
    LZWState × Nat
  | [], s, ent => (s, ent)
  | c :: rest, s, ent =>
    let r := compressStep initBits (c &&& 0xff) ent s
    compressLoop initBits rest r.1 r.2

/-- Initial closure state of `compress`: cleared hash table, zeroed
accumulator and staging buffer, width `initBits`. -/
def initLZWState (initBits : Nat) : LZWState :=
  { clearFlg := false, nBits := initBits, maxcode := MAXCODE initBits,
    freeEnt := (1 <<< (initBits - 1)) + 2, accum := [], curAccum := 0,
    curBits := 0, out := [], htab := fun _ => -1, codetab := fun _ => 0 }

/-- `compress` (lines 92-266): `ent = nextPixel()` (−1 on an empty stream),
emit the clear code, run the outer loop, then emit the final `ent` and the
EOF code.  Returns the bytes written to `out`. -/
def compress (initBits : Nat) (pixels : List Nat) : List Nat :=
  match pixels with
  | [] =>
    let s1 := output initBits ((1 <<< (initBits - 1) : Nat) : Int)
      (initLZWState initBits)
    let s2 := output initBits (-1) s1
    let s3 := output initBits (((1 <<< (initBits - 1)) + 1 : Nat) : Int) s2
    s3.out
  | p :: rest =>
    let s1 := output initBits ((1 <<< (initBits - 1) : Nat) : Int)
      (initLZWState initBits)
    let r := compressLoop initBits rest s1 (p &&& 0xff)
    let s3 := output initBits ((r.2 : Nat) : Int) r.1
    let s4 := output initBits (((1 <<< (initBits - 1)) + 1 : Nat) : Int) s3
    s4.out

/-- `NewLZWEncoder` + `Encode` (lines 50-73): clamp the initial code size
to at least 2, write it, compress `width*height` pixels, write the block
terminator.  For a well-formed frame `width*height` equals the pixel
count; `List.take` models the `remaining` counter. -/
def Encode (width height : Nat) (pixels : List Nat) (colorDepth : Nat) :
    List Nat :=
  let initCodeSize := if colorDepth < 2 then 2 else colorDepth
  [initCodeSize] ++ compress (initCodeSize + 1)
    (pixels.take (width * height)) ++ [0]

/-! ## Standard GIF-LZW decoder

Modelled from the spec: "decodable by any standard GIF-LZW decoder" with
"variable code width starting at max(2,colorDepth)+1, LSB-first bit
packing, 12-bit code ceiling, clear-code and end-of-information codes
reserved" (claim C1 / spec §4.3, §6).  No decoder exists in src; this one
follows GIF89a appendix F: de-frame the length-prefixed sub-blocks, read
codes LSB-first at the current width, rebuild the string table one entry
behind the encoder (with the standard code==next-free special case), grow
the width when the next free code would not fit (capped at 12 bits), reset
on a clear code, stop at end-of-information.  Any malformed input yields
`none`. -/

/-- De-frame length-prefixed sub-blocks, stopping at the zero-length
terminator.  Fuel bounds the block count (each block consumes ≥ 1 byte). -/
def deblock : Nat → List Nat → Option (List Nat)
  | 0, _ => none
  | _ + 1, [] => none
  | _ + 1, 0 :: _ => some []
  | f + 1, n :: rest =>
    if rest.length < n then none
    else (deblock f (rest.drop n)).map (fun tail => rest.take n ++ tail)

/-- The eight bits of a byte, least significant first. -/
def byteToBits (b : Nat) : List Bool :=
  [b.testBit 0, b.testBit 1, b.testBit 2, b.testBit 3,
   b.testBit 4, b.testBit 5, b.testBit 6, b.testBit 7]

/-- LSB-first bit stream of a byte sequence. -/
def bitsOfBytes (bs : List Nat) : List Bool := bs.flatMap byteToBits

/-- Value of an LSB-first bit string. -/
def bitsVal : List Bool → Nat
  | [] => 0
  | b :: t => (if b then 1 else 0) + 2 * bitsVal t

/-- Read one `w`-bit code, LSB-first. -/
def readCode (bits : List Bool) (w : Nat) : Option (Nat × List Bool) :=
  if bits.length < w then none
  else some (bitsVal (bits.take w), bits.drop w)

/-- The string a code denotes for the decoder: literals below the clear
code, table entries from `clearCode+2` up; the clear and end-of-information
codes denote no string. -/
def codeStr (clearCode : Nat) (dict : List (List Nat)) (code : Nat) :
    Option (List Nat) :=
  if code < clearCode then some [code]
  else if code < clearCode + 2 then none
  else dict[code - clearCode - 2]?

/-- Decoder state between codes: the string table (entry `m` is code
`clearCode+2+m`), the current code width, the previous code (none right
after a clear) and the output so far. -/
structure DecState where
  dict : List (List Nat)
  nBits : Nat
  prev : Option Nat
  out : List Nat
deriving Repr

/-- Process one already-read code (everything except bit reading).  Returns
`none` for invalid codes, `some (inl st)` to continue, `some (inr out)` on
end-of-information. -/
def decStep (clearCode initBits : Nat) (st : DecState) (code : Nat) :
    Option (DecState ⊕ List Nat) :=
  if code = clearCode then
    some (Sum.inl { dict := [], nBits := initBits, prev := none,
                    out := st.out })
  else if code = clearCode + 1 then
    some (Sum.inr st.out)
  else
    match st.prev with
    | none =>
      if code < clearCode then
        some (Sum.inl { st with prev := some code, out := st.out ++ [code] })
      else none
    | some p =>
      match codeStr clearCode st.dict p with
      | none => none
      | some w =>
        let freeEnt := clearCode + 2 + st.dict.length
        let continue1 : List Nat → Option (DecState ⊕ List Nat) :=
          fun entry =>
            let newDict :=
              if freeEnt < 4096 then st.dict ++ [w ++ [entry.headD 0]]
              else st.dict
            let freeEnt1 := clearCode + 2 + newDict.length
            let nb := if MAXCODE st.nBits < freeEnt1 ∧ st.nBits < 12 then
              st.nBits + 1 else st.nBits
            some (Sum.inl { dict := newDict, nBits := nb,
                            prev := some code, out := st.out ++ entry })
        if code < freeEnt then
          match codeStr clearCode st.dict code with
          | none => none
          | some entry => continue1 entry
        else if code = freeEnt then
          continue1 (w ++ [w.headD 0])
        else none

/-- Bit-level decode loop: read a code at the current width, process it,
repeat.  Fuel bounds the code count (each code consumes ≥ 1 bit). -/
def decodeLoop (clearCode initBits : Nat) :
    Nat → List Bool → DecState → Option (List Nat)
  | 0, _, _ => none
  | f + 1, bits, st =>
    match readCode bits st.nBits with
    | none => none
    | some (code, rest) =>
      match decStep clearCode initBits st code with
      | none => none
      | some (Sum.inr out) => some out
      | some (Sum.inl st1) => decodeLoop clearCode initBits f rest st1

/-- Full standard decode of an LZW-compressed image data stream: initial
code size byte, framed sub-blocks, bit stream, code loop. -/
def decodeGifLzw (stream : List Nat) : Option (List Nat) :=
  match stream with
  | [] => none
  | ics :: rest =>
    if ics < 2 ∨ 12 ≤ ics then none
    else
      match deblock (rest.length + 1) rest with
      | none => none
      | some data =>
        let bits := bitsOfBytes data
        decodeLoop (1 <<< ics) (ics + 1) (bits.length + 1) bits
          { dict := [], nBits := ics + 1, prev := none, out := [] }

/-! ## Ghost notions for the LZW correctness proof -/

/-- The `w` low bits of `v`, least significant first. -/
def natToBits : Nat → Nat → List Bool
  | 0, _ => []
  | w + 1, v => decide (v % 2 = 1) :: natToBits w (v / 2)

/-- LSB-first bit stream of a `(code, width)` emission sequence. -/
def codeBits (E : List (Nat × Nat)) : List Bool :=
  E.flatMap (fun cw => natToBits cw.2 cw.1)

/-- `out` is a sequence of well-formed length-prefixed sub-blocks carrying
payload `P`: de-framing `out` followed by any de-framable tail yields `P`
followed by the tail's payload. -/
def DeblockInv (out P : List Nat) : Prop :=
  ∀ tail r, deblock (tail.length + 1) tail = some r →
    deblock (out.length + tail.length + 1) (out ++ tail) = some (P ++ r)

/-- The framing invariant of the running encoder: the bytes drained so far
are the payload of the finished sub-blocks in `out` followed by the staging
buffer, which never holds more than 253 bytes between `charOut` calls. -/
def FrameInv (s : LZWState) (B : List Nat) : Prop :=
  ∃ done, B = done ++ s.accum ∧ s.accum.length ≤ 253 ∧ DeblockInv s.out done

/-- Decoder state right after a clear code (also its initial state). -/
def decInit (initBits : Nat) : DecState :=
  { dict := [], nBits := initBits, prev := none, out := [] }

/-- The packed fcode of a prefix code and an extension byte, as hashed by
`compress`. -/
def fcodeOf (c ent : Nat) : Int := (((c <<< BITS) : Nat) : Int) + (ent : Int)

/-- Primary hash slot of a packed fcode (recomputed from the fcode; `ent`
occupies the low 12 bits and `c` the rest). -/
def primSlot (f : Int) : Nat :=
  ((f.toNat / 4096) <<< hshift) ^^^ (f.toNat % 4096)

/-- The secondary-probe walk as an arithmetic progression: slot visited
after `k` probe steps from primary slot `i0`.  The source steps by
`-disp` modulo `HSIZE` with `disp = HSIZE - i0` (or 1 when `i0 = 0`),
i.e. by `+i0` (or `+5002`). -/
def probeSeq (i0 k : Nat) : Nat :=
  (i0 + k * (if i0 = 0 then 5002 else i0)) % 5003

/-- The open-addressing invariant tying the two hash arrays to the ghost
dictionary `D` (`m`-th entry: packed fcode ↦ assigned code): stored slots
hold dictionary entries, every dictionary entry is stored at the end of a
probe path all of whose earlier slots are occupied by other fcodes, and
empty slots and entries account for the whole table. -/
def SlotInv (htab : Nat → Int) (codetab : Nat → Nat)
    (D : List (Int × Nat)) : Prop :=
  (∀ slot, slot < 5003 → 0 ≤ htab slot →
    (htab slot, codetab slot) ∈ D) ∧
  (∀ m, (hm : m < D.length) →
    ∃ k, k ≤ 5003 ∧
      htab (probeSeq (primSlot (D.get ⟨m, hm⟩).1) k) = (D.get ⟨m, hm⟩).1 ∧
      codetab (probeSeq (primSlot (D.get ⟨m, hm⟩).1) k)
        = (D.get ⟨m, hm⟩).2 ∧
      ∀ l, l < k → 0 ≤ htab (probeSeq (primSlot (D.get ⟨m, hm⟩).1) l) ∧
        htab (probeSeq (primSlot (D.get ⟨m, hm⟩).1) l)
          ≠ (D.get ⟨m, hm⟩).1) ∧
  ((List.range 5003).countP (fun s => decide (0 ≤ htab s)) ≤ D.length) ∧
  (∀ m1 m2, (h1 : m1 < D.length) → (h2 : m2 < D.length) →
    (D.get ⟨m1, h1⟩).1 = (D.get ⟨m2, h2⟩).1 → m1 = m2)

/-- The string a code stands for on the encoder side, decoded from the
ghost dictionary: literals below the clear code; entry `m` (code
`clearCode+2+m`) denotes the string of its stored prefix code followed by
its extension byte.  Fuel dominates the prefix-chain length. -/
def strOfCode (clearCode : Nat) (D : List (Int × Nat)) :
    Nat → Nat → Option (List Nat)
  | 0, _ => none
  | f + 1, code =>
    if code < clearCode then some [code]
    else
      match D[code - clearCode - 2]? with
      | none => none
      | some e =>
        (strOfCode clearCode D f (e.1.toNat % 4096)).map
          (fun w => w ++ [e.1.toNat / 4096])

/-- The dictionary-miss branch of `compress`'s outer loop (lines 252-258):
emit the pending prefix code, then insert the new fcode at the probed
empty `slot` (or clear the table if the code space is exhausted). -/
def missStep (initBits : Nat) (c ent slot : Nat) (s : LZWState) :
    LZWState × Nat :=
  let fcode : Int := (((c <<< BITS) : Nat) : Int) + (ent : Int)
  let s1 := output initBits (ent : Int) s
  if s1.freeEnt < (1 <<< BITS) then
    ({ s1 with
        codetab := fun t => if t = slot then s1.freeEnt else s1.codetab t,
        freeEnt := s1.freeEnt + 1,
        htab := fun t => if t = slot then fcode else s1.htab t }, c)
  else (clBlock initBits s1, c)

/-- Code-level decoder run over a `(code, width)` emission list, checking
that each code was emitted at exactly the width the decoder expects. -/
def decRun (clearCode initBits : Nat) :
    List (Nat × Nat) → DecState → Option DecState
  | [], st => some st
  | (c, w) :: rest, st =>
    if w = st.nBits ∧ c < 2 ^ w then
      match decStep clearCode initBits st c with
      | some (Sum.inl st1) => decRun clearCode initBits rest st1
      | _ => none
    else none

/-- Shape of the ghost dictionary: entry `m` packs a pixel `c < clearCode`
with a strictly earlier prefix code and carries code `clearCode + 2 + m`. -/
def DShape (clearCode : Nat) (D : List (Int × Nat)) : Prop :=
  ∀ m, (hm : m < D.length) → ∃ c e,
    D.get ⟨m, hm⟩ = (fcodeOf c e, clearCode + 2 + m) ∧ c < clearCode
    ∧ e < clearCode + 2 + m ∧ (e < clearCode ∨ clearCode + 2 ≤ e)

/-- The coupling invariant between the running encoder closure state and
the standard decoder, at the top of `compress`'s outer loop: `P` is the
pixels consumed so far, `ent` the pending prefix code denoting the pending
string `W`, `D` the ghost dictionary behind the two hash arrays, `dec` the
decoder state after the emitted `(code, width)` list `E`, and `B`/`v` the
drained bytes and the bit accumulator backing `E`'s bit stream. -/
structure LZWInv (initBits : Nat) (P : List Nat) (s : LZWState) (ent : Nat)
    (D : List (Int × Nat)) (dec : DecState) (E : List (Nat × Nat))
    (B : List Nat) (v : Nat) (W : List Nat) : Prop where
  hclearFlg : s.clearFlg = false
  hnBits : s.nBits = dec.nBits
  hnBits_lo : initBits ≤ s.nBits
  hnBits_hi : s.nBits ≤ 12
  hmaxcode : s.maxcode = if s.nBits = 12 then 1 <<< 12 else MAXCODE s.nBits
  hfreeEnt : s.freeEnt = (1 <<< (initBits - 1)) + 2 + D.length
  hfree_le : s.freeEnt ≤ s.maxcode + 1
  hfree_cap : s.freeEnt ≤ 4096
  hslot : SlotInv s.htab s.codetab D
  hshape : DShape (1 <<< (initBits - 1)) D
  hent_lt : ent < s.freeEnt
  hent_ns : ent < 1 <<< (initBits - 1) ∨ (1 <<< (initBits - 1)) + 2 ≤ ent
  hWstr : strOfCode (1 <<< (initBits - 1)) D (D.length + 1) ent = some W
  hWne : W ≠ []
  hout : dec.out ++ W = P
  hdict : ∀ m, (hm : m < dec.dict.length) →
    strOfCode (1 <<< (initBits - 1)) D (D.length + 1)
      ((1 <<< (initBits - 1)) + 2 + m) = some (dec.dict.get ⟨m, hm⟩)
  hcases :
    (dec.prev = none ∧ D = [] ∧ dec.dict = [] ∧ s.nBits = initBits)
    ∨ (∃ pcode, dec.prev = some pcode
        ∧ D.length = dec.dict.length + 1
        ∧ pcode < (1 <<< (initBits - 1)) + 2 + dec.dict.length
        ∧ (pcode < 1 <<< (initBits - 1)
            ∨ (1 <<< (initBits - 1)) + 2 ≤ pcode)
        ∧ ∃ hD : 0 < D.length,
            D.get ⟨D.length - 1, by omega⟩
              = (fcodeOf (W.headD 0) pcode,
                 (1 <<< (initBits - 1)) + 1 + D.length))
  hE : decRun (1 <<< (initBits - 1)) initBits E (decInit initBits)
    = some dec
  hEw : ∀ cw ∈ E, 0 < cw.2
  hacc : s.curAccum = (v : Int)
  hv : v < 2 ^ s.curBits
  hcb : s.curBits < 8
  hframe : FrameInv s B
  hbits : bitsOfBytes B ++ natToBits s.curBits v = codeBits E

end NicoGif

namespace NicoGif

/-! ## Theorems -/

/-- C10: `SetFrameRate` computes the frame delay as the unguarded integer
division `100/fps`: the `fps = 0` division-by-zero panic is reachable (the
embedding returns `none` there), every positive `fps` yields `100/fps`
(Go division truncates toward zero), while `SetQuality` clamps its argument
to at least 1. -/
theorem setFrameRate_division_unguarded :
    SetFrameRate 0 = none ∧
    (∀ fps : Int, 0 < fps → SetFrameRate fps = some (Int.tdiv 100 fps)) ∧
    (∀ q : Int, 1 ≤ SetQuality q) := by
  refine ⟨rfl, fun fps h => ?_, fun q => ?_⟩
  · rw [SetFrameRate, if_neg (by omega)]
  · unfold SetQuality
    split <;> omega

/-- Witness for `setFrameRate_division_unguarded`: instantiating the
quantified parts at `fps = 4` and `q = -5`. -/
theorem setFrameRate_division_unguarded_witness :
    SetFrameRate 4 = some 25 ∧ 1 ≤ SetQuality (-5) := by
  obtain ⟨-, h2, h3⟩ := setFrameRate_division_unguarded
  exact ⟨(h2 4 (by decide)).trans (by decide), h3 (-5)⟩

/-- C6 counterexample: at `lengthcount = 499·491·487·503` every candidate
prime divides the byte count, so no prime in the order {499, 491, 487, 503}
qualifies as "the first whose prime does not evenly divide", yet the code
still picks `3·503`; the claim as stated is false at this input. -/
theorem learnStride_claim_counterexample :
    ¬ strideClaimHolds (499 * 491 * 487 * 503) 10 := by
  intro h
  rw [strideClaimHolds, if_neg (by decide)] at h
  obtain ⟨p, hp, -⟩ := h
  rw [show firstNonDividingPrime (499 * 491 * 487 * 503) = none by decide]
    at hp
  exact Option.noConfusion hp

/-- C6 (amended): below `3×503` bytes the stride is 3 and the sample factor
falls back to 1; otherwise the sample factor is kept and the stride is three
times the first of 499, 491, 487 (in exactly that order) that does not divide
the byte count, with an unconditional fallback to 503 when all three divide
it — even if 503 also divides the byte count. -/
theorem learnStride_order (n sf : Nat) :
    (n < 3 * prime4 → learnStride n sf = (1, 3)) ∧
    (3 * prime4 ≤ n →
      (learnStride n sf).1 = sf ∧
      (learnStride n sf).2 = 3 * (firstNonDividingPrime n).getD prime4) := by
  have hmin : minpicturebytes = 1509 := rfl
  have hp4 : prime4 = 503 := rfl
  constructor
  · intro h
    rw [learnStride, if_pos (by omega)]
  · intro h
    rw [learnStride, if_neg (by omega : ¬ n < minpicturebytes),
      firstNonDividingPrime]
    by_cases h1 : n % prime1 ≠ 0
    · simp [h1, List.find?]
    · by_cases h2 : n % prime2 ≠ 0
      · simp [h1, h2, List.find?]
      · by_cases h3 : n % prime3 ≠ 0
        · simp [h1, h2, h3, List.find?]
        · by_cases h4 : n % prime4 ≠ 0 <;>
            simp [h1, h2, h3, h4, List.find?]

/-- Witness for `learnStride_order`: both branches at concrete byte counts
(100 is below the threshold; 1509 = 3·503 is not divisible by 499). -/
theorem learnStride_order_witness :
    learnStride 100 7 = (1, 3) ∧
    (learnStride 1509 7).1 = 7 ∧ (learnStride 1509 7).2 = 3 * 499 := by
  refine ⟨(learnStride_order 100 7).1 (by decide), ?_⟩
  have h := (learnStride_order 1509 7).2 (by decide)
  exact ⟨h.1, h.2.trans (by decide)⟩

/-- C7: the disposal field (bits 2..4) of the graphic control extension's
packed byte is 2 when a transparent color is set and no override was given,
0 when neither is present, and a non-negative override set through
`SetDispose` takes precedence, masked to 3 bits before packing. -/
theorem writeGraphicCtrlExt_disposal (transparent : Option RGBA)
    (dispose : Int) (delay transIndex : Nat) :
    (writeGraphicCtrlExt transparent dispose delay transIndex).getD 3 0
      = gcePackedByte transparent dispose ∧
    ((gcePackedByte transparent dispose >>> 2) &&& 7
      = if 0 ≤ dispose then dispose.toNat &&& 7
        else if transparent = none then 0 else 2) ∧
    (∀ old d : Int, 0 ≤ d → SetDispose old d = d) := by
  refine ⟨rfl, ?_, fun old d hd => by rw [SetDispose, if_pos hd]⟩
  have hor : ∀ D T : Nat, T < 4 → (D <<< 2) ||| T = 4 * D + T := by
    intro D T hT
    rw [Nat.shiftLeft_eq, Nat.mul_comm, show (2 : Nat) ^ 2 = 4 from rfl]
    exact (show 2 ^ 2 * D + T = 2 ^ 2 * D ||| T from
      Nat.mul_add_lt_is_or (by omega) D).symm
  have hmask : ∀ x : Nat, x &&& 7 = x % 8 := fun x =>
    show x &&& (2 ^ 3 - 1) = x % 8 from Nat.and_pow_two_sub_one_eq_mod x 3
  have key : ∀ D T : Nat, D ≤ 7 → T ≤ 1 →
      (((D <<< 2) ||| T) >>> 2) &&& 7 = D := by
    intro D T hD hT
    rw [hor D T (by omega), hmask, Nat.shiftRight_eq_div_pow]
    show (4 * D + T) / 2 ^ 2 % 8 = D
    omega
  rw [gcePackedByte]
  by_cases hd : 0 ≤ dispose <;> by_cases ht : transparent = none
  · simp only [hd, ht, ite_true, if_pos]
    exact key _ 0 (by rw [hmask]; omega) (by omega)
  · simp only [hd, ht, ite_true, ite_false, if_pos, if_neg,
      not_false_iff]
    exact key _ 1 (by rw [hmask]; omega) (by omega)
  · simp only [hd, ht, ite_true, ite_false, if_pos, if_neg]
    exact key 0 0 (by omega) (by omega)
  · simp only [hd, ht, ite_true, ite_false, if_pos, if_neg,
      not_false_iff]
    exact key 2 1 (by omega) (by omega)

/-- Witness for `writeGraphicCtrlExt_disposal`: at a concrete override
`dispose = 11` the disposal field is `11 &&& 7 = 3`, and with no override a
transparent color gives field 2. -/
theorem writeGraphicCtrlExt_disposal_witness :
    ((gcePackedByte none 11 >>> 2) &&& 7 = 3) ∧
    ((gcePackedByte (some ⟨1, 2, 3, 255⟩) (-1) >>> 2) &&& 7 = 2) ∧
    SetDispose (-1) 5 = 5 := by
  refine ⟨?_, ?_, ?_⟩
  · exact ((writeGraphicCtrlExt_disposal none 11 0 0).2.1).trans (by decide)
  · exact ((writeGraphicCtrlExt_disposal (some ⟨1, 2, 3, 255⟩) (-1) 0 0).2.1
      ).trans (by decide)
  · exact (writeGraphicCtrlExt_disposal none 0 0 0).2.2 (-1) 5 (by decide)

/-- C3 counterexample: a caller-supplied global palette of 769 bytes is
written verbatim — `writePalette` pads short tables but never truncates, so
the emitted color table is 769 bytes, not 768. -/
theorem writePalette_claim_counterexample :
    (writePalette (List.replicate 769 1)).length ≠ 768 := by
  simp [writePalette]

/-- C3 (amended): every color table emitted by `writePalette` — the global
color table of the first frame and every local color table of later frames —
is `colorTab` zero-padded to `max 768 (length colorTab)` bytes: exactly 768
bytes whenever `colorTab` is at most 768 bytes (always true for
quantizer-built palettes), while an oversized caller-supplied global palette
is written verbatim without truncation. -/
theorem writePalette_length (colorTab : List Nat) :
    (writePalette colorTab).length = max 768 colorTab.length ∧
    (colorTab.length ≤ 768 → (writePalette colorTab).length = 768) := by
  have h : (writePalette colorTab).length
      = colorTab.length + (3 * 256 - colorTab.length) := by
    simp [writePalette]
  constructor
  · omega
  · intro hle
    omega

/-- Witness for `writePalette_length`: a 6-byte palette is padded to exactly
768 bytes. -/
theorem writePalette_length_witness :
    (writePalette [1, 2, 3, 4, 5, 6]).length = 768 := by
  exact (writePalette_length [1, 2, 3, 4, 5, 6]).2 (by decide)

/-- Length of a flatMap over `List.range` whose blocks all have length `L`. -/
theorem flatMap_range_length {α : Type} (g : Nat → List α) (L h : Nat)
    (hg : ∀ y, y < h → (g y).length = L) :
    ((List.range h).flatMap g).length = h * L := by
  induction h with
  | zero => simp
  | succ n ih =>
    rw [List.range_succ, List.flatMap_append, List.length_append,
      ih (fun y hy => hg y (by omega)), List.flatMap_cons, List.flatMap_nil,
      List.append_nil, hg n (by omega)]
    ring

/-- Indexing a flatMap over `List.range` with uniform block length `L`:
position `y*L + r` lands in block `y` at offset `r`. -/
theorem flatMap_range_getElem? {α : Type} (g : Nat → List α) (L h y r : Nat)
    (hg : ∀ z, z < h → (g z).length = L) (hy : y < h) (hr : r < L) :
    ((List.range h).flatMap g)[y * L + r]? = (g y)[r]? := by
  induction h with
  | zero => omega
  | succ n ih =>
    rw [List.range_succ, List.flatMap_append, List.flatMap_cons,
      List.flatMap_nil, List.append_nil]
    by_cases hyn : y < n
    · rw [List.getElem?_append_left
        (by rw [flatMap_range_length g L n (fun z hz => hg z (by omega))]
            calc y * L + r < y * L + L := by omega
              _ = (y + 1) * L := by ring
              _ ≤ n * L := Nat.mul_le_mul_right L (by omega))]
      exact ih (fun z hz => hg z (by omega)) hyn
    · have hyeq : y = n := by omega
      subst hyeq
      rw [List.getElem?_append_right
        (by rw [flatMap_range_length g L y (fun z hz => hg z (by omega))]
            omega)]
      rw [flatMap_range_length g L y (fun z hz => hg z (by omega))]
      congr 1
      omega

/-- The three bytes of pixel `(x, y)` inside the packed extraction core. -/
theorem getImagePixels_core_getElem? (img : GoImage) (width height x y : Nat)
    (hx : x < extractedWidth img width) (hy : y < extractedHeight img height)
    (c : Nat) (hc : c < 3) :
    ((List.range (extractedHeight img height)).flatMap (fun y =>
        (List.range (extractedWidth img width)).flatMap (fun x =>
          [byteConv (img.At (img.minX + (x : Int)) (img.minY + (y : Int))).1,
           byteConv (img.At (img.minX + (x : Int)) (img.minY + (y : Int))).2.1,
           byteConv (img.At (img.minX + (x : Int)) (img.minY + (y : Int))).2.2
          ])))[
      (y * extractedWidth img width + x) * 3 + c]?
      = [byteConv (img.At (img.minX + (x : Int)) (img.minY + (y : Int))).1,
         byteConv (img.At (img.minX + (x : Int)) (img.minY + (y : Int))).2.1,
         byteConv (img.At (img.minX + (x : Int)) (img.minY + (y : Int))).2.2][
      c]? := by
  set w := extractedWidth img width with hw
  set h := extractedHeight img height with hh
  have hinner : ∀ z, z < h → ((List.range w).flatMap (fun x =>
      [byteConv (img.At (img.minX + (x : Int)) (img.minY + (z : Int))).1,
       byteConv (img.At (img.minX + (x : Int)) (img.minY + (z : Int))).2.1,
       byteConv (img.At (img.minX + (x : Int)) (img.minY + (z : Int))).2.2]
      )).length = w * 3 := by
    intro z _
    refine flatMap_range_length _ 3 w ?_
    intro q hq
    rfl
  have hidx : (y * w + x) * 3 + c = y * (w * 3) + (x * 3 + c) := by ring
  rw [hidx, flatMap_range_getElem? _ (w * 3) h y (x * 3 + c) hinner hy
      (by omega)]
  refine flatMap_range_getElem? _ 3 w x c ?_ hx hc
  intro q hq
  rfl

/-- C9: for every source image, `getImagePixels` yields exactly
`width*height*3` bytes; the available `w'×h'` region is packed contiguously
from the start of the buffer in row-major order (three bytes per pixel,
high-byte channel conversion), and every byte past the extracted region is
the fixed sentinel 255 — no byte is left undefined. -/
theorem getImagePixels_sentinel (img : GoImage) (width height : Nat) :
    (getImagePixels img width height).length = width * height * 3 ∧
    (∀ i, extractedWidth img width * extractedHeight img height * 3 ≤ i →
      i < width * height * 3 →
      (getImagePixels img width height).getD i 0 = 255) ∧
    (∀ x y c, x < extractedWidth img width →
      y < extractedHeight img height → c < 3 →
      (getImagePixels img width height).getD
          ((y * extractedWidth img width + x) * 3 + c) 0
        = [byteConv (img.At (img.minX + (x : Int)) (img.minY + (y : Int))).1,
           byteConv (img.At (img.minX + (x : Int)) (img.minY + (y : Int))).2.1,
           byteConv (img.At (img.minX + (x : Int)) (img.minY + (y : Int))).2.2
          ].getD c 0) := by
  have hwle : extractedWidth img width ≤ width := by
    rw [extractedWidth]; split <;> omega
  have hhle : extractedHeight img height ≤ height := by
    rw [extractedHeight]; split <;> omega
  set w := extractedWidth img width with hw
  set h := extractedHeight img height with hh
  have hcore : ((List.range h).flatMap (fun y =>
      (List.range w).flatMap (fun x =>
        [byteConv (img.At (img.minX + (x : Int)) (img.minY + (y : Int))).1,
         byteConv (img.At (img.minX + (x : Int)) (img.minY + (y : Int))).2.1,
         byteConv (img.At (img.minX + (x : Int)) (img.minY + (y : Int))).2.2]
        ))).length = h * (w * 3) := by
    exact flatMap_range_length _ (w * 3) h (fun z _ =>
      flatMap_range_length _ 3 w (fun _ _ => rfl))
  have hch : h * (w * 3) = w * h * 3 := by ring
  have hcore_le : h * (w * 3) ≤ width * height * 3 := by
    calc h * (w * 3) ≤ height * (width * 3) :=
          Nat.mul_le_mul hhle (Nat.mul_le_mul_right 3 hwle)
      _ = width * height * 3 := by ring
  refine ⟨?_, ?_, ?_⟩
  · rw [getImagePixels, List.length_append, hcore, List.length_replicate]
    omega
  · intro i hge hlt
    rw [getImagePixels, List.getD_eq_getElem?_getD,
      List.getElem?_append_right (by rw [hcore]; omega : _ ≤ i), hcore,
      List.getElem?_replicate, if_pos (by omega)]
    rfl
  · intro x y c hx hy hc
    rw [getImagePixels, List.getD_eq_getElem?_getD,
      List.getElem?_append_left (by
        rw [hcore]
        calc (y * w + x) * 3 + c < (y * w + x) * 3 + 3 := by omega
          _ = (y * w + x + 1) * 3 := by ring
          _ ≤ h * w * 3 := by
              have : y * w + x + 1 ≤ h * w := by
                calc y * w + x + 1 ≤ y * w + w := by omega
                  _ = (y + 1) * w := by ring
                  _ ≤ h * w := Nat.mul_le_mul_right w (by omega)
              omega
          _ = h * (w * 3) := by ring),
      getImagePixels_core_getElem? img width height x y hx hy c hc,
      ← List.getD_eq_getElem?_getD]

/-- Witness for `getImagePixels_sentinel`: a 1×1 image on a 2×2 canvas —
three extracted bytes at the front, nine sentinel bytes of 255 behind. -/
theorem getImagePixels_sentinel_witness :
    (getImagePixels ⟨0, 0, 1, 1, fun _ _ => (0x1234, 0x5678, 0x9abc)⟩ 2 2
      ).getD 0 0 = 0x12 ∧
    (getImagePixels ⟨0, 0, 1, 1, fun _ _ => (0x1234, 0x5678, 0x9abc)⟩ 2 2
      ).getD 7 0 = 255 ∧
    (getImagePixels ⟨0, 0, 1, 1, fun _ _ => (0x1234, 0x5678, 0x9abc)⟩ 2 2
      ).length = 12 := by
  have h := getImagePixels_sentinel
    ⟨0, 0, 1, 1, fun _ _ => (0x1234, 0x5678, 0x9abc)⟩ 2 2
  refine ⟨?_, ?_, ?_⟩
  · exact (h.2.2 0 0 0 (by decide) (by decide) (by decide)).trans (by decide)
  · exact h.2.1 7 (by decide) (by decide)
  · exact h.1

/-- C5: with a caller-supplied non-empty global palette no frame quantizes,
no local color table block is ever written (the only palette block is the
first frame's global table, reusing the supplied palette verbatim) and every
image descriptor packed byte is 0; with no global palette every frame
quantizes, frames after the first put their freshly built palette strictly
between the image descriptor and the compressed pixel data (descriptor
packed byte `0x80 | 7`), and the first frame relies on the global color
table with local-table flag 0. -/
theorem addFrame_palette_policy (st : EncState) (quantPal p : List Nat) :
    (st.globalPalette = some p → p ≠ [] →
      (addFrameCore st quantPal).2.2 = false ∧
      (addFrameCore st quantPal).2.1 =
        (if st.firstFrame then
          [Block.header, Block.logicalScreenDesc,
            Block.palette (writePalette p)] ++
          (if 0 ≤ st.rept then [Block.netscapeExt] else []) else []) ++
        [Block.graphicCtrlExt, Block.imageDesc 0, Block.pixelData]) ∧
    (st.globalPalette = none →
      (addFrameCore st quantPal).2.2 = true ∧
      (st.firstFrame = false →
        (addFrameCore st quantPal).2.1 =
          [Block.graphicCtrlExt, Block.imageDesc (0x80 ||| 7),
            Block.palette (writePalette quantPal), Block.pixelData]) ∧
      (st.firstFrame = true →
        (addFrameCore st quantPal).2.1 =
          [Block.header, Block.logicalScreenDesc,
            Block.palette (writePalette quantPal)] ++
          (if 0 ≤ st.rept then [Block.netscapeExt] else []) ++
          [Block.graphicCtrlExt, Block.imageDesc 0, Block.pixelData])) := by
  constructor
  · intro hg hp
    have hlen : 0 < p.length := by
      cases p with
      | nil => exact absurd rfl hp
      | cons a l => simp
    constructor
    · have h22 : (addFrameCore st quantPal).2.2
          = frameQuantizes st.globalPalette := rfl
      rw [h22, hg]
      exact decide_eq_false (by omega)
    · simp only [addFrameCore, frameColorTab, imageDescPacked, hg,
        if_pos hlen, Option.isSome_some, Bool.or_true, if_true, ite_true]
      cases hf : st.firstFrame <;>
        simp [hf, hg, List.append_assoc]
  · intro hg
    refine ⟨by simp [addFrameCore, frameQuantizes, hg], ?_, ?_⟩
    · intro hf
      simp [addFrameCore, frameColorTab, imageDescPacked, hg, hf]
    · intro hf
      simp [addFrameCore, frameColorTab, imageDescPacked, hg, hf,
        List.append_assoc]

/-- Witness for `addFrame_palette_policy`: a concrete second frame under a
3-byte global palette emits no palette block and descriptor byte 0; the same
frame without a global palette emits its quantized palette between
descriptor and pixel data. -/
theorem addFrame_palette_policy_witness :
    (addFrameCore
        { firstFrame := false, globalPalette := some [1, 2, 3], rept := 0,
          dispose := -1, transparent := none, delay := 0 } [9, 9, 9]).2.1 =
      [Block.graphicCtrlExt, Block.imageDesc 0, Block.pixelData] ∧
    (addFrameCore
        { firstFrame := false, globalPalette := none, rept := 0,
          dispose := -1, transparent := none, delay := 0 } [9, 9, 9]).2.1 =
      [Block.graphicCtrlExt, Block.imageDesc (0x80 ||| 7),
        Block.palette (writePalette [9, 9, 9]), Block.pixelData] := by
  constructor
  · have h := (addFrame_palette_policy
      { firstFrame := false, globalPalette := some [1, 2, 3], rept := 0,
        dispose := -1, transparent := none, delay := 0 } [9, 9, 9] [1, 2, 3]
      ).1 rfl (by decide)
    rw [h.2]
    rfl
  · exact ((addFrame_palette_policy
      { firstFrame := false, globalPalette := none, rept := 0,
        dispose := -1, transparent := none, delay := 0 } [9, 9, 9] []
      ).2 rfl).2.1 rfl

/-- The frame loop of the batch layer never fails: `AddFrame` always returns
nil, so the only `Except.error` the loop could propagate never arises. -/
theorem encodeLoop_isOk (quantPal : GoImage → List Nat) (delayAt : Nat → Int)
    (imgs : List GoImage) :
    ∀ st i acc, ∃ bs, encodeLoop quantPal delayAt st imgs i acc
      = Except.ok bs := by
  induction imgs with
  | nil => intro st i acc; exact ⟨acc, rfl⟩
  | cons img rest ih =>
    intro st i acc
    rw [encodeLoop]
    exact ih _ _ _

/-- C8: the batch entry points `EncodeGIF` / `EncodeGIFWithOptions` return an
error exactly when the image slice is empty, and per-frame encoding never
fails — `AddFrame` always returns nil (`Except.ok`). -/
theorem encodeGIF_error_iff_empty (quantPal : GoImage → List Nat)
    (images : List GoImage) (delays : List Int) (opts : EncodeOptions) :
    ((EncodeGIF quantPal images delays).isOk = true ↔ images ≠ []) ∧
    ((EncodeGIFWithOptions quantPal images opts).isOk = true ↔ images ≠ [])
    ∧ (∀ st qp, AddFrame st qp = Except.ok (addFrameCore st qp)) := by
  refine ⟨?_, ?_, fun st qp => rfl⟩
  · rw [EncodeGIF]
    by_cases h : images.length = 0
    · rw [if_pos h]
      simp [Except.isOk, Except.toBool, List.length_eq_zero.mp h]
    · rw [if_neg h]
      obtain ⟨bs, hbs⟩ := encodeLoop_isOk quantPal
        (fun i => if i < delays.length then delays.getD i 0 else 100)
        images { NewGIFEncoder with rept := 0 } 0 []
      rw [hbs]
      simp [Except.isOk, Except.toBool]
      intro hnil
      exact h (by rw [hnil]; rfl)
  · rw [EncodeGIFWithOptions]
    by_cases h : images.length = 0
    · rw [if_pos h]
      simp [Except.isOk, Except.toBool, List.length_eq_zero.mp h]
    · rw [if_neg h]
      obtain ⟨bs, hbs⟩ := encodeLoop_isOk quantPal
        (fun i => if i < opts.delays.length ∧ 0 < opts.delays.getD i 0
          then opts.delays.getD i 0 else 100)
        images
        { NewGIFEncoder with
          rept := (if opts.rept ≠ 0 then opts.rept else 0),
          globalPalette := opts.globalPalette } 0 []
      simp only [hbs]
      simp [Except.isOk, Except.toBool]
      intro hnil
      exact h (by rw [hnil]; rfl)

/-- Witness for `encodeGIF_error_iff_empty`: one concrete 1×1 frame encodes
successfully, the empty slice does not. -/
theorem encodeGIF_error_iff_empty_witness :
    (EncodeGIF (fun _ => [0, 0, 0]) [⟨0, 0, 1, 1, fun _ _ => (0, 0, 0)⟩]
      [50]).isOk = true ∧
    (EncodeGIF (fun _ => [0, 0, 0]) [] []).isOk = false := by
  constructor
  · exact (encodeGIF_error_iff_empty (fun _ => [0, 0, 0])
      [⟨0, 0, 1, 1, fun _ _ => (0, 0, 0)⟩] [50]
      ⟨0, none, []⟩).1.mpr (by simp)
  · rfl

/-- Setting an index leaves every other index of a list unchanged. -/
theorem getD_set_ne {α : Type} (l : List α) (i j : Nat) (v d : α)
    (h : j ≠ i) : (l.set j v).getD i d = l.getD i d := by
  rw [List.getD_eq_getElem?_getD, List.getD_eq_getElem?_getD,
    List.getElem?_set_ne h]

/-- C2 counterexample: the source's serpentine mode does not mirror tap
offsets.  On a 2×2 frame with a black/white palette the real `ditherPixels`
and the spec-described mirrored variant disagree; and on a 3×2 uniform frame
the step processing pixel (1,1) of the right-to-left row 1 changes byte 15 —
pixel (2,1) — from 25 to 37 even though (2,1) (serpentine rank 3) was
already processed before (1,1) (rank 4). -/
theorem ditherPixels_serpentine_counterexample :
    (ditherPixels (fun r g b => if 384 ≤ r + g + b then 1 else 0)
        [0, 0, 0, 255, 255, 255] FloydSteinberg 2 2 true
        [0, 0, 0, 0, 0, 0, 140, 140, 140, 200, 200, 200]).indexed
      ≠ (ditherPixelsMirrored (fun r g b => if 384 ≤ r + g + b then 1 else 0)
        [0, 0, 0, 255, 255, 255] FloydSteinberg 2 2 true
        [0, 0, 0, 0, 0, 0, 140, 140, 140, 200, 200, 200]).indexed ∧
    (ditherStep orderedTaps (fun _ _ _ => 0) [0, 0, 0] FloydSteinberg 3 2
        (-1) 2 1
        (ditherRow orderedTaps (fun _ _ _ => 0) [0, 0, 0] FloydSteinberg 3 2
          0 1 3 0
          ⟨List.replicate 18 16, List.replicate 6 0,
            List.replicate 256 false⟩)).data.getD 15 0 = 25 ∧
    (ditherStep orderedTaps (fun _ _ _ => 0) [0, 0, 0] FloydSteinberg 3 2
        (-1) 1 1
        (ditherStep orderedTaps (fun _ _ _ => 0) [0, 0, 0] FloydSteinberg 3 2
          (-1) 2 1
          (ditherRow orderedTaps (fun _ _ _ => 0) [0, 0, 0] FloydSteinberg
            3 2 0 1 3 0
            ⟨List.replicate 18 16, List.replicate 6 0,
              List.replicate 256 false⟩))).data.getD 15 0 = 37 ∧
    scanRank true 3 (2, 1) < scanRank true 3 (1, 1) := by
  refine ⟨by decide, by decide, by decide, by decide⟩

/-- C2 (amended): serpentine mode reverses the scan direction on each row
and iterates the kernel taps in reverse order, but does not mirror their
horizontal offsets: a tap only ever deposits error at the unmirrored target
`(x+Δx, y+Δy)` (first conjunct); on a serpentine right-to-left (odd) row any
same-row forward tap (Δy = 0, Δx > 0) therefore targets a pixel that was
already processed (second conjunct) — and each of the four kernels contains
such a tap (third conjunct), so error does not always propagate toward
pixels not yet processed. -/
theorem ditherPixels_serpentine_unmirrored :
    (∀ width height x y : Nat, ∀ er eg eb : Int, ∀ tap : Tap,
      ∀ data : List Nat, ∀ i : Nat,
      (tapDeposit width height x y er eg eb tap data).getD i 0
          ≠ data.getD i 0 →
      (0 ≤ (x : Int) + tap.dx ∧ (x : Int) + tap.dx < (width : Int) ∧
        0 ≤ (y : Int) + tap.dy ∧ (y : Int) + tap.dy < (height : Int)) ∧
      ∃ c, c < 3 ∧
        i = (((y : Int) + tap.dy).toNat * width
          + ((x : Int) + tap.dx).toNat) * 3 + c) ∧
    (∀ w x y dx : Nat, y % 2 = 1 → 0 < dx → x + dx < w →
      scanRank true w (x + dx, y) < scanRank true w (x, y)) ∧
    (∀ k ∈ [FloydSteinberg, FalseFloydSteinberg, Stucki, Atkinson],
      ∃ t ∈ k, t.dy = 0 ∧ 0 < t.dx) := by
  refine ⟨?_, ?_, ?_⟩
  · intro width height x y er eg eb tap data i hne
    rw [tapDeposit] at hne
    by_cases hb : 0 ≤ (x : Int) + tap.dx ∧ (x : Int) + tap.dx < (width : Int)
        ∧ 0 ≤ (y : Int) + tap.dy ∧ (y : Int) + tap.dy < (height : Int)
    · refine ⟨hb, ?_⟩
      rw [if_pos hb] at hne
      set nIdx := (((y : Int) + tap.dy).toNat * width
        + ((x : Int) + tap.dx).toNat) * 3 with hnIdx
      by_cases hc : i = nIdx ∨ i = nIdx + 1 ∨ i = nIdx + 2
      · rcases hc with hc | hc | hc
        · exact ⟨0, by omega, by omega⟩
        · exact ⟨1, by omega, by omega⟩
        · exact ⟨2, by omega, by omega⟩
      · exfalso
        apply hne
        push_neg at hc
        rw [getD_set_ne _ _ _ _ _ (by omega), getD_set_ne _ _ _ _ _
          (by omega), getD_set_ne _ _ _ _ _ (by omega)]
    · rw [if_neg hb] at hne
      exact absurd rfl hne
  · intro w x y dx hy hdx hlt
    simp only [scanRank, hy, and_true, if_pos, true_and, ite_true]
    omega
  · intro k hk
    fin_cases hk
    · exact ⟨⟨7, 16, 1, 0⟩, by decide, by decide, by decide⟩
    · exact ⟨⟨3, 8, 1, 0⟩, by decide, by decide, by decide⟩
    · exact ⟨⟨8, 42, 1, 0⟩, by decide, by decide, by decide⟩
    · exact ⟨⟨1, 8, 1, 0⟩, by decide, by decide, by decide⟩

/-- Witness for `ditherPixels_serpentine_unmirrored`: a concrete deposit
(weight 7/16, offset (1,0), error 16) changes only bytes of the unmirrored
target pixel (1,0), and the concrete rank inequality for a forward tap on
the right-to-left row 1 of a width-3 frame. -/
theorem ditherPixels_serpentine_unmirrored_witness :
    ((0 ≤ (0 : Int) + (1 : Int) ∧ (0 : Int) + (1 : Int) < (2 : Int) ∧
      0 ≤ (0 : Int) + (0 : Int) ∧ (0 : Int) + (0 : Int) < (2 : Int)) ∧
     ∃ c, c < 3 ∧
       (3 : Nat) = (((0 : Int) + (0 : Int)).toNat * 2
         + ((0 : Int) + (1 : Int)).toNat) * 3 + c) ∧
    scanRank true 3 (1 + 1, 1) < scanRank true 3 (1, 1) := by
  constructor
  · exact ditherPixels_serpentine_unmirrored.1 2 2 0 0 16 16 16 ⟨7, 16, 1, 0⟩
      [0, 0, 0, 10, 10, 10] 3 (by decide)
  · exact ditherPixels_serpentine_unmirrored.2.1 3 1 1 1 (by decide)
      (by decide) (by decide)

/-- Specification of the inner minimum scan: starting from a candidate
`(smallpos, smallval)` with `smallval = g(smallpos)`, the result is the `g`
value of its own position, is at most the candidate, bounds every scanned
position, and sits at the candidate or in the scanned window. -/
theorem findSmallestAux_spec (net : List NQEntry) :
    ∀ count j smallpos smallval,
    smallval = (net.getD smallpos dEnt).g →
    (findSmallestAux net count j smallpos smallval).2
        = (net.getD (findSmallestAux net count j smallpos smallval).1
          dEnt).g ∧
    (findSmallestAux net count j smallpos smallval).2 ≤ smallval ∧
    (∀ k, j ≤ k → k < j + count →
      (findSmallestAux net count j smallpos smallval).2
        ≤ (net.getD k dEnt).g) ∧
    ((findSmallestAux net count j smallpos smallval).1 = smallpos ∨
      (j ≤ (findSmallestAux net count j smallpos smallval).1 ∧
        (findSmallestAux net count j smallpos smallval).1 < j + count)) := by
  intro count
  induction count with
  | zero =>
    intro j smallpos smallval hval
    exact ⟨hval, le_refl _, fun k hk1 hk2 => absurd hk2 (by omega),
      Or.inl rfl⟩
  | succ n ih =>
    intro j smallpos smallval hval
    rw [findSmallestAux]
    by_cases h : (net.getD j dEnt).g < smallval
    · rw [if_pos h]
      obtain ⟨h1, h2, h3, h4⟩ := ih (j + 1) j (net.getD j dEnt).g rfl
      refine ⟨h1, le_of_lt (lt_of_le_of_lt h2 h), fun k hk1 hk2 => ?_, ?_⟩
      · by_cases hkj : k = j
        · exact hkj ▸ h2
        · exact h3 k (by omega) (by omega)
      · rcases h4 with h4 | h4
        · exact Or.inr ⟨by omega, by omega⟩
        · exact Or.inr ⟨by omega, by omega⟩
    · rw [if_neg h]
      obtain ⟨h1, h2, h3, h4⟩ := ih (j + 1) smallpos smallval hval
      refine ⟨h1, h2, fun k hk1 hk2 => ?_, ?_⟩
      · by_cases hkj : k = j
        · exact le_trans h2 (hkj.symm ▸ not_lt.mp h)
        · exact h3 k (by omega) (by omega)
      · rcases h4 with h4 | h4
        · exact Or.inl h4
        · exact Or.inr ⟨by omega, by omega⟩

/-- The `smallpos`/`smallval` pair of outer iteration `i` (`i ≤ 255`): the
value sits at the returned position, the position is in `i..255`, and the
value is minimal over positions `i..255`. -/
theorem findSmallest_spec (net : List NQEntry) (i : Nat) (hi : i ≤ 255) :
    (findSmallest net i).2
      = (net.getD (findSmallest net i).1 dEnt).g ∧
    i ≤ (findSmallest net i).1 ∧ (findSmallest net i).1 ≤ 255 ∧
    (∀ k, i ≤ k → k ≤ 255 →
      (findSmallest net i).2 ≤ (net.getD k dEnt).g) := by
  obtain ⟨h1, h2, h3, h4⟩ := findSmallestAux_spec net (maxnetpos - i) (i + 1)
    i (net.getD i dEnt).g rfl
  have hmax : maxnetpos = 255 := rfl
  rw [findSmallest]
  refine ⟨h1, ?_, ?_, fun k hk1 hk2 => ?_⟩
  · rcases h4 with h | h
    · omega
    · omega
  · rcases h4 with h | h
    · omega
    · omega
  · by_cases hki : k = i
    · exact hki ▸ h2
    · exact h3 k (by omega) (by omega)

/-- Pointwise description of the parallel swap (indices below the length):
position `j` gets the old `i` entry, position `i` the old `j` entry, and all
other positions are untouched. -/
theorem swapList_getD (net : List NQEntry) (i j k : Nat)
    (hi : i < net.length) (hj : j < net.length) :
    (swapList net i j).getD k dEnt
      = if k = j then net.getD i dEnt
        else if k = i then net.getD j dEnt
        else net.getD k dEnt := by
  rw [swapList]
  by_cases hkj : k = j
  · subst hkj
    rw [if_pos rfl, List.getD_eq_getElem?_getD,
      List.getElem?_set_self (by simpa using hj), List.getD_eq_getElem?_getD,
      List.getElem?_eq_getElem hi]
    rfl
  · rw [if_neg hkj, getD_set_ne _ _ _ _ _ (fun h => hkj h.symm)]
    by_cases hki : k = i
    · subst hki
      rw [if_pos rfl, List.getD_eq_getElem?_getD,
        List.getElem?_set_self hi, List.getD_eq_getElem?_getD,
        List.getElem?_eq_getElem hj]
      rfl
    · rw [if_neg hki, getD_set_ne _ _ _ _ _ (fun h => hki h.symm)]

/-- The swap preserves the list length. -/
theorem swapList_length (net : List NQEntry) (i j : Nat) :
    (swapList net i j).length = net.length := by
  simp [swapList]

/-- `fillIndex` preserves the list length. -/
theorem fillIndex_length (v : Int) :
    ∀ count ni start, (fillIndex v ni start count).length = ni.length := by
  intro count
  induction count with
  | zero => intro ni start; rfl
  | succ n ih =>
    intro ni start
    rw [fillIndex, ih]
    simp

/-- Setting one entry of an integer list keeps every `getD` read inside the
value range when both the old entries and the new value are in range. -/
theorem set_range_preserved (ni : List Int) (p : Nat) (v : Int)
    (hni : ∀ k, k < 256 → 0 ≤ ni.getD k 0 ∧ ni.getD k 0 ≤ 255)
    (hv : 0 ≤ v ∧ v ≤ 255) :
    ∀ k, k < 256 → 0 ≤ (ni.set p v).getD k 0 ∧ (ni.set p v).getD k 0 ≤ 255
    := by
  intro k hk
  by_cases hkp : k = p
  · subst hkp
    by_cases hlt : k < ni.length
    · rw [List.getD_eq_getElem?_getD, List.getElem?_set_self hlt]
      exact hv
    · rw [List.getD_eq_getElem?_getD, List.getElem?_eq_none (by
        simpa using hlt)]
      refine ⟨?_, ?_⟩ <;> simp
  · rw [getD_set_ne _ _ _ _ _ (fun h => hkp h.symm)]
    exact hni k hk

/-- `fillIndex` keeps every `getD` read inside the value range when the old
entries and the fill value are in range. -/
theorem fillIndex_range (v : Int) (hv : 0 ≤ v ∧ v ≤ 255) :
    ∀ count ni start,
    (∀ k, k < 256 → 0 ≤ ni.getD k 0 ∧ ni.getD k 0 ≤ 255) →
    ∀ k, k < 256 → 0 ≤ (fillIndex v ni start count).getD k 0 ∧
      (fillIndex v ni start count).getD k 0 ≤ 255 := by
  intro count
  induction count with
  | zero => intro ni start h; exact h
  | succ n ih =>
    intro ni start h
    rw [fillIndex]
    exact ih (ni.set start v) (start + 1) (set_range_preserved ni start v h
      hv)

/-- Invariant preservation through the outer `inxbuild` loop: starting from
a state whose first `i` entries are sorted on the `g` key and bound every
later entry, the loop returns a fully sorted network of unchanged length
with all channels still in range, a `netindex` of length 256 whose entries
stay in `0..255`, and a final `startpos ≤ 255`. -/
theorem inxbuildLoop_spec :
    ∀ count net netindex i previouscol startpos,
    i + count = 256 →
    net.length = 256 →
    netindex.length = 256 →
    (∀ k, k < 256 → entryInRange (net.getD k dEnt)) →
    (∀ a b : Nat, a < b → b < i →
      (net.getD a dEnt).g ≤ (net.getD b dEnt).g) →
    (∀ a b : Nat, a < i → i ≤ b → b < 256 →
      (net.getD a dEnt).g ≤ (net.getD b dEnt).g) →
    (∀ k, k < 256 → 0 ≤ netindex.getD k 0 ∧ netindex.getD k 0 ≤ 255) →
    startpos ≤ 255 →
    (inxbuildLoop net netindex i previouscol startpos count).1.length = 256 ∧
    (∀ k, k < 256 → entryInRange
      ((inxbuildLoop net netindex i previouscol startpos count).1.getD k
        dEnt)) ∧
    (∀ a b : Nat, a < b → b < 256 →
      ((inxbuildLoop net netindex i previouscol startpos count).1.getD a
          dEnt).g
        ≤ ((inxbuildLoop net netindex i previouscol startpos count).1.getD b
          dEnt).g) ∧
    (inxbuildLoop net netindex i previouscol startpos count).2.1.length = 256
    ∧
    (∀ k, k < 256 →
      0 ≤ (inxbuildLoop net netindex i previouscol startpos count).2.1.getD
        k 0 ∧
      (inxbuildLoop net netindex i previouscol startpos count).2.1.getD k 0
        ≤ 255) ∧
    (inxbuildLoop net netindex i previouscol startpos count).2.2.2 ≤ 255
    := by
  intro count
  induction count with
  | zero =>
    intro net netindex i previouscol startpos hic hnet hni hrange hs1 hs2
      hnir hsp
    exact ⟨hnet, hrange, fun a b hab hb => hs1 a b hab (by omega), hni,
      hnir, hsp⟩
  | succ n ih =>
    intro net netindex i previouscol startpos hic hnet hni hrange hs1 hs2
      hnir hsp
    have hi255 : i ≤ 255 := by omega
    obtain ⟨hfv, hfp1, hfp2, hfmin⟩ := findSmallest_spec net i hi255
    set sm := findSmallest net i with hsm
    have hswap := fun k => swapList_getD net i sm.1 k (by omega) (by omega)
    have hswlen : (swapList net i sm.1).length = 256 := by
      rw [swapList_length, hnet]
    -- the swapped position i now holds the suffix minimum
    have hswi : ((swapList net i sm.1).getD i dEnt).g = sm.2 := by
      rw [hswap i]
      by_cases hii : i = sm.1
      · rw [if_pos hii, hfv, ← hii]
      · rw [if_neg hii, if_pos rfl, hfv]
    -- positions strictly below i are untouched
    have hswlow : ∀ a : Nat, a < i →
        (swapList net i sm.1).getD a dEnt = net.getD a dEnt := by
      intro a ha
      rw [hswap a, if_neg (by omega), if_neg (by omega)]
    -- positions strictly above i hold old values from positions ≥ i
    have hswhigh : ∀ b : Nat, i < b →
        ((swapList net i sm.1).getD b dEnt = net.getD i dEnt ∧ b = sm.1) ∨
        ((swapList net i sm.1).getD b dEnt = net.getD b dEnt ∧ b ≠ sm.1)
        := by
      intro b hb
      rw [hswap b]
      by_cases hbs : b = sm.1
      · rw [if_pos hbs]
        exact Or.inl ⟨rfl, hbs⟩
      · rw [if_neg hbs, if_neg (by omega)]
        exact Or.inr ⟨rfl, hbs⟩
    -- channel ranges survive the swap
    have hrange1 : ∀ k, k < 256 →
        entryInRange ((swapList net i sm.1).getD k dEnt) := by
      intro k hk
      rw [hswap k]
      split
      · exact hrange i (by omega)
      · split
        · exact hrange sm.1 (by omega)
        · exact hrange k hk
    -- sorted prefix extends to i+1
    have hs1' : ∀ a b : Nat, a < b → b < i + 1 →
        ((swapList net i sm.1).getD a dEnt).g
          ≤ ((swapList net i sm.1).getD b dEnt).g := by
      intro a b hab hb
      by_cases hbi : b = i
      · subst hbi
        rw [hswlow a hab, hswi, hfv]
        exact hs2 a sm.1 hab hfp1 (by omega)
      · rw [hswlow a (by omega), hswlow b (by omega)]
        exact hs1 a b hab (by omega)
    -- prefix-bounds-suffix extends to i+1
    have hs2' : ∀ a b : Nat, a < i + 1 → i + 1 ≤ b → b < 256 →
        ((swapList net i sm.1).getD a dEnt).g
          ≤ ((swapList net i sm.1).getD b dEnt).g := by
      intro a b ha hb hb2
      have hbv : ((swapList net i sm.1).getD b dEnt).g = (net.getD i dEnt).g
          ∨ ((swapList net i sm.1).getD b dEnt).g = (net.getD b dEnt).g
          := by
        rcases hswhigh b (by omega) with ⟨h, -⟩ | ⟨h, -⟩
        · exact Or.inl (by rw [h])
        · exact Or.inr (by rw [h])
      by_cases hai : a = i
      · subst hai
        rw [hswi]
        rcases hbv with h | h
        · rw [h]
          exact hfmin a (le_refl a) (by omega)
        · rw [h]
          exact hfmin b (by omega) (by omega)
      · rw [hswlow a (by omega)]
        rcases hbv with h | h
        · rw [h]
          exact hs2 a i (by omega) (le_refl i) (by omega)
        · rw [h]
          exact hs2 a b (by omega) (by omega) (by omega)
    -- the shifted midpoint written into netindex is in range
    have hmid : (0 : Int) ≤ ((startpos + i) >>> 1 : Nat) ∧
        (((startpos + i) >>> 1 : Nat) : Int) ≤ 255 := by
      have hdiv : (startpos + i) >>> 1 = (startpos + i) / 2 :=
        Nat.shiftRight_eq_div_pow _ 1
      constructor
      · exact Int.natCast_nonneg _
      · rw [hdiv]
        have : (startpos + i) / 2 ≤ 255 := by omega
        exact_mod_cast this
    rw [inxbuildLoop]
    by_cases hc : sm.2 ≠ previouscol
    · rw [← hsm, if_pos hc]
      exact ih (swapList net i sm.1)
        (fillIndex (i : Int)
          (netindex.set previouscol.toNat ((startpos + i) >>> 1 : Nat))
          (previouscol.toNat + 1) (sm.2 - previouscol - 1).toNat)
        (i + 1) sm.2 i (by omega) hswlen
        (by rw [fillIndex_length]; simp [hni])
        hrange1 hs1' hs2'
        (fillIndex_range (i : Int)
          ⟨Int.natCast_nonneg i, by exact_mod_cast hi255⟩ _ _ _
          (set_range_preserved netindex previouscol.toNat _ hnir hmid))
        hi255
    · rw [← hsm, if_neg hc]
      exact ih (swapList net i sm.1) netindex (i + 1) previouscol startpos
        (by omega) hswlen hni hrange1 hs1' hs2' hnir hsp

/-- `inxbuild` on a full network with in-range channels: the sorted network
(by the `g` key) of length 256 with channels still in range, and a
256-entry `netindex` whose values all lie in `0..255`. -/
theorem inxbuild_spec (net : List NQEntry)
    (hnet : net.length = 256)
    (hrange : ∀ k, k < 256 → entryInRange (net.getD k dEnt)) :
    (inxbuild net).1.length = 256 ∧
    (∀ k, k < 256 → entryInRange ((inxbuild net).1.getD k dEnt)) ∧
    (∀ a b : Nat, a < b → b < 256 →
      ((inxbuild net).1.getD a dEnt).g ≤ ((inxbuild net).1.getD b dEnt).g) ∧
    (inxbuild net).2.length = 256 ∧
    (∀ k, k < 256 →
      0 ≤ (inxbuild net).2.getD k 0 ∧ (inxbuild net).2.getD k 0 ≤ 255) := by
  have hrep : ∀ k, k < 256 →
      0 ≤ (List.replicate 256 (0 : Int)).getD k 0 ∧
      (List.replicate 256 (0 : Int)).getD k 0 ≤ 255 := by
    intro k hk
    rw [List.getD_eq_getElem?_getD, List.getElem?_replicate, if_pos hk]
    exact ⟨le_refl 0, by norm_num⟩
  obtain ⟨hL1, hL2, hL3, hL4, hL5, hL6⟩ := inxbuildLoop_spec 256 net
    (List.replicate 256 0) 0 0 0 rfl hnet (by simp)
    hrange (fun a b hab hb => absurd hb (by omega))
    (fun a b ha hb hb2 => absurd ha (by omega)) hrep (by omega)
  have hns : netsize = 256 := rfl
  simp only [inxbuild, hns]
  set L := inxbuildLoop net (List.replicate 256 0) 0 0 0 256 with hLdef
  have hmid2 : (0 : Int) ≤ ((L.2.2.2 + maxnetpos) >>> 1 : Nat) ∧
      (((L.2.2.2 + maxnetpos) >>> 1 : Nat) : Int) ≤ 255 := by
    have hdiv : (L.2.2.2 + maxnetpos) >>> 1 = (L.2.2.2 + maxnetpos) / 2 :=
      Nat.shiftRight_eq_div_pow _ 1
    refine ⟨Int.natCast_nonneg _, ?_⟩
    rw [hdiv]
    have hm : maxnetpos = 255 := rfl
    have : (L.2.2.2 + maxnetpos) / 2 ≤ 255 := by omega
    exact_mod_cast this
  have hmax : (0 : Int) ≤ (maxnetpos : Int) ∧ (maxnetpos : Int) ≤ 255 := by
    norm_num [maxnetpos, netsize]
  refine ⟨hL1, hL2, hL3, ?_, ?_⟩
  · rw [fillIndex_length]
    simp [hL4]
  · exact fillIndex_range (maxnetpos : Int) hmax _ _ _
      (set_range_preserved _ _ _ hL5 hmid2)

/-- The source's branch-free absolute value. -/
theorem if_neg_abs (d : Int) : (if d < 0 then -d else d) = |d| := by
  split
  · exact (abs_of_neg (by omega)).symm
  · exact (abs_of_nonneg (by omega)).symm

/-- Soundness of the upward half-step: the scan position strictly advances
(to `i+1` or, on pruning, to `netsize`), `bestd` never grows, the
`best`/`bestd` pair is either untouched or witnesses an entry at its exact
distance, and every position the step skips or visits (those in `[i, i')`)
has distance at least the new `bestd` — pruning is justified by the sort
order on the `g` key. -/
theorem searchStepI_spec (net : List NQEntry) (b g r : Int) (i : Nat)
    (bestd best : Int)
    (hsorted : ∀ a c : Nat, a < c → c < 256 →
      (net.getD a dEnt).g ≤ (net.getD c dEnt).g)
    (hi : i < 256) :
    (i < (searchStepI net b g r i bestd best).1 ∧
      (searchStepI net b g r i bestd best).1 ≤ 256) ∧
    (searchStepI net b g r i bestd best).2.1 ≤ bestd ∧
    (((searchStepI net b g r i bestd best).2.2 = best ∧
        (searchStepI net b g r i bestd best).2.1 = bestd) ∨
      (∃ pos, pos < 256 ∧
        (net.getD pos dEnt).idx = (searchStepI net b g r i bestd best).2.2 ∧
        queryDist (net.getD pos dEnt) b g r
          = (searchStepI net b g r i bestd best).2.1)) ∧
    (∀ k, i ≤ k → k < (searchStepI net b g r i bestd best).1 → k < 256 →
      (searchStepI net b g r i bestd best).2.1
        ≤ queryDist (net.getD k dEnt) b g r) := by
  have hns : netsize = 256 := rfl
  rw [searchStepI]
  set p := net.getD i dEnt with hp
  have hq : queryDist p b g r = |p.g - g| + |p.b - b| + |p.r - r| := by
    rw [queryDist]
    omega
  by_cases h1 : p.g - g ≥ bestd
  · rw [if_pos h1]
    dsimp only
    refine ⟨⟨by omega, by omega⟩, le_refl _, Or.inl ⟨rfl, rfl⟩, ?_⟩
    intro k hk1 hk2 hk3
    have hgk : p.g ≤ (net.getD k dEnt).g := by
      by_cases hki : k = i
      · subst hki; exact le_refl _
      · exact hsorted i k (by omega) hk3
    have habs : (net.getD k dEnt).g - g ≤ |(net.getD k dEnt).g - g| :=
      le_abs_self _
    have hb0 : (0 : Int) ≤ |(net.getD k dEnt).b - b| := abs_nonneg _
    have hr0 : (0 : Int) ≤ |(net.getD k dEnt).r - r| := abs_nonneg _
    rw [queryDist]
    omega
  · rw [if_neg h1]
    simp only [if_neg_abs]
    by_cases h2 : |p.g - g| + |p.b - b| < bestd
    · rw [if_pos h2]
      by_cases h3 : |p.g - g| + |p.b - b| + |p.r - r| < bestd
      · rw [if_pos h3]
        dsimp only
        refine ⟨⟨by omega, by omega⟩, by omega, Or.inr ⟨i, hi, rfl, by
          rw [hq]⟩, ?_⟩
        intro k hk1 hk2 hk3
        have hki : k = i := by omega
        subst hki
        rw [hq]
      · rw [if_neg h3]
        dsimp only
        refine ⟨⟨by omega, by omega⟩, le_refl _, Or.inl ⟨rfl, rfl⟩, ?_⟩
        intro k hk1 hk2 hk3
        have hki : k = i := by omega
        subst hki
        rw [hq]
        omega
    · rw [if_neg h2]
      dsimp only
      refine ⟨⟨by omega, by omega⟩, le_refl _, Or.inl ⟨rfl, rfl⟩, ?_⟩
      intro k hk1 hk2 hk3
      have hki : k = i := by omega
      subst hki
      have hr0 : (0 : Int) ≤ |p.r - r| := abs_nonneg _
      rw [hq]
      omega

/-- Soundness of the downward half-step, symmetric to `searchStepI_spec`:
the position strictly decreases (to `j-1` or, on pruning, to `-1`), `bestd`
never grows, `best`/`bestd` are untouched or witness an entry exactly, and
every position in `(j', j]` has distance at least the new `bestd`. -/
theorem searchStepJ_spec (net : List NQEntry) (b g r : Int) (j : Int)
    (bestd best : Int)
    (hsorted : ∀ a c : Nat, a < c → c < 256 →
      (net.getD a dEnt).g ≤ (net.getD c dEnt).g)
    (hj0 : 0 ≤ j) (hj : j < 256) :
    ((searchStepJ net b g r j bestd best).1 < j ∧
      -1 ≤ (searchStepJ net b g r j bestd best).1) ∧
    (searchStepJ net b g r j bestd best).2.1 ≤ bestd ∧
    (((searchStepJ net b g r j bestd best).2.2 = best ∧
        (searchStepJ net b g r j bestd best).2.1 = bestd) ∨
      (∃ pos, pos < 256 ∧
        (net.getD pos dEnt).idx = (searchStepJ net b g r j bestd best).2.2 ∧
        queryDist (net.getD pos dEnt) b g r
          = (searchStepJ net b g r j bestd best).2.1)) ∧
    (∀ k : Nat, (searchStepJ net b g r j bestd best).1 < (k : Int) →
      (k : Int) ≤ j → k < 256 →
      (searchStepJ net b g r j bestd best).2.1
        ≤ queryDist (net.getD k dEnt) b g r) := by
  rw [searchStepJ]
  set p := net.getD j.toNat dEnt with hp
  have hq : queryDist p b g r = |g - p.g| + |p.b - b| + |p.r - r| := by
    rw [queryDist, abs_sub_comm p.g g]
    omega
  by_cases h1 : g - p.g ≥ bestd
  · rw [if_pos h1]
    dsimp only
    refine ⟨⟨by omega, by omega⟩, le_refl _, Or.inl ⟨rfl, rfl⟩, ?_⟩
    intro k hk1 hk2 hk3
    have hgk : (net.getD k dEnt).g ≤ p.g := by
      by_cases hkj : (k : Int) = j
      · rw [hp, show j.toNat = k by omega]
      · exact hsorted k j.toNat (by omega) (by omega)
    have habs : g - (net.getD k dEnt).g ≤ |(net.getD k dEnt).g - g| := by
      rw [abs_sub_comm]
      exact le_abs_self _
    have hb0 : (0 : Int) ≤ |(net.getD k dEnt).b - b| := abs_nonneg _
    have hr0 : (0 : Int) ≤ |(net.getD k dEnt).r - r| := abs_nonneg _
    rw [queryDist]
    omega
  · rw [if_neg h1]
    simp only [if_neg_abs]
    by_cases h2 : |g - p.g| + |p.b - b| < bestd
    · rw [if_pos h2]
      by_cases h3 : |g - p.g| + |p.b - b| + |p.r - r| < bestd
      · rw [if_pos h3]
        dsimp only
        refine ⟨⟨by omega, by omega⟩, by omega,
          Or.inr ⟨j.toNat, by omega, rfl, by rw [hq]⟩, ?_⟩
        intro k hk1 hk2 hk3
        have hkj : k = j.toNat := by omega
        subst hkj
        rw [hq]
      · rw [if_neg h3]
        dsimp only
        refine ⟨⟨by omega, by omega⟩, le_refl _, Or.inl ⟨rfl, rfl⟩, ?_⟩
        intro k hk1 hk2 hk3
        have hkj : k = j.toNat := by omega
        subst hkj
        rw [hq]
        omega
    · rw [if_neg h2]
      dsimp only
      refine ⟨⟨by omega, by omega⟩, le_refl _, Or.inl ⟨rfl, rfl⟩, ?_⟩
      intro k hk1 hk2 hk3
      have hkj : k = j.toNat := by omega
      subst hkj
      have hr0 : (0 : Int) ≤ |p.r - r| := abs_nonneg _
      rw [hq]
      omega

/-- Main invariant of the bidirectional scan: with enough fuel, a window
`(j, i)` of already-handled positions (each at distance ≥ `bestd`), a
`best`/`bestd` pair that is either still the sentinel or witnessed exactly
by some entry, the loop returns the stamp of an entry whose distance is
minimal over the whole network. -/
theorem inxsearchLoop_spec (net : List NQEntry) (b g r : Int)
    (hsorted : ∀ a c : Nat, a < c → c < 256 →
      (net.getD a dEnt).g ≤ (net.getD c dEnt).g)
    (hqd0 : queryDist (net.getD 0 dEnt) b g r < 1000) :
    ∀ fuel i (j : Int) bestd best,
    (256 - i) + (j + 1).toNat < fuel →
    i ≤ 256 → -1 ≤ j → j < (i : Int) →
    bestd ≤ 1000 →
    (∀ k : Nat, k < 256 → j < (k : Int) → k < i →
      bestd ≤ queryDist (net.getD k dEnt) b g r) →
    ((best = -1 ∧ bestd = 1000) ∨
      (∃ pos, pos < 256 ∧ (net.getD pos dEnt).idx = best ∧
        queryDist (net.getD pos dEnt) b g r = bestd)) →
    ∃ pos, pos < 256 ∧
      (net.getD pos dEnt).idx
        = inxsearchLoop net b g r fuel i j bestd best ∧
      ∀ q, q < 256 → queryDist (net.getD pos dEnt) b g r
        ≤ queryDist (net.getD q dEnt) b g r := by
  have hns : netsize = 256 := rfl
  intro fuel
  induction fuel with
  | zero =>
    intro i j bestd best hfuel
    omega
  | succ n ih =>
    intro i j bestd best hfuel hi hj1 hji hbd hinv hbb
    rw [inxsearchLoop]
    by_cases hcond : i < netsize ∨ 0 ≤ j
    · rw [if_pos hcond]
      dsimp only
      set s1 := if i < netsize then searchStepI net b g r i bestd best
        else (i, bestd, best) with hs1def
      set s2 := if 0 ≤ j then searchStepJ net b g r j s1.2.1 s1.2.2
        else (j, s1.2.1, s1.2.2) with hs2def
      clear_value s1 s2
      have hstep1 : (i ≤ s1.1 ∧ s1.1 ≤ 256) ∧ s1.2.1 ≤ bestd ∧
          ((s1.2.2 = best ∧ s1.2.1 = bestd) ∨
            (∃ pos, pos < 256 ∧ (net.getD pos dEnt).idx = s1.2.2 ∧
              queryDist (net.getD pos dEnt) b g r = s1.2.1)) ∧
          (∀ k, i ≤ k → k < s1.1 → k < 256 →
            s1.2.1 ≤ queryDist (net.getD k dEnt) b g r) ∧
          (i < netsize → i < s1.1) := by
        by_cases hilt : i < netsize
        · rw [hs1def, if_pos hilt]
          obtain ⟨hA, hB, hC, hD⟩ := searchStepI_spec net b g r i bestd best
            hsorted (by omega)
          exact ⟨⟨by omega, hA.2⟩, hB, hC, hD, fun _ => hA.1⟩
        · rw [hs1def, if_neg hilt]
          exact ⟨⟨le_refl i, by omega⟩, le_refl _, Or.inl ⟨rfl, rfl⟩,
            fun k hk1 hk2 hk3 => absurd (lt_of_le_of_lt hk1 hk2)
              (lt_irrefl i), fun h => absurd h hilt⟩
      have hstep2 : (s2.1 ≤ j ∧ -1 ≤ s2.1) ∧ s2.2.1 ≤ s1.2.1 ∧
          ((s2.2.2 = s1.2.2 ∧ s2.2.1 = s1.2.1) ∨
            (∃ pos, pos < 256 ∧ (net.getD pos dEnt).idx = s2.2.2 ∧
              queryDist (net.getD pos dEnt) b g r = s2.2.1)) ∧
          (∀ k : Nat, s2.1 < (k : Int) → (k : Int) ≤ j → k < 256 →
            s2.2.1 ≤ queryDist (net.getD k dEnt) b g r) ∧
          (0 ≤ j → s2.1 < j) := by
        by_cases hjge : 0 ≤ j
        · rw [hs2def, if_pos hjge]
          obtain ⟨hA, hB, hC, hD⟩ := searchStepJ_spec net b g r j s1.2.1
            s1.2.2 hsorted hjge (by omega)
          exact ⟨⟨by omega, hA.2⟩, hB, hC, hD, fun _ => hA.1⟩
        · rw [hs2def, if_neg hjge]
          exact ⟨⟨le_refl j, hj1⟩, le_refl _, Or.inl ⟨rfl, rfl⟩,
            fun k hk1 hk2 hk3 => absurd (lt_of_lt_of_le hk1 hk2)
              (lt_irrefl _), fun h => absurd h hjge⟩
      obtain ⟨⟨h1a, h1b⟩, h1bd, h1c, h1inv, h1prog⟩ := hstep1
      obtain ⟨⟨h2a, h2b⟩, h2bd, h2c, h2inv, h2prog⟩ := hstep2
      have hfuel' : (256 - s1.1) + (s2.1 + 1).toNat < n := by
        clear h1c h2c hbb hinv h1inv h2inv
        rcases hcond with hilt | hjge
        · have := h1prog hilt
          omega
        · have := h2prog hjge
          omega
      have hji' : s2.1 < (s1.1 : Int) := by
        clear h1c h2c hbb hinv h1inv h2inv
        omega
      have hbd' : s2.2.1 ≤ 1000 := by
        clear h1c h2c hbb hinv h1inv h2inv
        omega
      have hinv' : ∀ k : Nat, k < 256 → s2.1 < (k : Int) → k < s1.1 →
          s2.2.1 ≤ queryDist (net.getD k dEnt) b g r := by
        intro k hk256 hklo hkhi
        by_cases hkj : (k : Int) ≤ j
        · exact h2inv k hklo hkj hk256
        · by_cases hki : k < i
          · exact le_trans (le_trans h2bd h1bd)
              (hinv k hk256 (by omega) hki)
          · exact le_trans h2bd (h1inv k (by omega) hkhi hk256)
      have hbb' : (s2.2.2 = -1 ∧ s2.2.1 = 1000) ∨
          (∃ pos, pos < 256 ∧ (net.getD pos dEnt).idx = s2.2.2 ∧
            queryDist (net.getD pos dEnt) b g r = s2.2.1) := by
        rcases h2c with ⟨he2, hd2⟩ | h2w
        · rcases h1c with ⟨he1, hd1⟩ | h1w
          · rw [he2, hd2, he1, hd1]
            exact hbb
          · rw [he2, hd2]
            exact Or.inr h1w
        · exact Or.inr h2w
      exact ih s1.1 s2.1 s2.2.1 s2.2.2 hfuel' h1b h2b hji' hbd' hinv' hbb'
    · rw [if_neg hcond]
      push_neg at hcond
      rcases hbb with ⟨hbest, hbd1000⟩ | ⟨pos, hpos, hidx, hdist⟩
      · exfalso
        have h0 := hinv 0 (by omega) (by omega) (by omega)
        omega
      · refine ⟨pos, hpos, hidx, fun q hq => ?_⟩
        rw [hdist]
        exact hinv q hq (by omega) (by omega)

/-- C4: after the index build, `LookupRGB` is exact, not approximate — for
every queried color with channels in 0..255 it returns the stamped palette
index of a network entry achieving the minimum Manhattan distance
`|Δc0|+|Δc1|+|Δc2|` over all 256 network entries (the post-`inxbuild`
network, sorted on its middle channel, which the green-indexed
bidirectional pruning search scans).  The channel-range hypothesis on the
input network is what `unbiasnet` establishes after training. -/
theorem lookupRGB_exact (net : List NQEntry) (c0 c1 c2 : Int)
    (hnet : net.length = 256)
    (hrange : ∀ k, k < 256 → entryInRange (net.getD k dEnt))
    (hq : 0 ≤ c0 ∧ c0 ≤ 255 ∧ 0 ≤ c1 ∧ c1 ≤ 255 ∧ 0 ≤ c2 ∧ c2 ≤ 255) :
    ∃ pos, pos < 256 ∧
      ((inxbuild net).1.getD pos dEnt).idx
        = LookupRGB (inxbuild net).1 (inxbuild net).2 c0 c1 c2 ∧
      ∀ q, q < 256 →
        queryDist ((inxbuild net).1.getD pos dEnt) c0 c1 c2
          ≤ queryDist ((inxbuild net).1.getD q dEnt) c0 c1 c2 := by
  obtain ⟨hb1, hb2, hb3, hb4, hb5⟩ := inxbuild_spec net hnet hrange
  obtain ⟨hq0, hq1, hq2, hq3, hq4, hq5⟩ := hq
  set net' := (inxbuild net).1 with hnet'
  set ni := (inxbuild net).2 with hni
  have h0 := hb2 0 (by omega)
  have hqd0 : queryDist (net'.getD 0 dEnt) c0 c1 c2 < 1000 := by
    obtain ⟨e1, e2, e3, e4, e5, e6⟩ := h0
    have a1 : |(net'.getD 0 dEnt).b - c0| ≤ 255 :=
      abs_le.mpr ⟨by omega, by omega⟩
    have a2 : |(net'.getD 0 dEnt).g - c1| ≤ 255 :=
      abs_le.mpr ⟨by omega, by omega⟩
    have a3 : |(net'.getD 0 dEnt).r - c2| ≤ 255 :=
      abs_le.mpr ⟨by omega, by omega⟩
    rw [queryDist]
    omega
  have hstart := hb5 c1.toNat (by omega)
  have hlkp : LookupRGB net' ni c0 c1 c2
      = inxsearchLoop net' c0 c1 c2 520 ((ni.getD c1.toNat 0).toNat)
        (((ni.getD c1.toNat 0).toNat : Int) - 1) 1000 (-1) := rfl
  rw [hlkp]
  exact inxsearchLoop_spec net' c0 c1 c2 hb3 hqd0 520
    ((ni.getD c1.toNat 0).toNat) (((ni.getD c1.toNat 0).toNat : Int) - 1)
    1000 (-1) (by omega) (by omega) (by omega) (by omega) (le_refl 1000)
    (fun k hk256 hklo hkhi => by omega)
    (Or.inl ⟨rfl, rfl⟩)

/-- Witness for `lookupRGB_exact`: the all-black 256-entry network — the
looked-up index is the stamp of an entry at minimal distance from the query
(10, 20, 30). -/
theorem lookupRGB_exact_witness :
    ∃ pos, pos < 256 ∧
      ((inxbuild (List.replicate 256 dEnt)).1.getD pos dEnt).idx
        = LookupRGB (inxbuild (List.replicate 256 dEnt)).1
          (inxbuild (List.replicate 256 dEnt)).2 10 20 30 ∧
      ∀ q, q < 256 →
        queryDist ((inxbuild (List.replicate 256 dEnt)).1.getD pos dEnt)
            10 20 30
          ≤ queryDist ((inxbuild (List.replicate 256 dEnt)).1.getD q dEnt)
            10 20 30 := by
  refine lookupRGB_exact (List.replicate 256 dEnt) 10 20 30 (by simp) ?_
    (by norm_num)
  intro k hk
  rw [List.getD_eq_getElem?_getD, List.getElem?_replicate, if_pos hk]
  exact ⟨le_refl 0, by norm_num [dEnt], le_refl 0, by norm_num [dEnt],
    le_refl 0, by norm_num [dEnt]⟩

/-! ## C1 groundwork: bit streams, byte framing, machine integers -/

theorem natToBits_length (w v : Nat) : (natToBits w v).length = w := by
  induction w generalizing v with
  | zero => rfl
  | succ w ih => simp [natToBits, ih]

theorem mod_two_pow_succ (v w : Nat) :
    v % 2 ^ (w + 1) = 2 * (v / 2 % 2 ^ w) + v % 2 := by
  have hpow : (0 : Nat) < 2 ^ w := pow_pos (by norm_num) w
  have h1 : (2 * (v / 2) + v % 2) % (2 * 2 ^ w)
      = 2 * (v / 2 % 2 ^ w) + v % 2 := by
    rw [Nat.add_mod, Nat.mul_mod_mul_left]
    have hb : v % 2 % (2 * 2 ^ w) = v % 2 := Nat.mod_eq_of_lt (by omega)
    rw [hb]
    refine Nat.mod_eq_of_lt ?_
    have h2 := Nat.mod_lt (v / 2) hpow
    have h3 := Nat.mod_lt v (show 0 < 2 by norm_num)
    omega
  calc v % 2 ^ (w + 1) = (2 * (v / 2) + v % 2) % (2 * 2 ^ w) := by
        rw [Nat.div_add_mod, pow_succ, Nat.mul_comm]
    _ = 2 * (v / 2 % 2 ^ w) + v % 2 := h1

theorem bitsVal_natToBits (w v : Nat) :
    bitsVal (natToBits w v) = v % 2 ^ w := by
  induction w generalizing v with
  | zero => simp [natToBits, bitsVal, Nat.mod_one]
  | succ w ih =>
    have hsplit := mod_two_pow_succ v w
    have h2 := Nat.mod_lt v (show 0 < 2 by norm_num)
    simp only [natToBits, bitsVal, ih, hsplit]
    by_cases h : v % 2 = 1 <;> simp [h] <;> omega

theorem natToBits_mod (w v : Nat) :
    natToBits w (v % 2 ^ w) = natToBits w v := by
  induction w generalizing v with
  | zero => rfl
  | succ w ih =>
    have hsplit := mod_two_pow_succ v w
    have h2 := Nat.mod_lt v (show 0 < 2 by norm_num)
    have hm2 : v % 2 ^ (w + 1) % 2 = v % 2 := by omega
    have hd2 : v % 2 ^ (w + 1) / 2 = v / 2 % 2 ^ w := by omega
    show _ :: natToBits w (v % 2 ^ (w + 1) / 2)
      = _ :: natToBits w (v / 2)
    rw [hm2, hd2, ih]

theorem natToBits_split (a b v : Nat) :
    natToBits (a + b) v = natToBits a v ++ natToBits b (v / 2 ^ a) := by
  induction a generalizing v with
  | zero => simp [natToBits]
  | succ a ih =>
    have h1 : a + 1 + b = (a + b) + 1 := by omega
    rw [h1]
    show _ :: natToBits (a + b) (v / 2) = _
    rw [ih]
    have h2 : v / 2 / 2 ^ a = v / 2 ^ (a + 1) := by
      rw [Nat.div_div_eq_div_mul, pow_succ, Nat.mul_comm]
    rw [h2]
    rfl

theorem byteToBits_eq_natToBits (b : Nat) : byteToBits b = natToBits 8 b := by
  simp [byteToBits, natToBits, Nat.testBit_to_div_mod,
    Nat.div_div_eq_div_mul]

theorem codeBits_append (E F : List (Nat × Nat)) :
    codeBits (E ++ F) = codeBits E ++ codeBits F := by
  simp [codeBits]

theorem bitsOfBytes_append (a c : List Nat) :
    bitsOfBytes (a ++ c) = bitsOfBytes a ++ bitsOfBytes c := by
  simp [bitsOfBytes]

theorem intAnd_ofNat (m n : Nat) :
    intAnd (m : Int) (n : Int) = ((m &&& n : Nat) : Int) := rfl

theorem intOr_ofNat (m n : Nat) :
    intOr (m : Int) (n : Int) = ((m ||| n : Nat) : Int) := rfl

theorem intShl_ofNat (m k : Nat) :
    intShl (m : Int) k = ((m <<< k : Nat) : Int) := by
  simp [intShl, Nat.shiftLeft_eq]

theorem int_shiftRight_ofNat (m : Nat) :
    ((m : Int) >>> (8 : Int)) = ((m >>> 8 : Nat) : Int) := rfl

theorem masks_getD_eq (cb : Nat) (h : cb < 8) :
    masks.getD cb 0 = ((2 ^ cb - 1 : Nat) : Int) := by
  interval_cases cb <;> rfl

theorem and_mask_self (v cb : Nat) (h : v < 2 ^ cb) :
    v &&& (2 ^ cb - 1) = v := by
  rw [Nat.and_pow_two_sub_one_eq_mod, Nat.mod_eq_of_lt h]

theorem or_shl_eq_add (v cv cb : Nat) (h : v < 2 ^ cb) :
    v ||| (cv <<< cb) = v + cv * 2 ^ cb := by
  rw [Nat.shiftLeft_eq, Nat.mul_comm cv (2 ^ cb), Nat.or_comm,
    ← Nat.mul_add_lt_is_or h, Nat.add_comm]

theorem deblock_mono (f : Nat) :
    ∀ input r, deblock f input = some r → deblock (f + 1) input = some r := by
  induction f with
  | zero => intro input r h; simp [deblock] at h
  | succ f ih =>
    intro input r h
    match input with
    | [] => simp [deblock] at h
    | 0 :: rest => simpa [deblock] using h
    | (n + 1) :: rest =>
      have hu1 : deblock (f + 1) ((n + 1) :: rest)
          = if rest.length < n + 1 then none
            else (deblock f (rest.drop (n + 1))).map
              (fun tail => rest.take (n + 1) ++ tail) := rfl
      have hu2 : deblock (f + 1 + 1) ((n + 1) :: rest)
          = if rest.length < n + 1 then none
            else (deblock (f + 1) (rest.drop (n + 1))).map
              (fun tail => rest.take (n + 1) ++ tail) := rfl
      rw [hu1] at h
      rw [hu2]
      by_cases hl : rest.length < n + 1
      · rw [if_pos hl] at h; exact absurd h (by simp)
      · rw [if_neg hl] at h
        rw [if_neg hl]
        rw [Option.map_eq_some'] at h ⊢
        obtain ⟨tail, htail, hres⟩ := h
        exact ⟨tail, ih _ _ htail, hres⟩

theorem deblock_mono_le (f g : Nat) (hfg : f ≤ g) :
    ∀ input r, deblock f input = some r → deblock g input = some r := by
  induction hfg with
  | refl => intro input r h; exact h
  | step _ ih =>
    intro input r h
    exact deblock_mono _ _ _ (ih input r h)

theorem deblockInv_nil : DeblockInv [] [] := by
  intro tail r h
  simpa using h

theorem deblockInv_append (out P chunk : List Nat) (len : Nat)
    (hlen : chunk.length = len) (h1 : 1 ≤ len) (h2 : len ≤ 254)
    (hI : DeblockInv out P) :
    DeblockInv (out ++ (len :: chunk)) (P ++ chunk) := by
  intro tail r hr
  obtain ⟨l, rfl⟩ : ∃ l, len = l + 1 := ⟨len - 1, by omega⟩
  have hlc : ¬ (chunk ++ tail).length < l + 1 := by
    simp only [List.length_append, hlen]; omega
  have hdrop : (chunk ++ tail).drop (l + 1) = tail := by
    rw [← hlen]; exact List.drop_left chunk tail
  have htake : (chunk ++ tail).take (l + 1) = chunk := by
    rw [← hlen]; exact List.take_left chunk tail
  have hu : deblock (((chunk ++ tail).length + 1) + 1)
      ((l + 1) :: (chunk ++ tail))
      = if (chunk ++ tail).length < l + 1 then none
        else (deblock ((chunk ++ tail).length + 1)
          ((chunk ++ tail).drop (l + 1))).map
          (fun t => (chunk ++ tail).take (l + 1) ++ t) := rfl
  have hfuel1 : (((l + 1) :: (chunk ++ tail)).length + 1)
      = ((chunk ++ tail).length + 1) + 1 := by simp
  have hinner : deblock (((l + 1) :: (chunk ++ tail)).length + 1)
      ((l + 1) :: (chunk ++ tail)) = some (chunk ++ r) := by
    rw [hfuel1, hu, if_neg hlc, hdrop, htake]
    rw [deblock_mono_le (tail.length + 1) ((chunk ++ tail).length + 1)
      (by simp only [List.length_append]; omega) tail r hr]
    rfl
  have hmain := hI ((l + 1) :: (chunk ++ tail)) (chunk ++ r) hinner
  have hlist : (out ++ (l + 1) :: chunk) ++ tail
      = out ++ ((l + 1) :: (chunk ++ tail)) := by simp
  have hfl : (out ++ (l + 1) :: chunk).length + tail.length + 1
      = out.length + (((l + 1) :: (chunk ++ tail)).length) + 1 := by
    simp only [List.length_append, List.length_cons]; omega
  rw [hlist, hfl, hmain]
  simp

theorem charOut_frame (c : Nat) (s : LZWState) (B : List Nat)
    (hf : FrameInv s B) :
    FrameInv (charOut c s) (B ++ [c])
    ∧ (charOut c s).curAccum = s.curAccum
    ∧ (charOut c s).curBits = s.curBits
    ∧ (charOut c s).nBits = s.nBits
    ∧ (charOut c s).maxcode = s.maxcode
    ∧ (charOut c s).freeEnt = s.freeEnt
    ∧ (charOut c s).clearFlg = s.clearFlg
    ∧ (charOut c s).htab = s.htab
    ∧ (charOut c s).codetab = s.codetab := by
  obtain ⟨done, hB, hlen, hinv⟩ := hf
  have hlen1 : (s.accum ++ [c]).length = s.accum.length + 1 := by simp
  by_cases h254 : 254 ≤ s.accum.length + 1
  · have hl : s.accum.length = 253 := by omega
    have hcc : charOut c s = { s with
        out := s.out ++ [s.accum.length + 1] ++ (s.accum ++ [c]),
        accum := [] } := by
      simp only [charOut, flushChar, hlen1]
      rw [if_pos h254, if_pos (by omega : 0 < s.accum.length + 1)]
    rw [hcc]
    refine ⟨⟨done ++ (s.accum ++ [c]), ?_, by simp, ?_⟩,
      rfl, rfl, rfl, rfl, rfl, rfl, rfl, rfl⟩
    · simp [hB]
    · have := deblockInv_append s.out done (s.accum ++ [c]) 254
        (by simp [hl]) (by omega) (le_refl 254) hinv
      have hsh : s.out ++ [s.accum.length + 1] ++ (s.accum ++ [c])
          = s.out ++ (254 :: (s.accum ++ [c])) := by
        simp [hl]
      rw [hsh]
      exact this
  · have hcc : charOut c s = { s with accum := s.accum ++ [c] } := by
      simp only [charOut, flushChar, hlen1]
      rw [if_neg h254]
    rw [hcc]
    exact ⟨⟨done, by simp [hB], by simp; omega, hinv⟩,
      rfl, rfl, rfl, rfl, rfl, rfl, rfl, rfl⟩

theorem drainLoop_spec :
    ∀ f (s : LZWState) (B : List Nat) (v : Nat) (E : List (Nat × Nat)),
    s.curAccum = (v : Int) → v < 2 ^ s.curBits → s.curBits < 8 * f + 8 →
    FrameInv s B →
    bitsOfBytes B ++ natToBits s.curBits v = codeBits E →
    ∃ (B1 : List Nat) (v1 : Nat),
      (drainLoop f s).curAccum = (v1 : Int) ∧
      v1 < 2 ^ (drainLoop f s).curBits ∧
      (drainLoop f s).curBits < 8 ∧
      FrameInv (drainLoop f s) B1 ∧
      bitsOfBytes B1 ++ natToBits (drainLoop f s).curBits v1 = codeBits E ∧
      (drainLoop f s).nBits = s.nBits ∧
      (drainLoop f s).maxcode = s.maxcode ∧
      (drainLoop f s).freeEnt = s.freeEnt ∧
      (drainLoop f s).clearFlg = s.clearFlg ∧
      (drainLoop f s).htab = s.htab ∧
      (drainLoop f s).codetab = s.codetab := by
  intro f
  induction f with
  | zero =>
    intro s B v E hacc hv hcb hframe hbits
    exact ⟨B, v, hacc, hv, by show s.curBits < 8; omega, hframe, hbits,
      rfl, rfl, rfl, rfl, rfl, rfl⟩
  | succ f ih =>
    intro s B v E hacc hv hcb hframe hbits
    by_cases h8 : 8 ≤ s.curBits
    · have hbyte : (intAnd s.curAccum 0xff).toNat = v % 256 := by
        rw [hacc]
        have h255 : (0xff : Int) = ((255 : Nat) : Int) := rfl
        rw [h255, intAnd_ofNat]
        have hand := Nat.and_pow_two_sub_one_eq_mod v 8
        norm_num at hand
        rw [hand]
        omega
      have hshift : s.curAccum >>> (8 : Int) = ((v / 256 : Nat) : Int) := by
        rw [hacc, int_shiftRight_ofNat, Nat.shiftRight_eq_div_pow]
      have hstep : drainLoop (f + 1) s
          = drainLoop f (charOut (v % 256) { s with curAccum := ((v / 256 : Nat) : Int), curBits := s.curBits - 8 }) := by
        rw [drainLoop, if_pos h8, hbyte, hshift]
      have hfm : FrameInv { s with curAccum := ((v / 256 : Nat) : Int), curBits := s.curBits - 8 } B := by
        obtain ⟨done, h1, h2, h3⟩ := hframe
        exact ⟨done, h1, h2, h3⟩
      have hco := charOut_frame (v % 256) { s with curAccum := ((v / 256 : Nat) : Int), curBits := s.curBits - 8 } B hfm
      obtain ⟨hcoF, hcoA, hcoC, hcoN, hcoM, hcoFr, hcoCl, hcoH, hcoT⟩ := hco
      -- bits bookkeeping for the emitted byte
      have hsplit8 : natToBits s.curBits v
          = natToBits 8 v ++ natToBits (s.curBits - 8) (v / 256) := by
        have h1 := natToBits_split 8 (s.curBits - 8) v
        have h2 : 8 + (s.curBits - 8) = s.curBits := by omega
        rw [h2] at h1
        rw [h1]
        norm_num
      have hbyte_bits : byteToBits (v % 256) = natToBits 8 v := by
        rw [byteToBits_eq_natToBits]
        have h1 := natToBits_mod 8 v
        norm_num at h1
        exact h1
      have hbits2 : bitsOfBytes (B ++ [v % 256])
          ++ natToBits (s.curBits - 8) (v / 256) = codeBits E := by
        rw [bitsOfBytes_append, ← hbits, hsplit8]
        simp [bitsOfBytes, hbyte_bits]
      have hv2 : v / 256 < 2 ^ (s.curBits - 8) := by
        rw [Nat.div_lt_iff_lt_mul (by norm_num : (0:Nat) < 256)]
        have h1 : (2:Nat) ^ (s.curBits - 8) * 256 = 2 ^ s.curBits := by
          have h2 : s.curBits = (s.curBits - 8) + 8 := by omega
          calc (2:Nat) ^ (s.curBits - 8) * 256
              = 2 ^ (s.curBits - 8) * 2 ^ 8 := by norm_num
            _ = 2 ^ ((s.curBits - 8) + 8) := (pow_add 2 _ 8).symm
            _ = 2 ^ s.curBits := by rw [← h2]
        omega
      have hmain := ih (charOut (v % 256) { s with curAccum := ((v / 256 : Nat) : Int), curBits := s.curBits - 8 })
        (B ++ [v % 256]) (v / 256) E
        (by rw [hcoA])
        (by rw [hcoC]; exact hv2)
        (by rw [hcoC]; show s.curBits - 8 < 8 * f + 8; omega)
        hcoF
        (by rw [hcoC]; exact hbits2)
      obtain ⟨B1, v1, ih1, ih2, ih3, ih4, ih5, ih6, ih7, ih8, ih9,
        ih10, ih11⟩ := hmain
      rw [hstep]
      exact ⟨B1, v1, ih1, ih2, ih3, ih4, ih5,
        by rw [ih6, hcoN], by rw [ih7, hcoM], by rw [ih8, hcoFr],
        by rw [ih9, hcoCl], by rw [ih10, hcoH], by rw [ih11, hcoT]⟩
    · have hstep : drainLoop (f + 1) s = s := by
        rw [drainLoop, if_neg h8]
      rw [hstep]
      exact ⟨B, v, hacc, hv, by omega, hframe, hbits, rfl, rfl, rfl, rfl,
        rfl, rfl⟩

theorem charOut_fields (c : Nat) (s : LZWState) :
    (charOut c s).curAccum = s.curAccum ∧ (charOut c s).curBits = s.curBits
    ∧ (charOut c s).nBits = s.nBits ∧ (charOut c s).maxcode = s.maxcode
    ∧ (charOut c s).freeEnt = s.freeEnt
    ∧ (charOut c s).clearFlg = s.clearFlg
    ∧ (charOut c s).htab = s.htab ∧ (charOut c s).codetab = s.codetab := by
  simp only [charOut, flushChar]
  split
  · split
    · exact ⟨rfl, rfl, rfl, rfl, rfl, rfl, rfl, rfl⟩
    · exact ⟨rfl, rfl, rfl, rfl, rfl, rfl, rfl, rfl⟩
  · exact ⟨rfl, rfl, rfl, rfl, rfl, rfl, rfl, rfl⟩

theorem flushChar_fields (s : LZWState) :
    (flushChar s).curAccum = s.curAccum ∧ (flushChar s).curBits = s.curBits
    ∧ (flushChar s).nBits = s.nBits ∧ (flushChar s).maxcode = s.maxcode
    ∧ (flushChar s).freeEnt = s.freeEnt
    ∧ (flushChar s).clearFlg = s.clearFlg
    ∧ (flushChar s).htab = s.htab ∧ (flushChar s).codetab = s.codetab := by
  simp only [flushChar]
  split
  · exact ⟨rfl, rfl, rfl, rfl, rfl, rfl, rfl, rfl⟩
  · exact ⟨rfl, rfl, rfl, rfl, rfl, rfl, rfl, rfl⟩

theorem flushRest_fields :
    ∀ f (s : LZWState),
    (flushRest f s).nBits = s.nBits ∧ (flushRest f s).maxcode = s.maxcode
    ∧ (flushRest f s).freeEnt = s.freeEnt
    ∧ (flushRest f s).clearFlg = s.clearFlg
    ∧ (flushRest f s).htab = s.htab
    ∧ (flushRest f s).codetab = s.codetab := by
  intro f
  induction f with
  | zero => intro s; exact ⟨rfl, rfl, rfl, rfl, rfl, rfl⟩
  | succ f ih =>
    intro s
    rw [flushRest]
    split
    · obtain ⟨i1, i2, i3, i4, i5, i6⟩ := ih (charOut (intAnd s.curAccum 0xff).toNat { s with curAccum := s.curAccum >>> 8, curBits := s.curBits - 8 })
      obtain ⟨_, _, c3, c4, c5, c6, c7, c8⟩ := charOut_fields
        (intAnd s.curAccum 0xff).toNat
        { s with curAccum := s.curAccum >>> 8, curBits := s.curBits - 8 }
      exact ⟨by rw [i1, c3], by rw [i2, c4], by rw [i3, c5],
        by rw [i4, c6], by rw [i5, c7], by rw [i6, c8]⟩
    · exact ⟨rfl, rfl, rfl, rfl, rfl, rfl⟩

theorem drainLoop_fields :
    ∀ f (s : LZWState),
    (drainLoop f s).nBits = s.nBits ∧ (drainLoop f s).maxcode = s.maxcode
    ∧ (drainLoop f s).freeEnt = s.freeEnt
    ∧ (drainLoop f s).clearFlg = s.clearFlg
    ∧ (drainLoop f s).htab = s.htab
    ∧ (drainLoop f s).codetab = s.codetab := by
  intro f
  induction f with
  | zero => intro s; exact ⟨rfl, rfl, rfl, rfl, rfl, rfl⟩
  | succ f ih =>
    intro s
    rw [drainLoop]
    split
    · obtain ⟨i1, i2, i3, i4, i5, i6⟩ := ih (charOut (intAnd s.curAccum 0xff).toNat { s with curAccum := s.curAccum >>> 8, curBits := s.curBits - 8 })
      obtain ⟨_, _, c3, c4, c5, c6, c7, c8⟩ := charOut_fields
        (intAnd s.curAccum 0xff).toNat
        { s with curAccum := s.curAccum >>> 8, curBits := s.curBits - 8 }
      exact ⟨by rw [i1, c3], by rw [i2, c4], by rw [i3, c5],
        by rw [i4, c6], by rw [i5, c7], by rw [i6, c8]⟩
    · exact ⟨rfl, rfl, rfl, rfl, rfl, rfl⟩

theorem output_proj (initBits : Nat) (code : Int) (s : LZWState)
    (hne : code ≠ (((1 <<< (initBits - 1)) + 1 : Nat) : Int)) :
    (output initBits code s).curAccum
      = (drainLoop 3 { s with curAccum := (if 0 < s.curBits then intOr (intAnd s.curAccum (masks.getD s.curBits 0)) (intShl code s.curBits) else code), curBits := s.curBits + s.nBits }).curAccum
    ∧ (output initBits code s).curBits
      = (drainLoop 3 { s with curAccum := (if 0 < s.curBits then intOr (intAnd s.curAccum (masks.getD s.curBits 0)) (intShl code s.curBits) else code), curBits := s.curBits + s.nBits }).curBits
    ∧ (output initBits code s).accum
      = (drainLoop 3 { s with curAccum := (if 0 < s.curBits then intOr (intAnd s.curAccum (masks.getD s.curBits 0)) (intShl code s.curBits) else code), curBits := s.curBits + s.nBits }).accum
    ∧ (output initBits code s).out
      = (drainLoop 3 { s with curAccum := (if 0 < s.curBits then intOr (intAnd s.curAccum (masks.getD s.curBits 0)) (intShl code s.curBits) else code), curBits := s.curBits + s.nBits }).out
    ∧ (output initBits code s).htab = s.htab
    ∧ (output initBits code s).codetab = s.codetab
    ∧ (output initBits code s).freeEnt = s.freeEnt := by
  simp only [output]
  split_ifs <;>
    first
      | (exact absurd (by assumption) hne)
      | (exact ⟨rfl, rfl, rfl, rfl,
          (drainLoop_fields 3 _).2.2.2.2.1.trans rfl,
          (drainLoop_fields 3 _).2.2.2.2.2.trans rfl,
          (drainLoop_fields 3 _).2.2.1.trans rfl⟩)

theorem drainLoop_nBits (f : Nat) (s : LZWState) :
    (drainLoop f s).nBits = s.nBits := (drainLoop_fields f s).1

theorem drainLoop_maxcode (f : Nat) (s : LZWState) :
    (drainLoop f s).maxcode = s.maxcode := (drainLoop_fields f s).2.1

theorem drainLoop_freeEnt (f : Nat) (s : LZWState) :
    (drainLoop f s).freeEnt = s.freeEnt := (drainLoop_fields f s).2.2.1

theorem drainLoop_clearFlg (f : Nat) (s : LZWState) :
    (drainLoop f s).clearFlg = s.clearFlg := (drainLoop_fields f s).2.2.2.1

theorem flushRest_nBits (f : Nat) (s : LZWState) :
    (flushRest f s).nBits = s.nBits := (flushRest_fields f s).1

theorem flushRest_maxcode (f : Nat) (s : LZWState) :
    (flushRest f s).maxcode = s.maxcode := (flushRest_fields f s).2.1

theorem flushRest_clearFlg (f : Nat) (s : LZWState) :
    (flushRest f s).clearFlg = s.clearFlg := (flushRest_fields f s).2.2.2.1

theorem flushChar_nBits (s : LZWState) :
    (flushChar s).nBits = s.nBits := (flushChar_fields s).2.2.1

theorem flushChar_maxcode (s : LZWState) :
    (flushChar s).maxcode = s.maxcode := (flushChar_fields s).2.2.2.1

theorem flushChar_clearFlg (s : LZWState) :
    (flushChar s).clearFlg = s.clearFlg := (flushChar_fields s).2.2.2.2.2.1

/-- Width bookkeeping of `output` across its three post-drain branches. -/
theorem output_width (initBits : Nat) (code : Int) (s : LZWState) :
    (s.clearFlg = true →
      (output initBits code s).nBits = initBits
      ∧ (output initBits code s).maxcode = MAXCODE initBits
      ∧ (output initBits code s).clearFlg = false)
    ∧ (s.clearFlg = false → s.maxcode < s.freeEnt →
      (output initBits code s).nBits = s.nBits + 1
      ∧ (output initBits code s).maxcode
          = (if s.nBits + 1 = BITS then 1 <<< BITS
             else MAXCODE (s.nBits + 1))
      ∧ (output initBits code s).clearFlg = false)
    ∧ (s.clearFlg = false → ¬ s.maxcode < s.freeEnt →
      (output initBits code s).nBits = s.nBits
      ∧ (output initBits code s).maxcode = s.maxcode
      ∧ (output initBits code s).clearFlg = false) := by
  simp only [output, drainLoop_nBits, drainLoop_maxcode, drainLoop_freeEnt,
    drainLoop_clearFlg]
  split_ifs <;>
    simp_all [drainLoop_nBits, drainLoop_maxcode, drainLoop_clearFlg,
      flushRest_nBits, flushRest_maxcode, flushRest_clearFlg,
      flushChar_nBits, flushChar_maxcode, flushChar_clearFlg]

theorem merged_accum_eq (cv : Nat) (s : LZWState) (v : Nat)
    (hacc : s.curAccum = (v : Int)) (hv : v < 2 ^ s.curBits)
    (hcb : s.curBits < 8) :
    (if 0 < s.curBits then intOr (intAnd s.curAccum (masks.getD s.curBits 0)) (intShl ((cv : Nat) : Int) s.curBits) else ((cv : Nat) : Int))
      = ((v + cv * 2 ^ s.curBits : Nat) : Int) := by
  by_cases h0 : 0 < s.curBits
  · rw [if_pos h0, hacc, masks_getD_eq s.curBits hcb, intAnd_ofNat,
      and_mask_self v s.curBits hv, intShl_ofNat, intOr_ofNat,
      or_shl_eq_add v cv s.curBits hv]
  · rw [if_neg h0]
    have h00 : s.curBits = 0 := by omega
    rw [h00] at hv
    norm_num at hv
    simp [hv, h00]

theorem merged_val_lt (cv : Nat) (s : LZWState) (v : Nat)
    (hv : v < 2 ^ s.curBits) (hcv : cv < 2 ^ s.nBits) :
    v + cv * 2 ^ s.curBits < 2 ^ (s.curBits + s.nBits) := by
  calc v + cv * 2 ^ s.curBits
      < 2 ^ s.curBits + cv * 2 ^ s.curBits := by omega
    _ = (cv + 1) * 2 ^ s.curBits := by ring
    _ ≤ 2 ^ s.nBits * 2 ^ s.curBits :=
        Nat.mul_le_mul_right (2 ^ s.curBits) (by omega)
    _ = 2 ^ (s.curBits + s.nBits) := by rw [← pow_add, Nat.add_comm]

theorem merged_bits_eq (cv : Nat) (s : LZWState) (v : Nat) (B : List Nat)
    (E : List (Nat × Nat)) (hv : v < 2 ^ s.curBits)
    (hbits : bitsOfBytes B ++ natToBits s.curBits v = codeBits E) :
    bitsOfBytes B ++ natToBits (s.curBits + s.nBits) (v + cv * 2 ^ s.curBits)
      = codeBits E ++ natToBits s.nBits cv := by
  have hmod : (v + cv * 2 ^ s.curBits) % 2 ^ s.curBits = v := by
    rw [Nat.add_mul_mod_self_right, Nat.mod_eq_of_lt hv]
  have hdiv : (v + cv * 2 ^ s.curBits) / 2 ^ s.curBits = cv := by
    rw [Nat.add_mul_div_right v cv (pow_pos (by norm_num) s.curBits),
      Nat.div_eq_of_lt hv]
    omega
  rw [natToBits_split, hdiv, ← natToBits_mod s.curBits, hmod,
    ← List.append_assoc, hbits]

/-- Bit/byte-stream behavior of `output` for a non-EOF code: one `nBits`-wide
code is appended to the emitted bit stream, whole bytes are drained into the
sub-block framing, and the hash state is untouched. -/
theorem output_stream (initBits cv : Nat) (s : LZWState) (B : List Nat)
    (v : Nat) (E : List (Nat × Nat))
    (hacc : s.curAccum = (v : Int)) (hv : v < 2 ^ s.curBits)
    (hcb : s.curBits < 8) (hnb : s.nBits ≤ 12)
    (hcv : cv < 2 ^ s.nBits)
    (hne : ((cv : Nat) : Int) ≠ (((1 <<< (initBits - 1)) + 1 : Nat) : Int)) :
    FrameInv s B →
    bitsOfBytes B ++ natToBits s.curBits v = codeBits E →
    ∃ (B1 : List Nat) (v1 : Nat),
      (output initBits (cv : Int) s).curAccum = (v1 : Int) ∧
      v1 < 2 ^ (output initBits (cv : Int) s).curBits ∧
      (output initBits (cv : Int) s).curBits < 8 ∧
      FrameInv (output initBits (cv : Int) s) B1 ∧
      bitsOfBytes B1 ++ natToBits (output initBits (cv : Int) s).curBits v1
        = codeBits E ++ natToBits s.nBits cv ∧
      (output initBits (cv : Int) s).htab = s.htab ∧
      (output initBits (cv : Int) s).codetab = s.codetab ∧
      (output initBits (cv : Int) s).freeEnt = s.freeEnt := by
  intro hframe hbits
  obtain ⟨p1, p2, p3, p4, p5, p6, p7⟩ := output_proj initBits (cv : Int) s hne
  rw [merged_accum_eq cv s v hacc hv hcb] at p1 p2 p3 p4
  have hframe2 : FrameInv { s with curAccum := ((v + cv * 2 ^ s.curBits : Nat) : Int), curBits := s.curBits + s.nBits } B := by
    obtain ⟨done, h1, h2, h3⟩ := hframe
    exact ⟨done, h1, h2, h3⟩
  have hds := drainLoop_spec 3
    { s with curAccum := ((v + cv * 2 ^ s.curBits : Nat) : Int), curBits := s.curBits + s.nBits }
    B (v + cv * 2 ^ s.curBits) (E ++ [(cv, s.nBits)]) rfl
    (merged_val_lt cv s v hv hcv)
    (by show s.curBits + s.nBits < 8 * 3 + 8; omega)
    hframe2
    (by show bitsOfBytes B ++ natToBits (s.curBits + s.nBits) _ = _
        rw [merged_bits_eq cv s v B E hv hbits, codeBits_append]
        simp [codeBits])
  obtain ⟨B1, v1, d1, d2, d3, d4, d5, d6, d7, d8, d9, d10, d11⟩ := hds
  refine ⟨B1, v1, ?_, ?_, ?_, ?_, ?_, ?_, ?_, ?_⟩
  · rw [p1]; exact d1
  · rw [p2]; exact d2
  · rw [p2]; exact d3
  · obtain ⟨done, h1, h2, h3⟩ := d4
    exact ⟨done, by rw [p3]; exact h1, by rw [p3]; exact h2,
      by rw [p4]; exact h3⟩
  · rw [p2]
    rw [d5, codeBits_append]
    simp [codeBits]
  · exact p5
  · exact p6
  · exact p7

theorem output_eof_decomp (initBits : Nat) (code : Int) (s : LZWState)
    (heq : code = (((1 <<< (initBits - 1)) + 1 : Nat) : Int)) :
    ∃ t : LZWState,
      output initBits code s = flushChar (flushRest 3 t)
      ∧ t.curAccum = (drainLoop 3 { s with curAccum := (if 0 < s.curBits then intOr (intAnd s.curAccum (masks.getD s.curBits 0)) (intShl code s.curBits) else code), curBits := s.curBits + s.nBits }).curAccum
      ∧ t.curBits = (drainLoop 3 { s with curAccum := (if 0 < s.curBits then intOr (intAnd s.curAccum (masks.getD s.curBits 0)) (intShl code s.curBits) else code), curBits := s.curBits + s.nBits }).curBits
      ∧ t.accum = (drainLoop 3 { s with curAccum := (if 0 < s.curBits then intOr (intAnd s.curAccum (masks.getD s.curBits 0)) (intShl code s.curBits) else code), curBits := s.curBits + s.nBits }).accum
      ∧ t.out = (drainLoop 3 { s with curAccum := (if 0 < s.curBits then intOr (intAnd s.curAccum (masks.getD s.curBits 0)) (intShl code s.curBits) else code), curBits := s.curBits + s.nBits }).out := by
  simp only [output]
  split_ifs <;>
    first
      | (exact absurd heq (by assumption))
      | (exact ⟨_, rfl, rfl, rfl, rfl, rfl⟩)

theorem flushChar_final (s : LZWState) (B : List Nat) (hf : FrameInv s B) :
    DeblockInv (flushChar s).out B ∧ (flushChar s).accum = [] := by
  obtain ⟨done, hB, hlen, hI⟩ := hf
  by_cases h : 0 < s.accum.length
  · have hfc : flushChar s = { s with
        out := s.out ++ [s.accum.length] ++ s.accum, accum := [] } := by
      simp only [flushChar]
      rw [if_pos h]
    rw [hfc]
    refine ⟨?_, rfl⟩
    have hap := deblockInv_append s.out done s.accum s.accum.length rfl
      (by omega) (by omega) hI
    have hsh : s.out ++ [s.accum.length] ++ s.accum
        = s.out ++ (s.accum.length :: s.accum) := by simp
    show DeblockInv (s.out ++ [s.accum.length] ++ s.accum) B
    rw [hsh, hB]
    exact hap
  · have hempty : s.accum = [] := by
      cases hacc : s.accum with
      | nil => rfl
      | cons a l => rw [hacc] at h; simp at h
    have hfc : flushChar s = s := by
      simp only [flushChar]
      rw [if_neg h]
    rw [hfc, hempty]
    constructor
    · show DeblockInv s.out B
      rw [hB, hempty, List.append_nil]
      exact hI
    · rfl

/-- Byte/bit-stream behavior of the EOF `output` call: the code is packed,
every remaining bit is flushed (zero-padded to a byte boundary) and the
staging buffer is emitted, leaving a fully framed byte stream. -/
theorem output_eof (initBits : Nat) (s : LZWState) (B : List Nat)
    (v : Nat) (E : List (Nat × Nat))
    (hacc : s.curAccum = (v : Int)) (hv : v < 2 ^ s.curBits)
    (hcb : s.curBits < 8) (hnb : s.nBits ≤ 12)
    (hcv : (1 <<< (initBits - 1)) + 1 < 2 ^ s.nBits)
    (hframe : FrameInv s B)
    (hbits : bitsOfBytes B ++ natToBits s.curBits v = codeBits E) :
    ∃ (Bf : List Nat) (pad : List Bool),
      (output initBits ((((1 <<< (initBits - 1)) + 1 : Nat)) : Int) s).accum
        = []
      ∧ DeblockInv
          (output initBits ((((1 <<< (initBits - 1)) + 1 : Nat)) : Int)
            s).out Bf
      ∧ bitsOfBytes Bf
          = codeBits E ++ natToBits s.nBits ((1 <<< (initBits - 1)) + 1)
            ++ pad := by
  obtain ⟨t, hteq, ht1, ht2, ht3, ht4⟩ :=
    output_eof_decomp initBits ((((1 <<< (initBits - 1)) + 1 : Nat)) : Int)
      s rfl
  rw [merged_accum_eq ((1 <<< (initBits - 1)) + 1) s v hacc hv hcb]
    at ht1 ht2 ht3 ht4
  have hframe2 : FrameInv { s with curAccum := ((v + ((1 <<< (initBits - 1)) + 1) * 2 ^ s.curBits : Nat) : Int), curBits := s.curBits + s.nBits } B := by
    obtain ⟨done, h1, h2, h3⟩ := hframe
    exact ⟨done, h1, h2, h3⟩
  have hds := drainLoop_spec 3
    { s with curAccum := ((v + ((1 <<< (initBits - 1)) + 1) * 2 ^ s.curBits : Nat) : Int), curBits := s.curBits + s.nBits }
    B (v + ((1 <<< (initBits - 1)) + 1) * 2 ^ s.curBits)
    (E ++ [((1 <<< (initBits - 1)) + 1, s.nBits)]) rfl
    (merged_val_lt ((1 <<< (initBits - 1)) + 1) s v hv hcv)
    (by show s.curBits + s.nBits < 8 * 3 + 8; omega)
    hframe2
    (by show bitsOfBytes B ++ natToBits (s.curBits + s.nBits) _ = _
        rw [merged_bits_eq ((1 <<< (initBits - 1)) + 1) s v B E hv hbits,
          codeBits_append]
        simp [codeBits])
  obtain ⟨B1, v1, d1, d2, d3, d4, d5, d6, d7, d8, d9, d10, d11⟩ := hds
  rw [← ht1] at d1
  rw [← ht2] at d2 d3 d5
  have hframet : FrameInv t B1 := by
    obtain ⟨done, h1, h2, h3⟩ := d4
    exact ⟨done, by rw [ht3]; exact h1, by rw [ht3]; exact h2,
      by rw [ht4]; exact h3⟩
  have hEbits : codeBits (E ++ [((1 <<< (initBits - 1)) + 1, s.nBits)])
      = codeBits E ++ natToBits s.nBits ((1 <<< (initBits - 1)) + 1) := by
    rw [codeBits_append]
    simp [codeBits]
  by_cases hz : 0 < t.curBits
  · -- one padded byte flushes out
    have hv256 : v1 < 256 := by
      have hp : (2:Nat) ^ t.curBits ≤ 2 ^ 7 :=
        Nat.pow_le_pow_right (by norm_num) (by omega)
      have : (2:Nat) ^ 7 = 128 := by norm_num
      omega
    have hbyte : (intAnd t.curAccum 0xff).toNat = v1 := by
      rw [d1]
      have h255 : (0xff : Int) = ((255 : Nat) : Int) := rfl
      rw [h255, intAnd_ofNat]
      have hand := Nat.and_pow_two_sub_one_eq_mod v1 8
      norm_num at hand
      rw [hand, Nat.mod_eq_of_lt hv256]
      omega
    have hshift : t.curAccum >>> (8 : Int) = ((0 : Nat) : Int) := by
      rw [d1, int_shiftRight_ofNat, Nat.shiftRight_eq_div_pow]
      norm_num
      omega
    have hfr1 : flushRest 3 t
        = flushRest 2 (charOut v1 { t with curAccum := ((0 : Nat) : Int), curBits := t.curBits - 8 }) := by
      rw [flushRest, if_pos hz, hbyte, hshift]
    have hcbz : (charOut v1 { t with curAccum := ((0 : Nat) : Int), curBits := t.curBits - 8 }).curBits = 0 := by
      have := (charOut_fields v1 { t with curAccum := ((0 : Nat) : Int), curBits := t.curBits - 8 }).2.1
      rw [this]
      show t.curBits - 8 = 0
      omega
    have hfr2 : flushRest 2 (charOut v1 { t with curAccum := ((0 : Nat) : Int), curBits := t.curBits - 8 }) = charOut v1 { t with curAccum := ((0 : Nat) : Int), curBits := t.curBits - 8 } := by
      rw [flushRest, hcbz, if_neg (by omega)]
    have hframem : FrameInv { t with curAccum := ((0 : Nat) : Int), curBits := t.curBits - 8 } B1 := by
      obtain ⟨done, h1, h2, h3⟩ := hframet
      exact ⟨done, h1, h2, h3⟩
    have hcf := (charOut_frame v1 { t with curAccum := ((0 : Nat) : Int), curBits := t.curBits - 8 } B1 hframem).1
    have hfin := flushChar_final _ _ hcf
    refine ⟨B1 ++ [v1],
      natToBits (8 - t.curBits) (v1 / 2 ^ t.curBits), ?_, ?_, ?_⟩
    · rw [hteq, hfr1, hfr2]
      exact hfin.2
    · rw [hteq, hfr1, hfr2]
      exact hfin.1
    · rw [bitsOfBytes_append]
      have hb8 : bitsOfBytes [v1] = natToBits 8 v1 := by
        simp [bitsOfBytes, byteToBits_eq_natToBits]
      have hsplit : natToBits 8 v1
          = natToBits t.curBits v1
            ++ natToBits (8 - t.curBits) (v1 / 2 ^ t.curBits) := by
        have h1 := natToBits_split t.curBits (8 - t.curBits) v1
        have h2 : t.curBits + (8 - t.curBits) = 8 := by omega
        rw [h2] at h1
        exact h1
      rw [hb8, hsplit, ← List.append_assoc, d5, hEbits]
  · -- no residual bits: no padding byte
    have hfr : flushRest 3 t = t := by
      rw [flushRest, if_neg hz]
    have hfin := flushChar_final t B1 hframet
    refine ⟨B1, [], ?_, ?_, ?_⟩
    · rw [hteq, hfr]
      exact hfin.2
    · rw [hteq, hfr]
      exact hfin.1
    · have hcb0 : t.curBits = 0 := by omega
      rw [hcb0] at d5
      show bitsOfBytes B1 = _
      have : natToBits 0 v1 = [] := rfl
      rw [this, List.append_nil] at d5
      rw [d5, hEbits, List.append_nil]

/-! ## C1 groundwork: the open-addressing hash table -/

theorem hshift_eq : hshift = 4 := by decide

theorem probeSeq_lt (i0 k : Nat) : probeSeq i0 k < 5003 :=
  Nat.mod_lt _ (by norm_num)

theorem probeSeq_zero (i0 : Nat) (h0 : i0 < 5003) : probeSeq i0 0 = i0 := by
  simp [probeSeq, Nat.mod_eq_of_lt h0]

theorem nextSlot_eq (i0 k : Nat) (h0 : i0 < 5003) :
    (if probeSeq i0 k < (if i0 = 0 then 1 else HSIZE - i0)
      then probeSeq i0 k + HSIZE - (if i0 = 0 then 1 else HSIZE - i0)
      else probeSeq i0 k - (if i0 = 0 then 1 else HSIZE - i0))
    = probeSeq i0 (k + 1) := by
  have hH : HSIZE = 5003 := rfl
  by_cases hz : i0 = 0
  · subst hz
    simp only [probeSeq, hH]
    norm_num
    have hexp : (k + 1) * 5002 = k * 5002 + 5002 := by ring
    rw [hexp]
    split_ifs <;> omega
  · simp only [if_neg hz, hH, probeSeq]
    have hexp : (k + 1) * i0 = k * i0 + i0 := by ring
    rw [hexp]
    split_ifs <;> omega

theorem probeSeq_surj (i0 e : Nat) (h0 : i0 < 5003) (he : e < 5003) :
    ∃ k, 1 ≤ k ∧ k ≤ 5003 ∧ probeSeq i0 k = e := by
  haveI : Fact (Nat.Prime 5003) := ⟨by norm_num⟩
  have hstep : ∃ st, (if i0 = 0 then 5002 else i0) = st ∧ 1 ≤ st
      ∧ st ≤ 5002 := by
    by_cases hz : i0 = 0 <;> simp [hz] <;> omega
  obtain ⟨st, hst, hst1, hst2⟩ := hstep
  have hstnz : (st : ZMod 5003) ≠ 0 := by
    rw [Ne, ZMod.natCast_zmod_eq_zero_iff_dvd]
    intro hdvd
    have := Nat.le_of_dvd (by omega) hdvd
    omega
  have hsolve : ∃ k, k ≤ 5002 ∧ (i0 + k * st) % 5003 = e := by
    refine ⟨(((e : ZMod 5003) - (i0 : ZMod 5003))
      * (st : ZMod 5003)⁻¹).val, ?_, ?_⟩
    · have := ZMod.val_lt (((e : ZMod 5003) - (i0 : ZMod 5003))
        * (st : ZMod 5003)⁻¹)
      omega
    · have hcast : ((i0 + (((e : ZMod 5003) - (i0 : ZMod 5003)) * (st : ZMod 5003)⁻¹).val * st : Nat) : ZMod 5003) = (e : ZMod 5003) := by
        push_cast
        rw [ZMod.natCast_val, ZMod.cast_id]
        rw [mul_assoc, inv_mul_cancel₀ hstnz, mul_one]
        ring
      have hval := congrArg ZMod.val hcast
      rw [ZMod.val_natCast, ZMod.val_cast_of_lt he] at hval
      exact hval
  obtain ⟨k, hk, hke⟩ := hsolve
  by_cases hk0 : k = 0
  · subst hk0
    refine ⟨5003, by omega, by omega, ?_⟩
    show (i0 + 5003 * (if i0 = 0 then 5002 else i0)) % 5003 = e
    rw [hst]
    simp only [Nat.zero_mul, Nat.add_zero] at hke
    have : (i0 + 5003 * st) % 5003 = i0 % 5003 := by omega
    rw [this]
    omega
  · refine ⟨k, by omega, by omega, ?_⟩
    show (i0 + k * (if i0 = 0 then 5002 else i0)) % 5003 = e
    rw [hst]
    exact hke

theorem exists_empty_slot (htab : Nat → Int) (codetab : Nat → Nat)
    (D : List (Int × Nat)) (hslot : SlotInv htab codetab D)
    (hlen : D.length < 5003) : ∃ e, e < 5003 ∧ htab e < 0 := by
  obtain ⟨-, -, hcnt, -⟩ := hslot
  have htot := List.length_eq_countP_add_countP
    (fun s => decide (0 ≤ htab s)) (List.range 5003)
  rw [List.length_range] at htot
  have hpos : 0 < (List.range 5003).countP
      (fun s => decide ¬ (decide (0 ≤ htab s)) = true) := by omega
  obtain ⟨e, hmem, hp⟩ := List.countP_pos_iff.mp hpos
  refine ⟨e, List.mem_range.mp hmem, ?_⟩
  simp at hp
  omega

theorem countP_update_le {α : Type} [DecidableEq α] (l : List α)
    (p q : α → Bool) (slot : α)
    (hq : ∀ a, q a = true → a = slot ∨ p a = true) :
    l.countP q ≤ l.count slot + l.countP p := by
  induction l with
  | nil => simp
  | cons a t ih =>
    rw [List.countP_cons, List.countP_cons, List.count_cons]
    by_cases hqa : q a = true
    · rcases hq a hqa with h | h
      · subst h
        simp [hqa]
        omega
      · simp [hqa, h]
        omega
    · simp [hqa]
      split_ifs <;> omega

theorem probeLoop_stops (htab : Nat → Int) (codetab : Nat → Nat)
    (fcode : Int) (i0 : Nat) (h0 : i0 < 5003) :
    ∀ f k0, (∃ k, k0 < k ∧ k ≤ k0 + f ∧
        (htab (probeSeq i0 k) = fcode ∨ htab (probeSeq i0 k) < 0)) →
      ∃ kr, k0 < kr ∧ kr ≤ k0 + f ∧
        (∀ l, k0 < l → l < kr →
          0 ≤ htab (probeSeq i0 l) ∧ htab (probeSeq i0 l) ≠ fcode) ∧
        ((htab (probeSeq i0 kr) = fcode ∧
          probeLoop htab codetab fcode (if i0 = 0 then 1 else HSIZE - i0) f
            (probeSeq i0 k0)
            = some (ProbeResult.found (codetab (probeSeq i0 kr))))
         ∨ (htab (probeSeq i0 kr) ≠ fcode ∧ htab (probeSeq i0 kr) < 0 ∧
          probeLoop htab codetab fcode (if i0 = 0 then 1 else HSIZE - i0) f
            (probeSeq i0 k0)
            = some (ProbeResult.empty (probeSeq i0 kr)))) := by
  intro f
  induction f with
  | zero =>
    intro k0 hex
    obtain ⟨k, hk1, hk2, -⟩ := hex
    omega
  | succ f ih =>
    intro k0 hex
    have hunf : probeLoop htab codetab fcode
        (if i0 = 0 then 1 else HSIZE - i0) (f + 1) (probeSeq i0 k0)
        = (if htab (probeSeq i0 (k0 + 1)) = fcode
           then some (ProbeResult.found (codetab (probeSeq i0 (k0 + 1))))
           else if htab (probeSeq i0 (k0 + 1)) < 0
           then some (ProbeResult.empty (probeSeq i0 (k0 + 1)))
           else probeLoop htab codetab fcode
             (if i0 = 0 then 1 else HSIZE - i0) f (probeSeq i0 (k0 + 1)))
        := by
      rw [probeLoop]
      rw [nextSlot_eq i0 k0 h0]
    by_cases hf : htab (probeSeq i0 (k0 + 1)) = fcode
    · refine ⟨k0 + 1, by omega, by omega, by omega, Or.inl ⟨hf, ?_⟩⟩
      rw [hunf, if_pos hf]
    · by_cases hneg : htab (probeSeq i0 (k0 + 1)) < 0
      · refine ⟨k0 + 1, by omega, by omega, by omega,
          Or.inr ⟨hf, hneg, ?_⟩⟩
        rw [hunf, if_neg hf, if_pos hneg]
      · have hex2 : ∃ k, (k0 + 1) < k ∧ k ≤ (k0 + 1) + f ∧
            (htab (probeSeq i0 k) = fcode ∨ htab (probeSeq i0 k) < 0) := by
          obtain ⟨k, hk1, hk2, hk3⟩ := hex
          refine ⟨k, ?_, by omega, hk3⟩
          rcases Nat.lt_or_ge (k0 + 1) k with h | h
          · exact h
          · have hkeq : k = k0 + 1 := by omega
            rw [hkeq] at hk3
            rcases hk3 with h3 | h3
            · exact absurd h3 hf
            · exact absurd h3 hneg
        obtain ⟨kr, hr1, hr2, hr3, hr4⟩ := ih (k0 + 1) hex2
        refine ⟨kr, by omega, by omega, ?_, ?_⟩
        · intro l hl1 hl2
          by_cases hl : l = k0 + 1
          · subst hl
            exact ⟨by omega, hf⟩
          · exact hr3 l (by omega) hl2
        · rw [hunf, if_neg hf, if_neg hneg]
          exact hr4

theorem slotInv_clear (codetab : Nat → Nat) :
    SlotInv (fun _ => (-1 : Int)) codetab [] := by
  refine ⟨?_, ?_, ?_, ?_⟩
  · intro slot h1 h2
    norm_num at h2
  · intro m hm
    simp at hm
  · simp
  · intro m1 m2 h1 h2
    simp at h1

theorem slotInv_insert (htab : Nat → Int) (codetab : Nat → Nat)
    (D : List (Int × Nat)) (fcode : Int) (code slot k : Nat)
    (hslot : SlotInv htab codetab D)
    (hnew : ∀ cd, (fcode, cd) ∉ D)
    (hsl : slot = probeSeq (primSlot fcode) k)
    (hk : k ≤ 5003)
    (hempty : htab slot < 0)
    (hpath : ∀ l, l < k → 0 ≤ htab (probeSeq (primSlot fcode) l)
      ∧ htab (probeSeq (primSlot fcode) l) ≠ fcode)
    (hpos : ∀ m, (hm : m < D.length) → 0 ≤ (D.get ⟨m, hm⟩).1) :
    SlotInv (fun t => if t = slot then fcode else htab t)
            (fun t => if t = slot then code else codetab t)
            (D ++ [(fcode, code)]) := by
  obtain ⟨S1, S2, S3, S4⟩ := hslot
  have hgetL : ∀ m (hm : m < D.length),
      (D ++ [(fcode, code)]).get ⟨m, by simp; omega⟩ = D.get ⟨m, hm⟩ := by
    intro m hm
    simp [List.getElem_append_left, hm]
  have hgetR : (D ++ [(fcode, code)]).get ⟨D.length, by simp⟩
      = (fcode, code) := by
    simp
  refine ⟨?_, ?_, ?_, ?_⟩
  · intro t ht hge
    by_cases hts : t = slot
    · subst hts
      simp only [if_pos rfl]
      exact List.mem_append_right _ (by simp)
    · simp only [if_neg hts] at hge ⊢
      exact List.mem_append_left _ (S1 t ht hge)
  · intro m hm
    rw [List.length_append, List.length_singleton] at hm
    by_cases hmD : m < D.length
    · obtain ⟨k2, hk2, hht, hct, hpath2⟩ := S2 m hmD
      have hge := hgetL m hmD
      refine ⟨k2, hk2, ?_, ?_, ?_⟩
      · rw [hge]
        have hne : probeSeq (primSlot (D.get ⟨m, hmD⟩).1) k2 ≠ slot := by
          intro heq
          rw [heq] at hht
          have := hpos m hmD
          rw [hht] at hempty
          omega
        simp only [if_neg hne]
        exact hht
      · rw [hge]
        have hne : probeSeq (primSlot (D.get ⟨m, hmD⟩).1) k2 ≠ slot := by
          intro heq
          rw [heq] at hht
          have := hpos m hmD
          rw [hht] at hempty
          omega
        simp only [if_neg hne]
        exact hct
      · intro l hl
        rw [hge]
        obtain ⟨hge0, hne0⟩ := hpath2 l hl
        have hne : probeSeq (primSlot (D.get ⟨m, hmD⟩).1) l ≠ slot := by
          intro heq
          rw [heq] at hge0
          omega
        simp only [if_neg hne]
        exact ⟨hge0, hne0⟩
    · have hmE : m = D.length := by omega
      subst hmE
      have hge : (D ++ [(fcode, code)]).get ⟨D.length, by simp⟩
          = (fcode, code) := hgetR
      refine ⟨k, hk, ?_, ?_, ?_⟩
      · rw [hge]
        show (if probeSeq (primSlot fcode) k = slot then fcode
          else htab (probeSeq (primSlot fcode) k)) = fcode
        rw [if_pos hsl.symm]
      · rw [hge]
        show (if probeSeq (primSlot fcode) k = slot then code
          else codetab (probeSeq (primSlot fcode) k)) = code
        rw [if_pos hsl.symm]
      · intro l hl
        rw [hge]
        obtain ⟨hge0, hne0⟩ := hpath l hl
        have hne : probeSeq (primSlot fcode) l ≠ slot := by
          intro heq
          rw [heq] at hge0
          omega
        show 0 ≤ (if probeSeq (primSlot fcode) l = slot then fcode
            else htab (probeSeq (primSlot fcode) l))
          ∧ (if probeSeq (primSlot fcode) l = slot then fcode
            else htab (probeSeq (primSlot fcode) l)) ≠ fcode
        simp only [if_neg hne]
        exact ⟨hge0, hne0⟩
  · have hcnt := countP_update_le (List.range 5003)
      (fun t => decide (0 ≤ htab t))
      (fun t => decide (0 ≤ (if t = slot then fcode else htab t))) slot
      (by
        intro a ha
        by_cases has : a = slot
        · exact Or.inl has
        · simp only [if_neg has] at ha
          exact Or.inr ha)
    have hone : (List.range 5003).count slot = 1 :=
      List.count_eq_one_of_mem (List.nodup_range 5003)
        (List.mem_range.mpr (by rw [hsl]; exact probeSeq_lt _ _))
    rw [hone] at hcnt
    rw [List.length_append, List.length_singleton]
    show List.countP
      (fun t => decide (0 ≤ if t = slot then fcode else htab t))
      (List.range 5003) ≤ D.length + 1
    omega
  · intro m1 m2 h1 h2 heq
    rw [List.length_append, List.length_singleton] at h1 h2
    by_cases h1D : m1 < D.length <;> by_cases h2D : m2 < D.length
    · rw [hgetL m1 h1D, hgetL m2 h2D] at heq
      exact S4 m1 m2 h1D h2D heq
    · have hm2E : m2 = D.length := by omega
      subst hm2E
      rw [hgetL m1 h1D] at heq
      rw [hgetR] at heq
      have heq2 : (D.get ⟨m1, h1D⟩).1 = fcode := heq
      exfalso
      refine hnew (D.get ⟨m1, h1D⟩).2 ?_
      have hpe : D.get ⟨m1, h1D⟩ = (fcode, (D.get ⟨m1, h1D⟩).2) := by
        rw [← heq2]
      rw [← hpe]
      exact List.get_mem D m1 h1D
    · have hm1E : m1 = D.length := by omega
      subst hm1E
      rw [hgetL m2 h2D] at heq
      rw [hgetR] at heq
      have heq2 : (D.get ⟨m2, h2D⟩).1 = fcode := heq.symm
      exfalso
      refine hnew (D.get ⟨m2, h2D⟩).2 ?_
      have hpe : D.get ⟨m2, h2D⟩ = (fcode, (D.get ⟨m2, h2D⟩).2) := by
        rw [← heq2]
      rw [← hpe]
      exact List.get_mem D m2 h2D
    · omega

theorem fcodeOf_toNat (c ent : Nat) :
    (fcodeOf c ent).toNat = c * 4096 + ent := by
  unfold fcodeOf
  have h1 : (c <<< BITS : Nat) = c * 4096 := by
    rw [Nat.shiftLeft_eq]
    norm_num [BITS]
  rw [h1]
  omega

theorem fcodeOf_nonneg (c ent : Nat) : 0 ≤ fcodeOf c ent := by
  unfold fcodeOf
  positivity

theorem fcodeOf_inj (c1 e1 c2 e2 : Nat) (h1 : e1 < 4096) (h2 : e2 < 4096)
    (heq : fcodeOf c1 e1 = fcodeOf c2 e2) : c1 = c2 ∧ e1 = e2 := by
  have := congrArg Int.toNat heq
  rw [fcodeOf_toNat, fcodeOf_toNat] at this
  omega

theorem primSlot_fcodeOf (c ent : Nat) (hent : ent < 4096) :
    primSlot (fcodeOf c ent) = (c <<< hshift) ^^^ ent := by
  unfold primSlot
  rw [fcodeOf_toNat]
  have hdiv : (c * 4096 + ent) / 4096 = c := by omega
  have hmod : (c * 4096 + ent) % 4096 = ent := by omega
  rw [hdiv, hmod]

theorem i0_lt_hsize (c ent : Nat) (hc : c < 256) (hent : ent < 4096) :
    (c <<< hshift) ^^^ ent < 5003 := by
  have h1 : c <<< hshift < 2 ^ 12 := by
    rw [hshift_eq, Nat.shiftLeft_eq]
    norm_num
    omega
  have h2 : ent < 2 ^ 12 := by norm_num; omega
  have := Nat.xor_lt_two_pow h1 h2
  norm_num at this
  omega

/-- On a stored key, `compress`'s hash lookup (primary probe plus secondary
walk) finds exactly the stored code and changes nothing. -/
theorem compressStep_hit (initBits : Nat) (c ent : Nat) (s : LZWState)
    (D : List (Int × Nat)) (code : Nat)
    (hslot : SlotInv s.htab s.codetab D)
    (hc : c < 256) (hent : ent < 4096)
    (hmem : (fcodeOf c ent, code) ∈ D) :
    compressStep initBits c ent s = (s, code) := by
  obtain ⟨S1, S2, S3, S4⟩ := hslot
  obtain ⟨m, hm, hget⟩ := List.mem_iff_getElem.mp hmem
  have h0 : (c <<< hshift) ^^^ ent < 5003 := i0_lt_hsize c ent hc hent
  obtain ⟨k2, hk2, hht, hct, hpath2⟩ := S2 m hm
  have hgm : D.get ⟨m, hm⟩ = (fcodeOf c ent, code) := hget
  have hprim : primSlot (fcodeOf c ent) = (c <<< hshift) ^^^ ent :=
    primSlot_fcodeOf c ent hent
  rw [hgm, hprim] at hht hct hpath2
  have hstep : compressStep initBits c ent s
      = (if s.htab ((c <<< hshift) ^^^ ent) = fcodeOf c ent
         then (s, s.codetab ((c <<< hshift) ^^^ ent))
         else if 0 ≤ s.htab ((c <<< hshift) ^^^ ent) then
           match probeLoop s.htab s.codetab (fcodeOf c ent)
             (if (c <<< hshift) ^^^ ent = 0 then 1
              else HSIZE - ((c <<< hshift) ^^^ ent)) HSIZE
             ((c <<< hshift) ^^^ ent) with
           | some (ProbeResult.found cd) => (s, cd)
           | some (ProbeResult.empty slot) =>
             missStep initBits c ent slot s
           | none => (s, ent)
         else missStep initBits c ent ((c <<< hshift) ^^^ ent) s) := by
    simp only [compressStep, missStep, fcodeOf]
  by_cases hk20 : k2 = 0
  · subst hk20
    rw [probeSeq_zero _ h0] at hht hct
    rw [hstep, if_pos hht, hct]
  · have hprim_ne := hpath2 0 (by omega)
    rw [probeSeq_zero _ h0] at hprim_ne
    have hstops := probeLoop_stops s.htab s.codetab (fcodeOf c ent)
      ((c <<< hshift) ^^^ ent) h0 HSIZE 0
      ⟨k2, by omega, by
        show k2 ≤ 0 + HSIZE
        have : HSIZE = 5003 := rfl
        omega, Or.inl hht⟩
    obtain ⟨kr, hr1, hr2, hr3, hr4⟩ := hstops
    have hkrk2 : kr = k2 := by
      by_contra hne
      rcases Nat.lt_or_ge kr k2 with hlt | hge
      · obtain ⟨hge0, hne0⟩ := hpath2 kr hlt
        rcases hr4 with ⟨hf, -⟩ | ⟨-, hneg, -⟩
        · exact hne0 hf
        · omega
      · have hk2r : k2 < kr := by omega
        obtain ⟨-, hne0⟩ := hr3 k2 (by omega) hk2r
        exact hne0 hht
    subst hkrk2
    rcases hr4 with ⟨-, heq⟩ | ⟨hf, -, -⟩
    · rw [probeSeq_zero _ h0] at heq
      rw [hstep, if_neg hprim_ne.2, if_pos hprim_ne.1, heq, hct]
    · exact absurd hht hf

/-- On an unstored key, `compress`'s hash lookup walks a probe path of
occupied alien slots and ends at an empty slot, where the miss branch
runs. -/
theorem compressStep_miss (initBits : Nat) (c ent : Nat) (s : LZWState)
    (D : List (Int × Nat))
    (hslot : SlotInv s.htab s.codetab D)
    (hc : c < 256) (hent : ent < 4096)
    (hnew : ∀ cd, (fcodeOf c ent, cd) ∉ D)
    (hDlen : D.length < 5003) :
    ∃ slot k, slot = probeSeq (primSlot (fcodeOf c ent)) k ∧ k ≤ 5003
      ∧ s.htab slot < 0
      ∧ (∀ l, l < k → 0 ≤ s.htab (probeSeq (primSlot (fcodeOf c ent)) l)
          ∧ s.htab (probeSeq (primSlot (fcodeOf c ent)) l) ≠ fcodeOf c ent)
      ∧ compressStep initBits c ent s = missStep initBits c ent slot s := by
  have h0 : (c <<< hshift) ^^^ ent < 5003 := i0_lt_hsize c ent hc hent
  have hprim : primSlot (fcodeOf c ent) = (c <<< hshift) ^^^ ent :=
    primSlot_fcodeOf c ent hent
  have hstep : compressStep initBits c ent s
      = (if s.htab ((c <<< hshift) ^^^ ent) = fcodeOf c ent
         then (s, s.codetab ((c <<< hshift) ^^^ ent))
         else if 0 ≤ s.htab ((c <<< hshift) ^^^ ent) then
           match probeLoop s.htab s.codetab (fcodeOf c ent)
             (if (c <<< hshift) ^^^ ent = 0 then 1
              else HSIZE - ((c <<< hshift) ^^^ ent)) HSIZE
             ((c <<< hshift) ^^^ ent) with
           | some (ProbeResult.found cd) => (s, cd)
           | some (ProbeResult.empty slot) =>
             missStep initBits c ent slot s
           | none => (s, ent)
         else missStep initBits c ent ((c <<< hshift) ^^^ ent) s) := by
    simp only [compressStep, missStep, fcodeOf]
  obtain ⟨S1, S2, S3, S4⟩ := hslot
  have hprim_ne : s.htab ((c <<< hshift) ^^^ ent) ≠ fcodeOf c ent := by
    intro heq
    have hge : 0 ≤ s.htab ((c <<< hshift) ^^^ ent) := by
      rw [heq]
      exact fcodeOf_nonneg c ent
    have := S1 _ h0 hge
    rw [heq] at this
    exact hnew _ this
  by_cases hneg : 0 ≤ s.htab ((c <<< hshift) ^^^ ent)
  · -- primary occupied by an alien key: walk the probe sequence
    obtain ⟨e, he, hee⟩ := exists_empty_slot s.htab s.codetab D
      ⟨S1, S2, S3, S4⟩ hDlen
    obtain ⟨ke, hke1, hke2, hkee⟩ := probeSeq_surj _ e h0 he
    have hstops := probeLoop_stops s.htab s.codetab (fcodeOf c ent)
      ((c <<< hshift) ^^^ ent) h0 HSIZE 0
      ⟨ke, by omega, by
        show ke ≤ 0 + HSIZE
        have : HSIZE = 5003 := rfl
        omega, by rw [hkee]; exact Or.inr hee⟩
    obtain ⟨kr, hr1, hr2, hr3, hr4⟩ := hstops
    rcases hr4 with ⟨hf, -⟩ | ⟨hf, hempty2, heq⟩
    · -- a found stop would mean the key is stored
      exfalso
      have hge : 0 ≤ s.htab (probeSeq ((c <<< hshift) ^^^ ent) kr) := by
        rw [hf]
        exact fcodeOf_nonneg c ent
      have := S1 _ (probeSeq_lt _ _) hge
      rw [hf] at this
      exact hnew _ this
    · refine ⟨probeSeq ((c <<< hshift) ^^^ ent) kr, kr, by rw [hprim],
        by
          have : HSIZE = 5003 := rfl
          omega,
        hempty2, ?_, ?_⟩
      · intro l hl
        rw [hprim]
        by_cases hl0 : l = 0
        · subst hl0
          rw [probeSeq_zero _ h0]
          exact ⟨hneg, hprim_ne⟩
        · exact hr3 l (by omega) hl
      · rw [probeSeq_zero _ h0] at heq
        rw [hstep, if_neg hprim_ne, if_pos hneg, heq]
  · -- primary slot is free: miss right there
    refine ⟨(c <<< hshift) ^^^ ent, 0, by rw [hprim, probeSeq_zero _ h0],
      by omega, by omega, by omega, ?_⟩
    rw [hstep, if_neg hprim_ne, if_neg hneg]

/-! ## C1 groundwork: encoder-side string semantics of codes -/

theorem fcodeOf_div (c e : Nat) (he : e < 4096) :
    (fcodeOf c e).toNat / 4096 = c := by
  rw [fcodeOf_toNat]
  omega

theorem fcodeOf_mod (c e : Nat) (he : e < 4096) :
    (fcodeOf c e).toNat % 4096 = e := by
  rw [fcodeOf_toNat]
  omega

theorem strOfCode_mono (clearCode : Nat) (D : List (Int × Nat)) :
    ∀ f1 f2 code u, f1 ≤ f2 →
    strOfCode clearCode D f1 code = some u →
    strOfCode clearCode D f2 code = some u := by
  intro f1
  induction f1 with
  | zero =>
    intro f2 code u _ h
    simp [strOfCode] at h
  | succ f1 ih =>
    intro f2 code u hle h
    obtain ⟨f2', rfl⟩ : ∃ g, f2 = g + 1 := ⟨f2 - 1, by omega⟩
    rw [strOfCode] at h ⊢
    by_cases hlit : code < clearCode
    · rw [if_pos hlit] at h ⊢
      exact h
    · rw [if_neg hlit] at h ⊢
      cases hD : D[code - clearCode - 2]? with
      | none =>
        rw [hD] at h
        simp at h
      | some e =>
        rw [hD] at h
        dsimp only at h
        rw [Option.map_eq_some'] at h ⊢
        obtain ⟨w, hw, hweq⟩ := h
        exact ⟨w, ih f2' _ w (by omega) hw, hweq⟩

theorem strOfCode_append (clearCode : Nat) (D : List (Int × Nat))
    (x : Int × Nat) :
    ∀ f code u, strOfCode clearCode D f code = some u →
    strOfCode clearCode (D ++ [x]) f code = some u := by
  intro f
  induction f with
  | zero =>
    intro code u h
    simp [strOfCode] at h
  | succ f ih =>
    intro code u h
    rw [strOfCode] at h ⊢
    by_cases hlit : code < clearCode
    · rw [if_pos hlit] at h ⊢
      exact h
    · rw [if_neg hlit] at h ⊢
      cases hD : D[code - clearCode - 2]? with
      | none =>
        rw [hD] at h
        simp at h
      | some e =>
        rw [hD] at h
        dsimp only at h
        have hidx : code - clearCode - 2 < D.length := by
          by_contra hge
          rw [List.getElem?_eq_none (by omega)] at hD
          exact Option.noConfusion hD
        rw [List.getElem?_append_left hidx, hD]
        dsimp only
        rw [Option.map_eq_some'] at h ⊢
        obtain ⟨w, hw, hweq⟩ := h
        exact ⟨w, ih _ w hw, hweq⟩

theorem strOfCode_total (clearCode : Nat) (D : List (Int × Nat))
    (hsh : DShape clearCode D)
    (hlen : clearCode + 2 + D.length ≤ 4096) :
    ∀ m, m ≤ D.length → ∀ code,
    (code < clearCode
      ∨ (clearCode + 2 ≤ code ∧ code < clearCode + 2 + m)) →
    ∃ u, u ≠ [] ∧ strOfCode clearCode D (m + 1) code = some u := by
  intro m
  induction m using Nat.strong_induction_on with
  | _ m ih =>
    intro hm code hcode
    rcases hcode with hlit | ⟨hge, hlt⟩
    · exact ⟨[code], by simp, by rw [strOfCode, if_pos hlit]⟩
    · have hjm : code - clearCode - 2 < m := by omega
      have hjD : code - clearCode - 2 < D.length := by omega
      obtain ⟨cc, ee, hget, hcc, hee, hee2⟩ := hsh (code - clearCode - 2) hjD
      have hD : D[code - clearCode - 2]?
          = some (fcodeOf cc ee, clearCode + 2 + (code - clearCode - 2)) := by
        rw [List.getElem?_eq_getElem hjD]
        have hgg : D[code - clearCode - 2]
            = (fcodeOf cc ee, clearCode + 2 + (code - clearCode - 2)) := hget
        rw [hgg]
      have hee4096 : ee < 4096 := by omega
      obtain ⟨u, hune, hu⟩ := ih (code - clearCode - 2) hjm (by omega) ee
        (by rcases hee2 with h | h
            · exact Or.inl h
            · exact Or.inr ⟨h, by omega⟩)
      refine ⟨u ++ [cc], by simp, ?_⟩
      rw [strOfCode, if_neg (by omega), hD]
      show Option.map (fun w => w ++ [(fcodeOf cc ee).toNat / 4096])
        (strOfCode clearCode D m ((fcodeOf cc ee).toNat % 4096))
        = some (u ++ [cc])
      rw [fcodeOf_mod cc ee hee4096]
      rw [strOfCode_mono clearCode D (code - clearCode - 2 + 1) m ee u
        (by omega) hu]
      rw [fcodeOf_div cc ee hee4096]
      rfl

theorem strOfCode_ne_nil (clearCode : Nat) (D : List (Int × Nat)) :
    ∀ f code u, strOfCode clearCode D f code = some u → u ≠ [] := by
  intro f
  induction f with
  | zero =>
    intro code u h
    simp [strOfCode] at h
  | succ f ih =>
    intro code u h
    rw [strOfCode] at h
    by_cases hlit : code < clearCode
    · rw [if_pos hlit] at h
      cases h
      simp
    · rw [if_neg hlit] at h
      cases hD : D[code - clearCode - 2]? with
      | none =>
        rw [hD] at h
        simp at h
      | some e =>
        rw [hD] at h
        dsimp only at h
        rw [Option.map_eq_some'] at h
        obtain ⟨w, -, hweq⟩ := h
        rw [← hweq]
        simp

theorem strOfCode_entry (clearCode : Nat) (D : List (Int × Nat)) (f : Nat)
    (code cc ee v : Nat) (u : List Nat) (hge : clearCode + 2 ≤ code)
    (hD : D[code - clearCode - 2]? = some (fcodeOf cc ee, v))
    (he : ee < 4096)
    (hpre : strOfCode clearCode D f ee = some u) :
    strOfCode clearCode D (f + 1) code = some (u ++ [cc]) := by
  rw [strOfCode, if_neg (by omega), hD]
  show Option.map (fun w => w ++ [(fcodeOf cc ee).toNat / 4096])
    (strOfCode clearCode D f ((fcodeOf cc ee).toNat % 4096))
    = some (u ++ [cc])
  rw [fcodeOf_mod cc ee he, hpre, fcodeOf_div cc ee he]
  rfl

/-! ## C1 groundwork: decoder single steps and runs -/

theorem decStep_clear (clearCode initBits : Nat) (dec : DecState) :
    decStep clearCode initBits dec clearCode
      = some (Sum.inl { dict := [], nBits := initBits, prev := none, out := dec.out }) := by
  rw [decStep, if_pos rfl]

theorem decStep_eof (clearCode initBits : Nat) (dec : DecState)
    (hc : 0 < clearCode) :
    decStep clearCode initBits dec (clearCode + 1)
      = some (Sum.inr dec.out) := by
  rw [decStep, if_neg (by omega), if_pos rfl]

theorem decStep_literal_first (clearCode initBits : Nat) (dec : DecState)
    (ent : Nat) (hprev : dec.prev = none) (hlit : ent < clearCode) :
    decStep clearCode initBits dec ent
      = some (Sum.inl { dict := dec.dict, nBits := dec.nBits, prev := some ent, out := dec.out ++ [ent] }) := by
  rw [decStep, if_neg (by omega), if_neg (by omega), hprev]
  show (if ent < clearCode then
    some (Sum.inl { dec with prev := some ent, out := dec.out ++ [ent] })
    else none) = _
  rw [if_pos hlit]

theorem decStep_consume (clearCode initBits : Nat) (dec : DecState)
    (pcode ent : Nat) (U W : List Nat)
    (hprev : dec.prev = some pcode)
    (hUne : U ≠ [])
    (hU : codeStr clearCode dec.dict pcode = some U)
    (hns : ent < clearCode ∨ clearCode + 2 ≤ ent)
    (hfd : clearCode + 2 + dec.dict.length < 4096)
    (hca : (ent < clearCode + 2 + dec.dict.length
              ∧ codeStr clearCode dec.dict ent = some W)
           ∨ (ent = clearCode + 2 + dec.dict.length
              ∧ W = U ++ [U.headD 0])) :
    decStep clearCode initBits dec ent
      = some (Sum.inl {
          dict := dec.dict ++ [U ++ [W.headD 0]],
          nBits := if MAXCODE dec.nBits
                < clearCode + 2 + dec.dict.length + 1 ∧ dec.nBits < 12
              then dec.nBits + 1 else dec.nBits,
          prev := some ent,
          out := dec.out ++ W }) := by
  rw [decStep, if_neg (by omega), if_neg (by omega), hprev]
  show (match codeStr clearCode dec.dict pcode with
    | none => none
    | some w =>
      let freeEnt := clearCode + 2 + dec.dict.length
      let continue1 : List Nat → Option (DecState ⊕ List Nat) :=
        fun entry =>
          let newDict :=
            if freeEnt < 4096 then dec.dict ++ [w ++ [entry.headD 0]]
            else dec.dict
          let freeEnt1 := clearCode + 2 + newDict.length
          let nb := if MAXCODE dec.nBits < freeEnt1 ∧ dec.nBits < 12 then
            dec.nBits + 1 else dec.nBits
          some (Sum.inl { dict := newDict, nBits := nb,
                          prev := some ent, out := dec.out ++ entry })
      if ent < freeEnt then
        match codeStr clearCode dec.dict ent with
        | none => none
        | some entry => continue1 entry
      else if ent = freeEnt then
        continue1 (w ++ [w.headD 0])
      else none) = _
  rw [hU]
  simp only []
  rcases hca with ⟨hlt, hW⟩ | ⟨heq, hW⟩
  · rw [if_pos hlt, hW]
    simp only [if_pos hfd, List.length_append, List.length_singleton]
    rfl
  · rw [if_neg (by omega), if_pos heq]
    simp only [if_pos hfd, List.length_append, List.length_singleton]
    subst hW
    rfl

theorem decRun_snoc (clearCode initBits : Nat) (E : List (Nat × Nat))
    (d0 d1 d2 : DecState) (c w : Nat)
    (hE : decRun clearCode initBits E d0 = some d1)
    (hw : w = d1.nBits) (hc : c < 2 ^ w)
    (hstep : decStep clearCode initBits d1 c = some (Sum.inl d2)) :
    decRun clearCode initBits (E ++ [(c, w)]) d0 = some d2 := by
  induction E generalizing d0 with
  | nil =>
    rw [decRun] at hE
    cases hE
    rw [List.nil_append]
    simp only [decRun]
    rw [if_pos ⟨hw, hc⟩, hstep]
  | cons cw E ih =>
    obtain ⟨c0, w0⟩ := cw
    simp only [decRun] at hE
    rw [List.cons_append]
    simp only [decRun]
    by_cases hcond : w0 = d0.nBits ∧ c0 < 2 ^ w0
    · rw [if_pos hcond] at hE ⊢
      cases hds : decStep clearCode initBits d0 c0 with
      | none => rw [hds] at hE; exact absurd hE (by simp)
      | some r =>
        rw [hds] at hE
        cases r with
        | inl st1 =>
          exact ih st1 hE
        | inr out => exact absurd hE (by simp)
    · rw [if_neg hcond] at hE
      exact absurd hE (by simp)

theorem headD_append_ne_nil (W : List Nat) (x : Nat) (h : W ≠ []) :
    (W ++ [x]).headD 0 = W.headD 0 := by
  cases W with
  | nil => exact absurd rfl h
  | cons a l => rfl

theorem strOfCode_pin (cc : Nat) (D : List (Int × Nat)) (f1 f2 code : Nat)
    (u1 u2 : List Nat) (h1 : strOfCode cc D f1 code = some u1)
    (h2 : strOfCode cc D f2 code = some u2) : u1 = u2 := by
  have e1 := strOfCode_mono cc D f1 (f1 + f2) code u1 (by omega) h1
  have e2 := strOfCode_mono cc D f2 (f1 + f2) code u2 (by omega) h2
  rw [e1] at e2
  exact Option.some.inj e2

theorem clear_bounds (initBits : Nat) (h1 : 3 ≤ initBits)
    (h2 : initBits ≤ 9) :
    4 ≤ 1 <<< (initBits - 1) ∧ 1 <<< (initBits - 1) ≤ 256
    ∧ MAXCODE initBits = 2 * (1 <<< (initBits - 1)) - 1 := by
  rw [Nat.shiftLeft_eq, one_mul, MAXCODE, Nat.shiftLeft_eq, one_mul]
  have e1 : 2 ^ initBits = 2 * 2 ^ (initBits - 1) := by
    obtain ⟨n, rfl⟩ : ∃ n, initBits = n + 1 := ⟨initBits - 1, by omega⟩
    rw [Nat.add_sub_cancel, pow_succ]
    ring
  refine ⟨?_, ?_, by rw [e1]⟩
  · calc (4:Nat) = 2 ^ 2 := by norm_num
      _ ≤ 2 ^ (initBits - 1) :=
          Nat.pow_le_pow_right (by norm_num) (by omega)
  · calc (2:Nat) ^ (initBits - 1) ≤ 2 ^ 8 :=
          Nat.pow_le_pow_right (by norm_num) (by omega)
      _ = 256 := by norm_num

theorem MAXCODE_pow (n : Nat) : MAXCODE n = 2 ^ n - 1 := by
  rw [MAXCODE, Nat.shiftLeft_eq, one_mul]

theorem missStep_insert (initBits c ent slot : Nat) (s : LZWState)
    (hlt : (output initBits (ent : Int) s).freeEnt < 4096) :
    missStep initBits c ent slot s
      = ({ output initBits (ent : Int) s with
          codetab := fun t => if t = slot
            then (output initBits (ent : Int) s).freeEnt
            else (output initBits (ent : Int) s).codetab t,
          freeEnt := (output initBits (ent : Int) s).freeEnt + 1,
          htab := fun t => if t = slot then fcodeOf c ent
            else (output initBits (ent : Int) s).htab t }, c) := by
  simp only [missStep]
  rw [if_pos (by
    have hb : (1 <<< BITS : Nat) = 4096 := rfl
    rw [hb]
    exact hlt)]
  rfl

theorem missStep_clblock (initBits c ent slot : Nat) (s : LZWState)
    (hge : ¬ (output initBits (ent : Int) s).freeEnt < 4096) :
    missStep initBits c ent slot s
      = (clBlock initBits (output initBits (ent : Int) s), c) := by
  simp only [missStep]
  rw [if_neg (by
    have hb : (1 <<< BITS : Nat) = 4096 := rfl
    rw [hb]
    exact hge)]

/-- One outer-loop iteration on a dictionary hit: the state is unchanged
and the pending string grows by the consumed pixel. -/
theorem compressStep_sim_hit (initBits : Nat) (hib1 : 3 ≤ initBits)
    (hib2 : initBits ≤ 9) (P : List Nat) (s : LZWState) (ent : Nat)
    (D : List (Int × Nat)) (dec : DecState) (E : List (Nat × Nat))
    (B : List Nat) (v : Nat) (W : List Nat) (c cd : Nat)
    (hc : c < 1 <<< (initBits - 1))
    (hinv : LZWInv initBits P s ent D dec E B v W)
    (hmem : (fcodeOf c ent, cd) ∈ D) :
    compressStep initBits c ent s = (s, cd) ∧
    LZWInv initBits (P ++ [c]) s cd D dec E B v (W ++ [c]) := by
  obtain ⟨hclearFlg, hnBits, hnlo, hnhi, hmax, hfE, hfle, hfcap, hslot,
    hshape, hentlt, hentns, hWstr, hWne, hout, hdict, hcases, hE, hEw,
    hacc, hv, hcb, hframe, hbits⟩ := hinv
  obtain ⟨hQ4, hQ256, hMAX⟩ := clear_bounds initBits hib1 hib2
  have hc256 : c < 256 := by omega
  have hent4096 : ent < 4096 := by omega
  have hstep := compressStep_hit initBits c ent s D cd hslot hc256
    hent4096 hmem
  obtain ⟨m, hm, hget⟩ := List.mem_iff_getElem.mp hmem
  obtain ⟨c0, e0, hget0, hc0, he0, hns0⟩ := hshape m hm
  have hgg : D.get ⟨m, hm⟩ = D[m] := rfl
  rw [hgg, hget] at hget0
  have hfeq : fcodeOf c ent = fcodeOf c0 e0 := congrArg Prod.fst hget0
  have he04096 : e0 < 4096 := by omega
  obtain ⟨hcc0, hee0⟩ := fcodeOf_inj c ent c0 e0 hent4096 he04096 hfeq
  have hcd : cd = 1 <<< (initBits - 1) + 2 + m := congrArg Prod.snd hget0
  -- the prefix string at exact fuel D.length
  have hlen4096 : 1 <<< (initBits - 1) + 2 + D.length ≤ 4096 := by omega
  obtain ⟨u, hune, hu⟩ := strOfCode_total (1 <<< (initBits - 1)) D hshape
    hlen4096 m (by omega) ent
    (by rcases hentns with h | h
        · exact Or.inl h
        · exact Or.inr ⟨h, by omega⟩)
  have huW : u = W := strOfCode_pin _ D (m + 1) (D.length + 1) ent u W
    hu hWstr
  subst huW
  have hpre : strOfCode (1 <<< (initBits - 1)) D D.length ent = some u :=
    strOfCode_mono _ D (m + 1) D.length ent u (by omega) hu
  have hDm : D[cd - (1 <<< (initBits - 1)) - 2]?
      = some (fcodeOf c ent, cd) := by
    have hidx : cd - (1 <<< (initBits - 1)) - 2 = m := by omega
    rw [hidx, List.getElem?_eq_getElem hm, hget]
  have hWstr2 : strOfCode (1 <<< (initBits - 1)) D (D.length + 1) cd
      = some (u ++ [c]) :=
    strOfCode_entry _ D D.length cd c ent cd u (by omega) hDm hent4096 hpre
  refine ⟨hstep, ?_⟩
  refine ⟨hclearFlg, hnBits, hnlo, hnhi, hmax, hfE, hfle, hfcap, hslot,
    hshape, by omega, by omega, hWstr2, by simp, ?_, hdict, ?_, hE, hEw,
    hacc, hv, hcb, hframe, hbits⟩
  · rw [← List.append_assoc, hout]
  · rcases hcases with ⟨-, hDnil, -, -⟩ | ⟨pcode, h1, h2, h3, h4, h5, h6⟩
    · rw [hDnil] at hm
      simp at hm
    · refine Or.inr ⟨pcode, h1, h2, h3, h4, h5, ?_⟩
      rw [headD_append_ne_nil u c hWne]
      exact h6

/-- One outer-loop iteration on a dictionary miss right after a clear (or
at stream start): the pending literal is emitted at the current width, the
new fcode is inserted, and the decoder consumes the literal without adding
a table entry. -/
theorem compressStep_sim_missA (initBits : Nat) (hib1 : 3 ≤ initBits)
    (hib2 : initBits ≤ 9) (P : List Nat) (s : LZWState) (ent : Nat)
    (dec : DecState) (E : List (Nat × Nat))
    (B : List Nat) (v : Nat) (W : List Nat) (c : Nat)
    (hc : c < 1 <<< (initBits - 1))
    (hinv : LZWInv initBits P s ent [] dec E B v W) :
    ∃ s2 dec2 B2 v2,
      compressStep initBits c ent s = (s2, c) ∧
      LZWInv initBits (P ++ [c]) s2 c
        [(fcodeOf c ent, (1 <<< (initBits - 1)) + 2)] dec2
        (E ++ [(ent, s.nBits)]) B2 v2 [c] := by
  obtain ⟨hclearFlg, hnBits, hnlo, hnhi, hmax, hfE, hfle, hfcap, hslot,
    hshape, hentlt, hentns, hWstr, hWne, hout, hdict, hcases, hE, hEw,
    hacc, hv, hcb, hframe, hbits⟩ := hinv
  obtain ⟨hQ4, hQ256, hMAX⟩ := clear_bounds initBits hib1 hib2
  have hc256 : c < 256 := by omega
  simp only [List.length_nil] at hfE
  have hentQ : ent < 1 <<< (initBits - 1) := by
    rcases hentns with h | h
    · exact h
    · omega
  have hent4096 : ent < 4096 := by omega
  rcases hcases with ⟨hprev, -, hdictnil, hnbinit⟩ |
    ⟨pcode, -, hlag, -, -, hD0, -⟩
  case mk.intro.intro.inr.intro.intro.intro.intro.intro.intro =>
    simp at hD0
  -- the pending string is the single literal
  have hWval : W = [ent] := by
    rw [strOfCode, if_pos hentQ] at hWstr
    exact (Option.some.inj hWstr).symm
  -- hash miss
  have hnew : ∀ cd, (fcodeOf c ent, cd) ∉ ([] : List (Int × Nat)) := by
    intro cd h
    simp at h
  obtain ⟨slot, k, hsl, hk, hempty, hpath, hstep⟩ :=
    compressStep_miss initBits c ent s [] hslot hc256 hent4096 hnew
    (by simp)
  -- the emission
  have hcvlt : ent < 2 ^ s.nBits := by
    have h2 : (2:Nat) ^ s.nBits ≥ 2 ^ initBits := by
      exact Nat.pow_le_pow_right (by norm_num) hnlo
    have h3 : (2:Nat) ^ initBits = 2 * (1 <<< (initBits - 1)) := by
      rw [Nat.shiftLeft_eq, one_mul]
      obtain ⟨n, rfl⟩ : ∃ n, initBits = n + 1 := ⟨initBits - 1, by omega⟩
      rw [Nat.add_sub_cancel, pow_succ]
      ring
    omega
  have hne_eof : ((ent : Nat) : Int)
      ≠ (((1 <<< (initBits - 1)) + 1 : Nat) : Int) := by
    intro hh
    have : ent = (1 <<< (initBits - 1)) + 1 := by exact_mod_cast hh
    omega
  obtain ⟨B1, v1, o1, o2, o3, o4, o5, o6, o7, o8⟩ :=
    output_stream initBits ent s B v E hacc hv hcb hnhi hcvlt hne_eof
      hframe hbits
  -- width: no growth
  have hmaxv : s.maxcode = 2 * (1 <<< (initBits - 1)) - 1 := by
    rw [hmax, if_neg (by omega), MAXCODE_pow, hnbinit, ← MAXCODE_pow, hMAX]
  have hstay := (output_width initBits (ent : Int) s).2.2 hclearFlg
    (by omega)
  -- the insert branch runs
  have hins := missStep_insert initBits c ent slot s (by rw [o8]; omega)
  rw [hins] at hstep
  -- decoder consumes the literal
  have hds := decStep_literal_first (1 <<< (initBits - 1)) initBits dec ent
    hprev hentQ
  refine ⟨_, { dict := dec.dict, nBits := dec.nBits, prev := some ent, out := dec.out ++ [ent] }, B1, v1, hstep, ?_⟩
  have hE2 := decRun_snoc (1 <<< (initBits - 1)) initBits E
    (decInit initBits) dec _ ent s.nBits hE hnBits hcvlt hds
  refine ⟨?_, ?_, ?_, ?_, ?_, ?_, ?_, ?_, ?_, ?_, ?_, ?_, ?_, ?_, ?_,
    ?_, ?_, hE2, ?_, ?_, ?_, ?_, ?_, ?_⟩
  · show (output initBits (ent : Int) s).clearFlg = false
    exact hstay.2.2
  · show (output initBits (ent : Int) s).nBits = dec.nBits
    rw [hstay.1, hnBits]
  · show initBits ≤ (output initBits (ent : Int) s).nBits
    rw [hstay.1]
    exact hnlo
  · show (output initBits (ent : Int) s).nBits ≤ 12
    rw [hstay.1]
    exact hnhi
  · show (output initBits (ent : Int) s).maxcode = _
    rw [hstay.1, hstay.2.1]
    exact hmax
  · show (output initBits (ent : Int) s).freeEnt + 1 = _
    rw [o8]
    simp [hfE]
  · show (output initBits (ent : Int) s).freeEnt + 1
      ≤ (output initBits (ent : Int) s).maxcode + 1
    rw [o8, hstay.2.1]
    omega
  · show (output initBits (ent : Int) s).freeEnt + 1 ≤ 4096
    rw [o8]
    omega
  · show SlotInv
      (fun t => if t = slot then fcodeOf c ent
        else (output initBits (ent : Int) s).htab t)
      (fun t => if t = slot then (output initBits (ent : Int) s).freeEnt
        else (output initBits (ent : Int) s).codetab t) _
    rw [o6, o7, o8]
    have hcode : s.freeEnt = (1 <<< (initBits - 1)) + 2 := by omega
    rw [← hcode]
    exact slotInv_insert s.htab s.codetab [] (fcodeOf c ent) s.freeEnt
      slot k hslot hnew hsl hk hempty hpath (by intro m hm; simp at hm)
  · intro m hm
    simp only [List.length_singleton] at hm
    have hm0 : m = 0 := by omega
    subst hm0
    refine ⟨c, ent, ?_, hc, by omega, Or.inl hentQ⟩
    simp
  · show c < (output initBits (ent : Int) s).freeEnt + 1
    rw [o8]
    omega
  · exact Or.inl hc
  · rw [strOfCode, if_pos hc]
  · simp
  · show dec.out ++ [ent] ++ [c] = P ++ [c]
    rw [← hout, hWval]
  · intro m hm
    rw [hdictnil] at hm
    simp at hm
  · refine Or.inr ⟨ent, rfl, by rw [hdictnil]; simp, ?_, hentns, by simp,
      ?_⟩
    · rw [hdictnil]
      simp
      omega
    · simp
  · intro cw hcw
    rcases List.mem_append.mp hcw with h | h
    · exact hEw cw h
    · simp at h
      rw [h]
      omega
  · show (output initBits (ent : Int) s).curAccum = _
    exact o1
  · show v1 < 2 ^ (output initBits (ent : Int) s).curBits
    exact o2
  · show (output initBits (ent : Int) s).curBits < 8
    exact o3
  · obtain ⟨done, f1, f2, f3⟩ := o4
    exact ⟨done, f1, f2, f3⟩
  · show bitsOfBytes B1
      ++ natToBits (output initBits (ent : Int) s).curBits v1 = _
    rw [o5, codeBits_append]
    simp [codeBits]

/-- Mid-epoch (decoder one entry behind): the decoder can resolve the
previous code's string `U`, and the emitted code `ent` is either already
in its table with string `W`, or is exactly the next free code, in which
case `W` has the standard KwKwK form. -/
theorem caseB_dec_data (initBits : Nat) (D : List (Int × Nat))
    (dec : DecState) (ent pcode : Nat) (W : List Nat)
    (hshape : DShape (1 <<< (initBits - 1)) D)
    (hlen4096 : (1 <<< (initBits - 1)) + 2 + D.length ≤ 4096)
    (hdict : ∀ m, (hm : m < dec.dict.length) →
      strOfCode (1 <<< (initBits - 1)) D (D.length + 1)
        ((1 <<< (initBits - 1)) + 2 + m) = some (dec.dict.get ⟨m, hm⟩))
    (hlag : D.length = dec.dict.length + 1)
    (hplt : pcode < (1 <<< (initBits - 1)) + 2 + dec.dict.length)
    (hpns : pcode < 1 <<< (initBits - 1)
      ∨ (1 <<< (initBits - 1)) + 2 ≤ pcode)
    (hD0 : 0 < D.length)
    (hnewest : D.get ⟨D.length - 1, by omega⟩
      = (fcodeOf (W.headD 0) pcode, (1 <<< (initBits - 1)) + 1 + D.length))
    (hentlt : ent < (1 <<< (initBits - 1)) + 2 + D.length)
    (hentns : ent < 1 <<< (initBits - 1)
      ∨ (1 <<< (initBits - 1)) + 2 ≤ ent)
    (hWstr : strOfCode (1 <<< (initBits - 1)) D (D.length + 1) ent
      = some W) :
    ∃ U, U ≠ []
      ∧ codeStr (1 <<< (initBits - 1)) dec.dict pcode = some U
      ∧ ((ent < (1 <<< (initBits - 1)) + 2 + dec.dict.length
            ∧ codeStr (1 <<< (initBits - 1)) dec.dict ent = some W)
         ∨ (ent = (1 <<< (initBits - 1)) + 2 + dec.dict.length
            ∧ W = U ++ [U.headD 0]))
      ∧ strOfCode (1 <<< (initBits - 1)) D (D.length + 1) pcode
          = some U := by
  obtain ⟨U, hUne, hUcs, hUstr⟩ : ∃ U, U ≠ []
      ∧ codeStr (1 <<< (initBits - 1)) dec.dict pcode = some U
      ∧ strOfCode (1 <<< (initBits - 1)) D (D.length + 1) pcode
          = some U := by
    rcases hpns with hplit | hptab
    · exact ⟨[pcode], by simp, by rw [codeStr, if_pos hplit],
        by rw [strOfCode, if_pos hplit]⟩
    · have hidx : pcode - (1 <<< (initBits - 1)) - 2 < dec.dict.length :=
        by omega
      have hstr := hdict (pcode - (1 <<< (initBits - 1)) - 2) hidx
      have hcode : (1 <<< (initBits - 1)) + 2
          + (pcode - (1 <<< (initBits - 1)) - 2) = pcode := by omega
      rw [hcode] at hstr
      refine ⟨dec.dict.get ⟨pcode - (1 <<< (initBits - 1)) - 2, hidx⟩,
        strOfCode_ne_nil _ D _ _ _ hstr, ?_, hstr⟩
      rw [codeStr, if_neg (by omega), if_neg (by omega),
        List.getElem?_eq_getElem hidx]
      rfl
  refine ⟨U, hUne, hUcs, ?_, hUstr⟩
  by_cases hKw : ent = (1 <<< (initBits - 1)) + 2 + dec.dict.length
  · -- the emitted code is the one the decoder has not built yet
    have hin : ent - (1 <<< (initBits - 1)) - 2 = D.length - 1 := by omega
    have hD : D[ent - (1 <<< (initBits - 1)) - 2]?
        = some (fcodeOf (W.headD 0) pcode,
            (1 <<< (initBits - 1)) + 1 + D.length) := by
      rw [hin, List.getElem?_eq_getElem (by omega)]
      exact congrArg some hnewest
    have hpc4096 : pcode < 4096 := by omega
    obtain ⟨u2, hu2ne, hu2⟩ := strOfCode_total (1 <<< (initBits - 1)) D
      hshape hlen4096 (D.length - 1) (by omega) pcode
      (by rcases hpns with h | h
          · exact Or.inl h
          · exact Or.inr ⟨h, by omega⟩)
    have hu2f : strOfCode (1 <<< (initBits - 1)) D D.length pcode
        = some u2 :=
      strOfCode_mono _ D (D.length - 1 + 1) D.length pcode u2 (by omega)
        hu2
    have hW2 : strOfCode (1 <<< (initBits - 1)) D (D.length + 1) ent
        = some (u2 ++ [W.headD 0]) :=
      strOfCode_entry _ D D.length ent (W.headD 0) pcode _ u2 (by omega)
        hD hpc4096 hu2f
    have hWeq : W = u2 ++ [W.headD 0] :=
      strOfCode_pin _ D (D.length + 1) (D.length + 1) ent W
        (u2 ++ [W.headD 0]) hWstr hW2
    have hu2U : u2 = U :=
      strOfCode_pin _ D D.length (D.length + 1) pcode u2 U hu2f hUstr
    rw [hu2U] at hWeq
    have hhd : W.headD 0 = U.headD 0 := by
      rw [hWeq, headD_append_ne_nil U (W.headD 0) hUne]
    refine Or.inr ⟨hKw, ?_⟩
    rw [hWeq, hhd]
  · have hlt : ent < (1 <<< (initBits - 1)) + 2 + dec.dict.length := by
      omega
    refine Or.inl ⟨hlt, ?_⟩
    rcases hentns with hel | het
    · have hWv : W = [ent] := by
        rw [strOfCode, if_pos hel] at hWstr
        exact (Option.some.inj hWstr).symm
      rw [codeStr, if_pos hel, hWv]
    · have hidx : ent - (1 <<< (initBits - 1)) - 2 < dec.dict.length := by
        omega
      have hstr := hdict (ent - (1 <<< (initBits - 1)) - 2) hidx
      have hcode : (1 <<< (initBits - 1)) + 2
          + (ent - (1 <<< (initBits - 1)) - 2) = ent := by omega
      rw [hcode] at hstr
      have hgW : dec.dict.get ⟨ent - (1 <<< (initBits - 1)) - 2, hidx⟩
          = W :=
        strOfCode_pin _ D (D.length + 1) (D.length + 1) ent _ W hstr hWstr
      rw [codeStr, if_neg (by omega), if_neg (by omega),
        List.getElem?_eq_getElem hidx]
      exact congrArg some hgW

theorem get_append_left_eq {α : Type} (L : List α) (x : α) (m : Nat)
    (hm : m < L.length) (hm2 : m < (L ++ [x]).length) :
    (L ++ [x]).get ⟨m, hm2⟩ = L.get ⟨m, hm⟩ := by
  simp [List.getElem_append_left, hm]

theorem get_append_last_eq {α : Type} (L : List α) (x : α)
    (hm2 : L.length < (L ++ [x]).length) :
    (L ++ [x]).get ⟨L.length, hm2⟩ = x := by
  simp

theorem get_append_last_eq2 {α : Type} (L : List α) (x : α)
    (hm2 : (L ++ [x]).length - 1 < (L ++ [x]).length) :
    (L ++ [x]).get ⟨(L ++ [x]).length - 1, hm2⟩ = x := by
  simp

/-- One outer-loop iteration on a mid-epoch dictionary miss with room in
the code space: the pending code is emitted, the fcode is inserted, and
the decoder adds the matching entry one step behind, growing its code
width exactly when the encoder does. -/
theorem compressStep_sim_missB_ins (initBits : Nat) (hib1 : 3 ≤ initBits)
    (hib2 : initBits ≤ 9) (P : List Nat) (s : LZWState) (ent : Nat)
    (D : List (Int × Nat)) (dec : DecState) (E : List (Nat × Nat))
    (B : List Nat) (v : Nat) (W : List Nat) (c : Nat)
    (hc : c < 1 <<< (initBits - 1))
    (hinv : LZWInv initBits P s ent D dec E B v W)
    (hnew : ∀ cd, (fcodeOf c ent, cd) ∉ D)
    (hDne : D ≠ [])
    (hins : s.freeEnt < 4096) :
    ∃ s2 dec2 B2 v2,
      compressStep initBits c ent s = (s2, c) ∧
      LZWInv initBits (P ++ [c]) s2 c
        (D ++ [(fcodeOf c ent, s.freeEnt)]) dec2
        (E ++ [(ent, s.nBits)]) B2 v2 [c] := by
  obtain ⟨hclearFlg, hnBits, hnlo, hnhi, hmax, hfE, hfle, hfcap, hslot,
    hshape, hentlt, hentns, hWstr, hWne, hout, hdict, hcases, hE, hEw,
    hacc, hv, hcb, hframe, hbits⟩ := hinv
  obtain ⟨hQ4, hQ256, hMAX⟩ := clear_bounds initBits hib1 hib2
  have hc256 : c < 256 := by omega
  have hent4096 : ent < 4096 := by omega
  rcases hcases with ⟨-, hDnil, -, -⟩ |
    ⟨pcode, hprev, hlag, hplt, hpns, hD0, hnewest⟩
  case mk.intro.intro.inl.intro.intro.intro => exact absurd hDnil hDne
  obtain ⟨U, hUne, hUcs, hca, hUstr⟩ := caseB_dec_data initBits D dec ent
    pcode W hshape (by omega) hdict hlag hplt hpns hD0 hnewest
    (by omega) hentns hWstr
  obtain ⟨slot, k, hsl, hk, hempty, hpath, hstep⟩ :=
    compressStep_miss initBits c ent s D hslot hc256 hent4096 hnew
    (by omega)
  have hcvlt : ent < 2 ^ s.nBits := by
    by_cases h12 : s.nBits = 12
    · have h2 : (2:Nat) ^ 12 = 4096 := by norm_num
      rw [h12, h2]
      omega
    · have hmx := hmax
      rw [if_neg h12, MAXCODE_pow] at hmx
      have h1p : 1 ≤ (2:Nat) ^ s.nBits := Nat.one_le_two_pow
      omega
  have hne_eof : ((ent : Nat) : Int)
      ≠ (((1 <<< (initBits - 1)) + 1 : Nat) : Int) := by
    intro hh
    have : ent = (1 <<< (initBits - 1)) + 1 := by exact_mod_cast hh
    omega
  obtain ⟨B1, v1, o1, o2, o3, o4, o5, o6, o7, o8⟩ :=
    output_stream initBits ent s B v E hacc hv hcb hnhi hcvlt hne_eof
      hframe hbits
  have hfd : (1 <<< (initBits - 1)) + 2 + dec.dict.length < 4096 := by
    omega
  have hds := decStep_consume (1 <<< (initBits - 1)) initBits dec pcode
    ent U W hprev hUne hUcs hentns hfd hca
  have hcond_iff : (MAXCODE dec.nBits
      < (1 <<< (initBits - 1)) + 2 + dec.dict.length + 1
      ∧ dec.nBits < 12) ↔ s.maxcode < s.freeEnt := by
    rw [← hnBits]
    have harith : (1 <<< (initBits - 1)) + 2 + dec.dict.length + 1
        = s.freeEnt := by omega
    rw [harith]
    constructor
    · rintro ⟨h1, h2⟩
      rw [hmax, if_neg (by omega)]
      exact h1
    · intro h1
      by_cases h12 : s.nBits = 12
      · rw [hmax, if_pos h12] at h1
        have hp : (1 <<< 12 : Nat) = 4096 := rfl
        omega
      · rw [hmax, if_neg h12] at h1
        exact ⟨h1, by omega⟩
  obtain ⟨hw_n, hw_m, hw_c, hw_le, hw_lo, hw_hi⟩ :
      (output initBits (ent : Int) s).nBits
        = (if MAXCODE dec.nBits
            < (1 <<< (initBits - 1)) + 2 + dec.dict.length + 1
            ∧ dec.nBits < 12 then dec.nBits + 1 else dec.nBits)
      ∧ (output initBits (ent : Int) s).maxcode
        = (if (if MAXCODE dec.nBits
              < (1 <<< (initBits - 1)) + 2 + dec.dict.length + 1
              ∧ dec.nBits < 12 then dec.nBits + 1 else dec.nBits) = 12
           then 1 <<< 12
           else MAXCODE (if MAXCODE dec.nBits
              < (1 <<< (initBits - 1)) + 2 + dec.dict.length + 1
              ∧ dec.nBits < 12 then dec.nBits + 1 else dec.nBits))
      ∧ (output initBits (ent : Int) s).clearFlg = false
      ∧ s.freeEnt + 1 ≤ (output initBits (ent : Int) s).maxcode + 1
      ∧ initBits ≤ (if MAXCODE dec.nBits
            < (1 <<< (initBits - 1)) + 2 + dec.dict.length + 1
            ∧ dec.nBits < 12 then dec.nBits + 1 else dec.nBits)
      ∧ (if MAXCODE dec.nBits
            < (1 <<< (initBits - 1)) + 2 + dec.dict.length + 1
            ∧ dec.nBits < 12 then dec.nBits + 1 else dec.nBits) ≤ 12 := by
    by_cases hbump : s.maxcode < s.freeEnt
    · have hgrow := (output_width initBits (ent : Int) s).2.1 hclearFlg
        hbump
      have hcnd := hcond_iff.mpr hbump
      have hne12 : s.nBits ≠ 12 := by
        intro h12
        rw [hmax, if_pos h12] at hbump
        have hp : (1 <<< 12 : Nat) = 4096 := rfl
        omega
      refine ⟨?_, ?_, hgrow.2.2, ?_, ?_, ?_⟩
      · rw [hgrow.1, if_pos hcnd, hnBits]
      · rw [hgrow.2.1, if_pos hcnd, ← hnBits]
        have hB12 : BITS = 12 := rfl
        rw [hB12]
      · rw [hgrow.2.1]
        have hB12 : BITS = 12 := rfl
        rw [hB12]
        by_cases h12 : s.nBits + 1 = 12
        · rw [if_pos h12]
          have hp : (1 <<< 12 : Nat) = 4096 := rfl
          omega
        · rw [if_neg h12, MAXCODE_pow]
          have hmx : s.maxcode = 2 ^ s.nBits - 1 := by
            rw [hmax, if_neg hne12, MAXCODE_pow]
          have hpp : (2:Nat) ^ (s.nBits + 1) = 2 * 2 ^ s.nBits := by
            rw [pow_succ]
            ring
          have h1p : 1 ≤ (2:Nat) ^ s.nBits := Nat.one_le_two_pow
          omega
      · rw [if_pos hcnd, ← hnBits]
        omega
      · rw [if_pos hcnd, ← hnBits]
        omega
    · have hstay := (output_width initBits (ent : Int) s).2.2 hclearFlg
        hbump
      have hcnd : ¬ (MAXCODE dec.nBits
          < (1 <<< (initBits - 1)) + 2 + dec.dict.length + 1
          ∧ dec.nBits < 12) := fun h => hbump (hcond_iff.mp h)
      refine ⟨by rw [hstay.1, if_neg hcnd, hnBits],
        by rw [hstay.2.1, if_neg hcnd, ← hnBits]; exact hmax,
        hstay.2.2, by rw [hstay.2.1]; omega,
        by rw [if_neg hcnd, ← hnBits]; exact hnlo,
        by rw [if_neg hcnd, ← hnBits]; exact hnhi⟩
  have hms := missStep_insert initBits c ent slot s (by rw [o8]; exact hins)
  rw [hms] at hstep
  have hE2 := decRun_snoc (1 <<< (initBits - 1)) initBits E
    (decInit initBits) dec _ ent s.nBits hE hnBits hcvlt hds
  have hposd : ∀ m (hm : m < D.length), 0 ≤ (D.get ⟨m, hm⟩).1 := by
    intro m hm
    obtain ⟨c0, e0, hg, -, -, -⟩ := hshape m hm
    rw [hg]
    exact fcodeOf_nonneg c0 e0
  refine ⟨_, { dict := dec.dict ++ [U ++ [W.headD 0]], nBits := if MAXCODE dec.nBits < (1 <<< (initBits - 1)) + 2 + dec.dict.length + 1 ∧ dec.nBits < 12 then dec.nBits + 1 else dec.nBits, prev := some ent, out := dec.out ++ W }, B1, v1, hstep, ?_⟩
  refine ⟨?_, ?_, ?_, ?_, ?_, ?_, ?_, ?_, ?_, ?_, ?_, ?_, ?_, ?_, ?_,
    ?_, ?_, hE2, ?_, ?_, ?_, ?_, ?_, ?_⟩
  · show (output initBits (ent : Int) s).clearFlg = false
    exact hw_c
  · show (output initBits (ent : Int) s).nBits = _
    exact hw_n
  · show initBits ≤ (output initBits (ent : Int) s).nBits
    rw [hw_n]
    exact hw_lo
  · show (output initBits (ent : Int) s).nBits ≤ 12
    rw [hw_n]
    exact hw_hi
  · show (output initBits (ent : Int) s).maxcode = _
    rw [hw_m, hw_n]
  · show (output initBits (ent : Int) s).freeEnt + 1 = _
    rw [o8, List.length_append, List.length_singleton]
    omega
  · show (output initBits (ent : Int) s).freeEnt + 1
      ≤ (output initBits (ent : Int) s).maxcode + 1
    rw [o8]
    omega
  · show (output initBits (ent : Int) s).freeEnt + 1 ≤ 4096
    rw [o8]
    omega
  · show SlotInv
      (fun t => if t = slot then fcodeOf c ent
        else (output initBits (ent : Int) s).htab t)
      (fun t => if t = slot then (output initBits (ent : Int) s).freeEnt
        else (output initBits (ent : Int) s).codetab t) _
    rw [o6, o7, o8]
    exact slotInv_insert s.htab s.codetab D (fcodeOf c ent) s.freeEnt
      slot k hslot hnew hsl hk hempty hpath hposd
  · intro m hm
    rw [List.length_append, List.length_singleton] at hm
    by_cases hmD : m < D.length
    · obtain ⟨c0, e0, hg, h1, h2, h3⟩ := hshape m hmD
      exact ⟨c0, e0, by rw [get_append_left_eq D _ m hmD, hg], h1, h2, h3⟩
    · have hmE : m = D.length := by omega
      subst hmE
      refine ⟨c, ent, ?_, hc, by omega, hentns⟩
      rw [get_append_last_eq]
      have : s.freeEnt = (1 <<< (initBits - 1)) + 2 + D.length := hfE
      rw [this]
  · show c < (output initBits (ent : Int) s).freeEnt + 1
    rw [o8]
    omega
  · exact Or.inl hc
  · rw [strOfCode, if_pos hc]
  · simp
  · show dec.out ++ W ++ [c] = P ++ [c]
    rw [← hout]
  · -- decoder table entries all match encoder strings over the grown D
    intro m hm
    simp only [List.length_append, List.length_singleton] at hm
    rw [List.length_append, List.length_singleton]
    by_cases hmD : m < dec.dict.length
    · have hold := hdict m hmD
      have htr := strOfCode_append (1 <<< (initBits - 1)) D
        (fcodeOf c ent, s.freeEnt) (D.length + 1) _ _ hold
      have hmn := strOfCode_mono (1 <<< (initBits - 1))
        (D ++ [(fcodeOf c ent, s.freeEnt)]) (D.length + 1)
        (D.length + 1 + 1) _ _ (by omega) htr
      rw [show (dec.dict ++ [U ++ [W.headD 0]]).get ⟨m, by simp; omega⟩
          = dec.dict.get ⟨m, hmD⟩ from
        get_append_left_eq dec.dict _ m hmD _]
      exact hmn
    · have hmE : m = dec.dict.length := by omega
      subst hmE
      rw [show (dec.dict ++ [U ++ [W.headD 0]]).get
            ⟨dec.dict.length, by simp⟩ = U ++ [W.headD 0] from
        get_append_last_eq dec.dict _ _]
      -- the code of the decoder's new entry is the encoder's previous
      -- newest entry
      have hidx : (1 <<< (initBits - 1)) + 2 + dec.dict.length
          - (1 <<< (initBits - 1)) - 2 = D.length - 1 := by omega
      have hDm : (D ++ [(fcodeOf c ent, s.freeEnt)])[
          (1 <<< (initBits - 1)) + 2 + dec.dict.length
            - (1 <<< (initBits - 1)) - 2]?
          = some (fcodeOf (W.headD 0) pcode,
              (1 <<< (initBits - 1)) + 1 + D.length) := by
        rw [hidx, List.getElem?_append_left (by omega),
          List.getElem?_eq_getElem (by omega)]
        exact congrArg some hnewest
      have hpc4096 : pcode < 4096 := by omega
      have hUtr := strOfCode_append (1 <<< (initBits - 1)) D
        (fcodeOf c ent, s.freeEnt) (D.length + 1) _ _ hUstr
      have hent2 := strOfCode_entry (1 <<< (initBits - 1))
        (D ++ [(fcodeOf c ent, s.freeEnt)]) (D.length + 1)
        ((1 <<< (initBits - 1)) + 2 + dec.dict.length) (W.headD 0) pcode
        ((1 <<< (initBits - 1)) + 1 + D.length) U (by omega) hDm hpc4096
        hUtr
      exact hent2
  · refine Or.inr ⟨ent, rfl, by simp; omega, ?_, hentns, by simp, ?_⟩
    · simp only [List.length_append, List.length_singleton]
      omega
    · rw [get_append_last_eq2]
      show (fcodeOf c ent, s.freeEnt)
        = (fcodeOf (([c] : List Nat).headD 0) ent, _)
      have hval : (1 <<< (initBits - 1)) + 1
          + (D ++ [(fcodeOf c ent, s.freeEnt)]).length = s.freeEnt := by
        simp only [List.length_append, List.length_singleton]
        omega
      rw [hval]
      rfl
  · intro cw hcw
    rcases List.mem_append.mp hcw with h | h
    · exact hEw cw h
    · simp at h
      rw [h]
      omega
  · show (output initBits (ent : Int) s).curAccum = _
    exact o1
  · show v1 < 2 ^ (output initBits (ent : Int) s).curBits
    exact o2
  · show (output initBits (ent : Int) s).curBits < 8
    exact o3
  · obtain ⟨done, f1, f2, f3⟩ := o4
    exact ⟨done, f1, f2, f3⟩
  · show bitsOfBytes B1
      ++ natToBits (output initBits (ent : Int) s).curBits v1 = _
    rw [o5, codeBits_append]
    simp [codeBits]

/-- One outer-loop iteration on a dictionary miss with the code space
exhausted: the pending code and then a clear code are emitted at width 12,
the hash table is wiped and the width reset, and the decoder - after
consuming the pending code - resets on the clear code, re-establishing the
start-of-epoch invariant. -/
theorem compressStep_sim_missB_cl (initBits : Nat) (hib1 : 3 ≤ initBits)
    (hib2 : initBits ≤ 9) (P : List Nat) (s : LZWState) (ent : Nat)
    (D : List (Int × Nat)) (dec : DecState) (E : List (Nat × Nat))
    (B : List Nat) (v : Nat) (W : List Nat) (c : Nat)
    (hc : c < 1 <<< (initBits - 1))
    (hinv : LZWInv initBits P s ent D dec E B v W)
    (hnew : ∀ cd, (fcodeOf c ent, cd) ∉ D)
    (hge : ¬ s.freeEnt < 4096) :
    ∃ s2 dec2 B2 v2,
      compressStep initBits c ent s = (s2, c) ∧
      LZWInv initBits (P ++ [c]) s2 c [] dec2
        (E ++ [(ent, s.nBits), (1 <<< (initBits - 1), s.nBits)])
        B2 v2 [c] := by
  obtain ⟨hclearFlg, hnBits, hnlo, hnhi, hmax, hfE, hfle, hfcap, hslot,
    hshape, hentlt, hentns, hWstr, hWne, hout, hdict, hcases, hE, hEw,
    hacc, hv, hcb, hframe, hbits⟩ := hinv
  obtain ⟨hQ4, hQ256, hMAX⟩ := clear_bounds initBits hib1 hib2
  have hc256 : c < 256 := by omega
  have hent4096 : ent < 4096 := by omega
  have hfeq : s.freeEnt = 4096 := by omega
  have h12 : s.nBits = 12 := by
    by_cases h : s.nBits = 12
    · exact h
    · exfalso
      rw [hmax, if_neg h, MAXCODE_pow] at hfle
      have hple : (2:Nat) ^ s.nBits ≤ 2 ^ 11 :=
        Nat.pow_le_pow_right (by norm_num) (by omega)
      have h11 : (2:Nat) ^ 11 = 2048 := by norm_num
      omega
  have hmaxv : s.maxcode = 4096 := by
    rw [hmax, if_pos h12]
    rfl
  have hdnb12 : dec.nBits = 12 := by
    rw [← hnBits]
    exact h12
  rcases hcases with ⟨-, hDnil, -, -⟩ |
    ⟨pcode, hprev, hlag, hplt, hpns, hD0, hnewest⟩
  case mk.intro.intro.inl.intro.intro.intro =>
    rw [hDnil] at hfE
    simp at hfE
    omega
  obtain ⟨U, hUne, hUcs, hca, hUstr⟩ := caseB_dec_data initBits D dec ent
    pcode W hshape (by omega) hdict hlag hplt hpns hD0 hnewest
    (by omega) hentns hWstr
  obtain ⟨slot, k, hsl, hk, hempty, hpath, hstep⟩ :=
    compressStep_miss initBits c ent s D hslot hc256 hent4096 hnew
    (by omega)
  have hcvlt : ent < 2 ^ s.nBits := by
    rw [h12]
    have h2 : (2:Nat) ^ 12 = 4096 := by norm_num
    omega
  have hne_eof : ((ent : Nat) : Int)
      ≠ (((1 <<< (initBits - 1)) + 1 : Nat) : Int) := by
    intro hh
    have : ent = (1 <<< (initBits - 1)) + 1 := by exact_mod_cast hh
    omega
  obtain ⟨B1, v1, o1, o2, o3, o4, o5, o6, o7, o8⟩ :=
    output_stream initBits ent s B v E hacc hv hcb hnhi hcvlt hne_eof
      hframe hbits
  have hstay := (output_width initBits (ent : Int) s).2.2 hclearFlg
    (by omega)
  have hclb := missStep_clblock initBits c ent slot s
    (by rw [o8]; exact hge)
  rw [hclb] at hstep
  -- the decoder consumes the pending code, still adding an entry
  have hfd : (1 <<< (initBits - 1)) + 2 + dec.dict.length < 4096 := by
    omega
  have hds := decStep_consume (1 <<< (initBits - 1)) initBits dec pcode
    ent U W hprev hUne hUcs hentns hfd hca
  have hcnd : ¬ (MAXCODE dec.nBits
      < (1 <<< (initBits - 1)) + 2 + dec.dict.length + 1
      ∧ dec.nBits < 12) := by
    intro h
    omega
  have hE2 := decRun_snoc (1 <<< (initBits - 1)) initBits E
    (decInit initBits) dec _ ent s.nBits hE hnBits hcvlt hds
  -- then it resets on the clear code, read at the unchanged width 12
  have hw2 : s.nBits
      = (if MAXCODE dec.nBits
          < (1 <<< (initBits - 1)) + 2 + dec.dict.length + 1
          ∧ dec.nBits < 12 then dec.nBits + 1 else dec.nBits) := by
    rw [if_neg hcnd]
    exact hnBits
  have hclearlt : (1 <<< (initBits - 1)) < 2 ^ s.nBits := by
    rw [h12]
    have h2 : (2:Nat) ^ 12 = 4096 := by norm_num
    omega
  have hds2 := decStep_clear (1 <<< (initBits - 1)) initBits
    { dict := dec.dict ++ [U ++ [W.headD 0]],
      nBits := if MAXCODE dec.nBits
          < (1 <<< (initBits - 1)) + 2 + dec.dict.length + 1
          ∧ dec.nBits < 12 then dec.nBits + 1 else dec.nBits,
      prev := some ent, out := dec.out ++ W }
  have hE3 := decRun_snoc (1 <<< (initBits - 1)) initBits
    (E ++ [(ent, s.nBits)]) (decInit initBits) _ _
    (1 <<< (initBits - 1)) s.nBits hE2 hw2 hclearlt hds2
  have hEassoc : E ++ [(ent, s.nBits), (1 <<< (initBits - 1), s.nBits)]
      = (E ++ [(ent, s.nBits)]) ++ [(1 <<< (initBits - 1), s.nBits)] := by
    simp
  -- the clear block: emit the clear code through the wiped state
  set s1 : LZWState :=
    { output initBits (ent : Int) s with
        htab := (fun _ => -1),
        freeEnt := (1 <<< (initBits - 1)) + 2, clearFlg := true }
    with hs1
  have hclr := (output_width initBits
    ((1 <<< (initBits - 1) : Nat) : Int) s1).1 (by rw [hs1])
  have hs1n : s1.nBits = s.nBits := by
    rw [hs1]
    exact hstay.1
  have hacc1 : s1.curAccum = (v1 : Int) := o1
  have hv1 : v1 < 2 ^ s1.curBits := o2
  have hcb1 : s1.curBits < 8 := o3
  have hnb1 : s1.nBits ≤ 12 := by
    rw [hs1n]
    omega
  have hcv1 : (1 <<< (initBits - 1)) < 2 ^ s1.nBits := by
    rw [hs1n]
    exact hclearlt
  have hne1 : (((1 <<< (initBits - 1)) : Nat) : Int)
      ≠ (((1 <<< (initBits - 1)) + 1 : Nat) : Int) := by
    intro hh
    have : (1 <<< (initBits - 1) : Nat) = (1 <<< (initBits - 1)) + 1 := by
      exact_mod_cast hh
    omega
  have hframe1 : FrameInv s1 B1 := by
    obtain ⟨done, f1, f2, f3⟩ := o4
    exact ⟨done, f1, f2, f3⟩
  have hbits1 : bitsOfBytes B1 ++ natToBits s1.curBits v1
      = codeBits (E ++ [(ent, s.nBits)]) := by
    show bitsOfBytes B1
      ++ natToBits (output initBits (ent : Int) s).curBits v1 = _
    rw [o5, codeBits_append]
    simp [codeBits]
  obtain ⟨B2, v2, q1, q2, q3, q4, q5, q6, q7, q8⟩ :=
    output_stream initBits (1 <<< (initBits - 1)) s1 B1 v1
      (E ++ [(ent, s.nBits)]) hacc1 hv1 hcb1 hnb1 hcv1 hne1 hframe1 hbits1
  refine ⟨_, { dict := [], nBits := initBits, prev := none, out := dec.out ++ W }, B2, v2, hstep, ?_⟩
  refine ⟨?_, ?_, ?_, ?_, ?_, ?_, ?_, ?_, ?_, ?_, ?_, ?_, ?_, ?_, ?_,
    ?_, ?_, ?_, ?_, ?_, ?_, ?_, ?_, ?_⟩
  · exact hclr.2.2
  · exact hclr.1
  · exact le_of_eq hclr.1.symm
  · show (output initBits ((1 <<< (initBits - 1) : Nat) : Int) s1).nBits
      ≤ 12
    rw [hclr.1]
    omega
  · show (output initBits ((1 <<< (initBits - 1) : Nat) : Int) s1).maxcode
      = (if (output initBits
            ((1 <<< (initBits - 1) : Nat) : Int) s1).nBits = 12
         then 1 <<< 12
         else MAXCODE (output initBits
            ((1 <<< (initBits - 1) : Nat) : Int) s1).nBits)
    rw [hclr.1, hclr.2.1, if_neg (by omega)]
  · exact q8
  · show (output initBits ((1 <<< (initBits - 1) : Nat) : Int) s1).freeEnt
      ≤ (output initBits
          ((1 <<< (initBits - 1) : Nat) : Int) s1).maxcode + 1
    rw [q8, hclr.2.1, hMAX]
    show (1 <<< (initBits - 1)) + 2 ≤ 2 * (1 <<< (initBits - 1)) - 1 + 1
    omega
  · show (output initBits ((1 <<< (initBits - 1) : Nat) : Int) s1).freeEnt
      ≤ 4096
    rw [q8]
    show (1 <<< (initBits - 1)) + 2 ≤ 4096
    omega
  · show SlotInv
      (output initBits ((1 <<< (initBits - 1) : Nat) : Int) s1).htab
      (output initBits ((1 <<< (initBits - 1) : Nat) : Int) s1).codetab
      ([] : List (Int × Nat))
    rw [q6, q7]
    exact slotInv_clear _
  · intro m hm
    simp at hm
  · show c < (output initBits
      ((1 <<< (initBits - 1) : Nat) : Int) s1).freeEnt
    rw [q8]
    show c < (1 <<< (initBits - 1)) + 2
    omega
  · exact Or.inl hc
  · rw [strOfCode, if_pos hc]
  · simp
  · show dec.out ++ W ++ [c] = P ++ [c]
    rw [← hout]
  · intro m hm
    simp at hm
  · exact Or.inl ⟨rfl, rfl, rfl, hclr.1⟩
  · rw [hEassoc]
    exact hE3
  · intro cw hcw
    rcases List.mem_append.mp hcw with h | h
    · exact hEw cw h
    · simp at h
      rcases h with h | h <;> rw [h] <;> omega
  · exact q1
  · exact q2
  · exact q3
  · obtain ⟨done, f1, f2, f3⟩ := q4
    exact ⟨done, f1, f2, f3⟩
  · show bitsOfBytes B2 ++ natToBits
        (output initBits
          ((1 <<< (initBits - 1) : Nat) : Int) s1).curBits v2
      = codeBits (E ++ [(ent, s.nBits), (1 <<< (initBits - 1), s.nBits)])
    rw [q5, hs1n, hEassoc, codeBits_append]
    simp [codeBits]

theorem decodeLoop_of_decRun (clearCode initBits : Nat) :
    ∀ (E : List (Nat × Nat)) (dec dec2 : DecState) (suffix : List Bool)
    (fuel : Nat),
    decRun clearCode initBits E dec = some dec2 →
    (∀ cw ∈ E, 0 < cw.2) →
    (codeBits E).length + suffix.length < fuel →
    decodeLoop clearCode initBits fuel (codeBits E ++ suffix) dec
      = decodeLoop clearCode initBits (fuel - E.length) suffix dec2 := by
  intro E
  induction E with
  | nil =>
    intro dec dec2 suffix fuel hE _ _
    rw [decRun] at hE
    cases hE
    rfl
  | cons cw E ih =>
    intro dec dec2 suffix fuel hE hw hfuel
    obtain ⟨c, w⟩ := cw
    simp only [decRun] at hE
    by_cases hcond : w = dec.nBits ∧ c < 2 ^ w
    · rw [if_pos hcond] at hE
      cases hds : decStep clearCode initBits dec c with
      | none => rw [hds] at hE; exact absurd hE (by simp)
      | some r =>
        rw [hds] at hE
        cases r with
        | inr out => exact absurd hE (by simp)
        | inl st1 =>
          have hwpos : 0 < w := hw (c, w) (by simp)
          have hcbits : codeBits ((c, w) :: E)
              = natToBits w c ++ codeBits E := by
            simp [codeBits]
          obtain ⟨f, rfl⟩ : ∃ f, fuel = f + 1 := ⟨fuel - 1, by omega⟩
          rw [hcbits, List.append_assoc, decodeLoop]
          have hTL : ∀ (L R : List Bool), L.length = w →
              (L ++ R).take w = L := by
            intro L R h
            rw [← h]
            exact List.take_left L R
          have hDL : ∀ (L R : List Bool), L.length = w →
              (L ++ R).drop w = R := by
            intro L R h
            rw [← h]
            exact List.drop_left L R
          have htake : (natToBits w c ++ (codeBits E ++ suffix)).take w
              = natToBits w c :=
            hTL _ _ (natToBits_length w c)
          have hdrop : (natToBits w c ++ (codeBits E ++ suffix)).drop w
              = codeBits E ++ suffix :=
            hDL _ _ (natToBits_length w c)
          have hread : readCode (natToBits w c ++ (codeBits E ++ suffix))
              dec.nBits = some (c, codeBits E ++ suffix) := by
            rw [readCode, ← hcond.1,
              if_neg (by rw [List.length_append, natToBits_length]; omega),
              htake, hdrop, bitsVal_natToBits, Nat.mod_eq_of_lt hcond.2]
          rw [hread]
          show (match decStep clearCode initBits dec c with
            | none => none
            | some (Sum.inr out) => some out
            | some (Sum.inl st2) => decodeLoop clearCode initBits f
                (codeBits E ++ suffix) st2) = _
          rw [hds]
          show decodeLoop clearCode initBits f (codeBits E ++ suffix) st1
            = _
          have hlen2 : (codeBits E).length + suffix.length < f := by
            rw [hcbits, List.length_append, natToBits_length] at hfuel
            omega
          rw [ih st1 dec2 suffix f hE (fun x hx => hw x (by simp [hx]))
            hlen2]
          have harith : f + 1 - ((c, w) :: E).length = f - E.length := by
            rw [List.length_cons]
            omega
          rw [harith]
    · rw [if_neg hcond] at hE
      exact absurd hE (by simp)

theorem codeBits_length_ge (E : List (Nat × Nat))
    (hw : ∀ cw ∈ E, 0 < cw.2) : E.length ≤ (codeBits E).length := by
  induction E with
  | nil => simp [codeBits]
  | cons cw E ih =>
    have h1 : 0 < cw.2 := hw cw (by simp)
    have h2 := ih (fun x hx => hw x (by simp [hx]))
    have hsh : codeBits (cw :: E) = natToBits cw.2 cw.1 ++ codeBits E := by
      simp [codeBits]
    rw [hsh]
    simp only [List.length_append, natToBits_length, List.length_cons]
    omega

/-- One outer-loop iteration preserves the coupling invariant, for some
choice of the ghost components. -/
theorem compressStep_sim (initBits : Nat) (hib1 : 3 ≤ initBits)
    (hib2 : initBits ≤ 9) (P : List Nat) (s : LZWState) (ent : Nat)
    (D : List (Int × Nat)) (dec : DecState) (E : List (Nat × Nat))
    (B : List Nat) (v : Nat) (W : List Nat) (c : Nat)
    (hc : c < 1 <<< (initBits - 1))
    (hinv : LZWInv initBits P s ent D dec E B v W) :
    ∃ s2 cd D2 dec2 E2 B2 v2 W2,
      compressStep initBits c ent s = (s2, cd) ∧
      LZWInv initBits (P ++ [c]) s2 cd D2 dec2 E2 B2 v2 W2 := by
  by_cases hhit : ∃ cd, (fcodeOf c ent, cd) ∈ D
  · obtain ⟨cd, hmem⟩ := hhit
    obtain ⟨h1, h2⟩ := compressStep_sim_hit initBits hib1 hib2 P s ent D
      dec E B v W c cd hc hinv hmem
    exact ⟨s, cd, D, dec, E, B, v, W ++ [c], h1, h2⟩
  · push_neg at hhit
    by_cases hD : D = []
    · subst hD
      obtain ⟨s2, dec2, B2, v2, h1, h2⟩ := compressStep_sim_missA initBits
        hib1 hib2 P s ent dec E B v W c hc hinv
      exact ⟨s2, c, _, dec2, _, B2, v2, [c], h1, h2⟩
    · by_cases hroom : s.freeEnt < 4096
      · obtain ⟨s2, dec2, B2, v2, h1, h2⟩ := compressStep_sim_missB_ins
          initBits hib1 hib2 P s ent D dec E B v W c hc hinv hhit hD hroom
        exact ⟨s2, c, _, dec2, _, B2, v2, [c], h1, h2⟩
      · obtain ⟨s2, dec2, B2, v2, h1, h2⟩ := compressStep_sim_missB_cl
          initBits hib1 hib2 P s ent D dec E B v W c hc hinv hhit hroom
        exact ⟨s2, c, _, dec2, _, B2, v2, [c], h1, h2⟩

/-- The outer loop over any remaining in-range pixels preserves the
coupling invariant. -/
theorem compressLoop_sim (initBits : Nat) (hib1 : 3 ≤ initBits)
    (hib2 : initBits ≤ 9) (rest : List Nat) :
    ∀ (P : List Nat) (s : LZWState) (ent : Nat) (D : List (Int × Nat))
    (dec : DecState) (E : List (Nat × Nat)) (B : List Nat) (v : Nat)
    (W : List Nat),
    LZWInv initBits P s ent D dec E B v W →
    (∀ x ∈ rest, x < 1 <<< (initBits - 1)) →
    ∃ s2 cd D2 dec2 E2 B2 v2 W2,
      compressLoop initBits rest s ent = (s2, cd) ∧
      LZWInv initBits (P ++ rest) s2 cd D2 dec2 E2 B2 v2 W2 := by
  induction rest with
  | nil =>
    intro P s ent D dec E B v W hinv _
    exact ⟨s, ent, D, dec, E, B, v, W, rfl, by simpa using hinv⟩
  | cons c rest ih =>
    intro P s ent D dec E B v W hinv hall
    have hc : c < 1 <<< (initBits - 1) := hall c (by simp)
    obtain ⟨hQ4, hQ256, hMAX⟩ := clear_bounds initBits hib1 hib2
    have hand : c &&& 0xff = c := by
      have h := Nat.and_pow_two_sub_one_eq_mod c 8
      norm_num at h
      rw [h]
      exact Nat.mod_eq_of_lt (by omega)
    obtain ⟨s2, cd, D2, dec2, E2, B2, v2, W2, h1, h2⟩ :=
      compressStep_sim initBits hib1 hib2 P s ent D dec E B v W c hc hinv
    have hstep : compressLoop initBits (c :: rest) s ent
        = compressLoop initBits rest s2 cd := by
      show compressLoop initBits rest
        (compressStep initBits (c &&& 0xff) ent s).1
        (compressStep initBits (c &&& 0xff) ent s).2 = _
      rw [hand, h1]
    obtain ⟨s3, cd3, D3, dec3, E3, B3, v3, W3, h3, h4⟩ :=
      ih (P ++ [c]) s2 cd D2 dec2 E2 B2 v2 W2 h2
        (fun x hx => hall x (by simp [hx]))
    refine ⟨s3, cd3, D3, dec3, E3, B3, v3, W3, ?_, ?_⟩
    · rw [hstep]
      exact h3
    · have hre : P ++ c :: rest = (P ++ [c]) ++ rest := by simp
      rw [hre]
      exact h4

/-- After `compress` emits the initial clear code and latches the first
pixel, the coupling invariant holds: the decoder (which will consume that
clear code first) is in its initial state and the pixel is the pending
one-symbol string. -/
theorem compress_init_inv (initBits : Nat) (hib1 : 3 ≤ initBits)
    (hib2 : initBits ≤ 9) (p : Nat) (hp : p < 1 <<< (initBits - 1)) :
    ∃ B1 v1,
      LZWInv initBits [p]
        (output initBits ((1 <<< (initBits - 1) : Nat) : Int)
          (initLZWState initBits))
        p [] (decInit initBits) [((1 <<< (initBits - 1)), initBits)]
        B1 v1 [p] := by
  obtain ⟨hQ4, hQ256, hMAX⟩ := clear_bounds initBits hib1 hib2
  have hclear2 : (1 <<< (initBits - 1)) < 2 ^ initBits := by
    have h3 : (2:Nat) ^ initBits = 2 * (1 <<< (initBits - 1)) := by
      rw [Nat.shiftLeft_eq, one_mul]
      obtain ⟨n, rfl⟩ : ∃ n, initBits = n + 1 := ⟨initBits - 1, by omega⟩
      rw [Nat.add_sub_cancel, pow_succ]
      ring
    omega
  have hne : (((1 <<< (initBits - 1)) : Nat) : Int)
      ≠ (((1 <<< (initBits - 1)) + 1 : Nat) : Int) := by
    intro hh
    have : (1 <<< (initBits - 1) : Nat) = (1 <<< (initBits - 1)) + 1 := by
      exact_mod_cast hh
    omega
  have hframe0 : FrameInv (initLZWState initBits) [] :=
    ⟨[], rfl, Nat.zero_le 253, deblockInv_nil⟩
  obtain ⟨B1, v1, o1, o2, o3, o4, o5, o6, o7, o8⟩ :=
    output_stream initBits (1 <<< (initBits - 1))
      (initLZWState initBits) [] 0 []
      rfl (by show (0:Nat) < 2 ^ 0; norm_num)
      (by show (0:Nat) < 8; norm_num) (by show initBits ≤ 12; omega)
      hclear2 hne hframe0 rfl
  have hstay := (output_width initBits
    ((1 <<< (initBits - 1) : Nat) : Int) (initLZWState initBits)).2.2 rfl
    (by show ¬ MAXCODE initBits < (1 <<< (initBits - 1)) + 2; omega)
  have hE : decRun (1 <<< (initBits - 1)) initBits
      [((1 <<< (initBits - 1)), initBits)] (decInit initBits)
      = some (decInit initBits) := by
    simp only [decRun]
    rw [if_pos ⟨rfl, hclear2⟩,
      decStep_clear (1 <<< (initBits - 1)) initBits (decInit initBits)]
    rfl
  refine ⟨B1, v1, ?_, ?_, ?_, ?_, ?_, ?_, ?_, ?_, ?_, ?_, ?_, ?_, ?_, ?_,
    ?_, ?_, ?_, hE, ?_, ?_, ?_, ?_, ?_, ?_⟩
  · exact hstay.2.2
  · exact hstay.1
  · exact le_of_eq hstay.1.symm
  · show (output initBits ((1 <<< (initBits - 1) : Nat) : Int)
      (initLZWState initBits)).nBits ≤ 12
    rw [hstay.1]
    show initBits ≤ 12
    omega
  · show (output initBits ((1 <<< (initBits - 1) : Nat) : Int)
        (initLZWState initBits)).maxcode
      = (if (output initBits ((1 <<< (initBits - 1) : Nat) : Int)
            (initLZWState initBits)).nBits = 12
         then 1 <<< 12
         else MAXCODE (output initBits ((1 <<< (initBits - 1) : Nat) : Int)
            (initLZWState initBits)).nBits)
    rw [hstay.1, hstay.2.1]
    show MAXCODE initBits
      = if initBits = 12 then 1 <<< 12 else MAXCODE initBits
    rw [if_neg (by omega)]
  · exact o8
  · show (output initBits ((1 <<< (initBits - 1) : Nat) : Int)
        (initLZWState initBits)).freeEnt
      ≤ (output initBits ((1 <<< (initBits - 1) : Nat) : Int)
        (initLZWState initBits)).maxcode + 1
    rw [o8, hstay.2.1]
    show (1 <<< (initBits - 1)) + 2 ≤ MAXCODE initBits + 1
    omega
  · show (output initBits ((1 <<< (initBits - 1) : Nat) : Int)
      (initLZWState initBits)).freeEnt ≤ 4096
    rw [o8]
    show (1 <<< (initBits - 1)) + 2 ≤ 4096
    omega
  · show SlotInv
      (output initBits ((1 <<< (initBits - 1) : Nat) : Int)
        (initLZWState initBits)).htab
      (output initBits ((1 <<< (initBits - 1) : Nat) : Int)
        (initLZWState initBits)).codetab
      ([] : List (Int × Nat))
    rw [o6, o7]
    exact slotInv_clear _
  · intro m hm
    simp at hm
  · show p < (output initBits ((1 <<< (initBits - 1) : Nat) : Int)
      (initLZWState initBits)).freeEnt
    rw [o8]
    show p < (1 <<< (initBits - 1)) + 2
    omega
  · exact Or.inl hp
  · rw [strOfCode, if_pos hp]
  · simp
  · rfl
  · intro m hm
    simp [decInit] at hm
  · exact Or.inl ⟨rfl, rfl, rfl, hstay.1⟩
  · intro cw hcw
    simp at hcw
    rw [hcw]
    show 0 < initBits
    omega
  · exact o1
  · exact o2
  · exact o3
  · exact o4
  · rw [o5]
    show codeBits [] ++ natToBits initBits (1 <<< (initBits - 1)) = _
    simp [codeBits]

/-- The two final emissions of `compress`: the pending code is written and
consumed by the decoder (recovering exactly the pixels seen so far), then
the end-of-information code is written at the same width the decoder has
reached, and the byte stream is flushed into complete sub-blocks. -/
theorem compress_final (initBits : Nat) (hib1 : 3 ≤ initBits)
    (hib2 : initBits ≤ 9) (P : List Nat) (s : LZWState) (ent : Nat)
    (D : List (Int × Nat)) (dec : DecState) (E : List (Nat × Nat))
    (B : List Nat) (v : Nat) (W : List Nat)
    (hinv : LZWInv initBits P s ent D dec E B v W) :
    ∃ dec2 Bf pad,
      decRun (1 <<< (initBits - 1)) initBits (E ++ [(ent, s.nBits)])
        (decInit initBits) = some dec2
      ∧ dec2.out = P
      ∧ (∀ cw ∈ E ++ [(ent, s.nBits)], 0 < cw.2)
      ∧ (output initBits (((1 <<< (initBits - 1)) + 1 : Nat) : Int)
          (output initBits (ent : Int) s)).accum = []
      ∧ DeblockInv (output initBits
          (((1 <<< (initBits - 1)) + 1 : Nat) : Int)
          (output initBits (ent : Int) s)).out Bf
      ∧ bitsOfBytes Bf
          = codeBits (E ++ [(ent, s.nBits)])
            ++ natToBits (output initBits (ent : Int) s).nBits
                ((1 <<< (initBits - 1)) + 1)
            ++ pad
      ∧ dec2.nBits = (output initBits (ent : Int) s).nBits
      ∧ (1 <<< (initBits - 1)) + 1
          < 2 ^ (output initBits (ent : Int) s).nBits := by
  obtain ⟨hclearFlg, hnBits, hnlo, hnhi, hmax, hfE, hfle, hfcap, hslot,
    hshape, hentlt, hentns, hWstr, hWne, hout, hdict, hcases, hE, hEw,
    hacc, hv, hcb, hframe, hbits⟩ := hinv
  obtain ⟨hQ4, hQ256, hMAX⟩ := clear_bounds initBits hib1 hib2
  have hent4096 : ent < 4096 := by omega
  have hcvlt : ent < 2 ^ s.nBits := by
    by_cases h12 : s.nBits = 12
    · have h2 : (2:Nat) ^ 12 = 4096 := by norm_num
      rw [h12, h2]
      omega
    · have hmx := hmax
      rw [if_neg h12, MAXCODE_pow] at hmx
      have h1p : 1 ≤ (2:Nat) ^ s.nBits := Nat.one_le_two_pow
      omega
  have hne_eof : ((ent : Nat) : Int)
      ≠ (((1 <<< (initBits - 1)) + 1 : Nat) : Int) := by
    intro hh
    have : ent = (1 <<< (initBits - 1)) + 1 := by exact_mod_cast hh
    omega
  obtain ⟨B1, v1, o1, o2, o3, o4, o5, o6, o7, o8⟩ :=
    output_stream initBits ent s B v E hacc hv hcb hnhi hcvlt hne_eof
      hframe hbits
  obtain ⟨dec2, hE2, hout2, hnb2⟩ : ∃ dec2,
      decRun (1 <<< (initBits - 1)) initBits (E ++ [(ent, s.nBits)])
        (decInit initBits) = some dec2
      ∧ dec2.out = P
      ∧ dec2.nBits = (output initBits (ent : Int) s).nBits := by
    rcases hcases with ⟨hprev, hDnil, hdictnil, hnbinit⟩ |
      ⟨pcode, hprev, hlag, hplt, hpns, hD0, hnewest⟩
    · -- stream start or right after a clear: the pending code is a literal
      subst hDnil
      simp only [List.length_nil] at hfE
      have hentQ : ent < 1 <<< (initBits - 1) := by
        rcases hentns with h | h
        · exact h
        · omega
      have hWval : W = [ent] := by
        rw [strOfCode, if_pos hentQ] at hWstr
        exact (Option.some.inj hWstr).symm
      have hds := decStep_literal_first (1 <<< (initBits - 1)) initBits dec
        ent hprev hentQ
      have hE2 := decRun_snoc (1 <<< (initBits - 1)) initBits E
        (decInit initBits) dec _ ent s.nBits hE hnBits hcvlt hds
      refine ⟨_, hE2, ?_, ?_⟩
      · show dec.out ++ [ent] = P
        rw [← hWval]
        exact hout
      · have hmaxv : s.maxcode = 2 * (1 <<< (initBits - 1)) - 1 := by
          rw [hmax, if_neg (by omega), MAXCODE_pow, hnbinit, ← MAXCODE_pow,
            hMAX]
        have hstay := (output_width initBits (ent : Int) s).2.2 hclearFlg
          (by omega)
        show dec.nBits = (output initBits (ent : Int) s).nBits
        rw [hstay.1, hnBits]
    · -- mid-epoch: the decoder resolves the pending code and adds an entry
      obtain ⟨U, hUne, hUcs, hca, hUstr⟩ := caseB_dec_data initBits D dec
        ent pcode W hshape (by omega) hdict hlag hplt hpns hD0 hnewest
        (by omega) hentns hWstr
      have hfd : (1 <<< (initBits - 1)) + 2 + dec.dict.length < 4096 := by
        omega
      have hds := decStep_consume (1 <<< (initBits - 1)) initBits dec pcode
        ent U W hprev hUne hUcs hentns hfd hca
      have hE2 := decRun_snoc (1 <<< (initBits - 1)) initBits E
        (decInit initBits) dec _ ent s.nBits hE hnBits hcvlt hds
      have hcond_iff : (MAXCODE dec.nBits
          < (1 <<< (initBits - 1)) + 2 + dec.dict.length + 1
          ∧ dec.nBits < 12) ↔ s.maxcode < s.freeEnt := by
        rw [← hnBits]
        have harith : (1 <<< (initBits - 1)) + 2 + dec.dict.length + 1
            = s.freeEnt := by omega
        rw [harith]
        constructor
        · rintro ⟨h1, h2⟩
          rw [hmax, if_neg (by omega)]
          exact h1
        · intro h1
          by_cases h12 : s.nBits = 12
          · rw [hmax, if_pos h12] at h1
            have hp : (1 <<< 12 : Nat) = 4096 := rfl
            omega
          · rw [hmax, if_neg h12] at h1
            exact ⟨h1, by omega⟩
      refine ⟨_, hE2, hout, ?_⟩
      show (if MAXCODE dec.nBits
          < (1 <<< (initBits - 1)) + 2 + dec.dict.length + 1
          ∧ dec.nBits < 12
        then dec.nBits + 1 else dec.nBits)
        = (output initBits (ent : Int) s).nBits
      by_cases hbump : s.maxcode < s.freeEnt
      · rw [if_pos (hcond_iff.mpr hbump),
          ((output_width initBits (ent : Int) s).2.1 hclearFlg hbump).1,
          hnBits]
      · rw [if_neg (fun h => hbump (hcond_iff.mp h)),
          ((output_width initBits (ent : Int) s).2.2 hclearFlg hbump).1,
          hnBits]
  have hw_bounds : initBits ≤ (output initBits (ent : Int) s).nBits
      ∧ (output initBits (ent : Int) s).nBits ≤ 12 := by
    by_cases hbump : s.maxcode < s.freeEnt
    · have hgrow := (output_width initBits (ent : Int) s).2.1 hclearFlg
        hbump
      have hne12 : s.nBits ≠ 12 := by
        intro h12
        rw [hmax, if_pos h12] at hbump
        have hp : (1 <<< 12 : Nat) = 4096 := rfl
        omega
      constructor
      · rw [hgrow.1]
        omega
      · rw [hgrow.1]
        omega
    · have hstay := (output_width initBits (ent : Int) s).2.2 hclearFlg
        hbump
      constructor
      · rw [hstay.1]
        omega
      · rw [hstay.1]
        omega
  have hcv3 : (1 <<< (initBits - 1)) + 1
      < 2 ^ (output initBits (ent : Int) s).nBits := by
    have h2 : (2:Nat) ^ initBits
        ≤ 2 ^ (output initBits (ent : Int) s).nBits :=
      Nat.pow_le_pow_right (by norm_num) hw_bounds.1
    have h3 : (2:Nat) ^ initBits = 2 * (1 <<< (initBits - 1)) := by
      rw [Nat.shiftLeft_eq, one_mul]
      obtain ⟨n, rfl⟩ : ∃ n, initBits = n + 1 := ⟨initBits - 1, by omega⟩
      rw [Nat.add_sub_cancel, pow_succ]
      ring
    omega
  have hbits3 : bitsOfBytes B1
      ++ natToBits (output initBits (ent : Int) s).curBits v1
      = codeBits (E ++ [(ent, s.nBits)]) := by
    rw [o5, codeBits_append]
    simp [codeBits]
  obtain ⟨Bf, pad, e1, e2, e3⟩ := output_eof initBits
    (output initBits (ent : Int) s) B1 v1 (E ++ [(ent, s.nBits)])
    o1 o2 o3 hw_bounds.2 hcv3 o4 hbits3
  refine ⟨dec2, Bf, pad, hE2, hout2, ?_, e1, e2, e3, hnb2, hcv3⟩
  intro cw hcw
  rcases List.mem_append.mp hcw with h | h
  · exact hEw cw h
  · simp at h
    rw [h]
    omega

/-- Reading the end-of-information code at the decoder's current width
terminates the decode loop with the output accumulated so far. -/
theorem decodeLoop_eof_step (clearCode initBits : Nat)
    (hc : 0 < clearCode) (dec : DecState) (pad : List Bool) (f : Nat)
    (hlt : clearCode + 1 < 2 ^ dec.nBits) :
    decodeLoop clearCode initBits (f + 1)
      (natToBits dec.nBits (clearCode + 1) ++ pad) dec
      = some dec.out := by
  rw [decodeLoop]
  have hTL : ∀ (L R : List Bool), L.length = dec.nBits →
      (L ++ R).take dec.nBits = L := by
    intro L R h
    rw [← h]
    exact List.take_left L R
  have hDL : ∀ (L R : List Bool), L.length = dec.nBits →
      (L ++ R).drop dec.nBits = R := by
    intro L R h
    rw [← h]
    exact List.drop_left L R
  have hread : readCode (natToBits dec.nBits (clearCode + 1) ++ pad)
      dec.nBits = some (clearCode + 1, pad) := by
    rw [readCode,
      if_neg (by rw [List.length_append, natToBits_length]; omega),
      hTL _ _ (natToBits_length _ _), hDL _ _ (natToBits_length _ _),
      bitsVal_natToBits, Nat.mod_eq_of_lt hlt]
  rw [hread]
  show (match decStep clearCode initBits dec (clearCode + 1) with
    | none => none
    | some (Sum.inr out) => some out
    | some (Sum.inl st1) => decodeLoop clearCode initBits f pad st1)
    = some dec.out
  rw [decStep_eof clearCode initBits dec hc]

/-- Compressing a nonempty in-range pixel stream and then running the
standard decoder on the framed stream (with its block terminator)
reproduces the pixels. -/
theorem compress_decodes (ics : Nat) (hics2 : 2 ≤ ics) (hics8 : ics ≤ 8)
    (pixels : List Nat) (hpne : pixels ≠ [])
    (hpix : ∀ x ∈ pixels, x < 1 <<< ics) :
    decodeGifLzw (ics :: (compress (ics + 1) pixels ++ [0]))
      = some pixels := by
  cases pixels with
  | nil => exact absurd rfl hpne
  | cons p rest0 =>
    have hib1 : 3 ≤ ics + 1 := by omega
    have hib2 : ics + 1 ≤ 9 := by omega
    have hspell : (1 <<< (ics + 1 - 1) : Nat) = 1 <<< ics := rfl
    have hQ4 : 4 ≤ (1 <<< ics : Nat) :=
      (clear_bounds (ics + 1) hib1 hib2).1
    have hQ256 : (1 <<< ics : Nat) ≤ 256 :=
      (clear_bounds (ics + 1) hib1 hib2).2.1
    have hp : p < 1 <<< ics := hpix p (by simp)
    have hand : p &&& 0xff = p := by
      have h := Nat.and_pow_two_sub_one_eq_mod p 8
      norm_num at h
      rw [h]
      exact Nat.mod_eq_of_lt (by omega)
    obtain ⟨B1, v1, hinv1⟩ := compress_init_inv (ics + 1) hib1 hib2 p hp
    rw [hspell] at hinv1
    obtain ⟨s2, cd, D2, dec2, E2, B2, v2, W2, hr, hinv2⟩ :=
      compressLoop_sim (ics + 1) hib1 hib2 rest0 [p] _ p [] _ _ B1 v1 [p]
        hinv1 (fun x hx => hpix x (by simp [hx]))
    obtain ⟨dec3, Bf, pad, hE3, hout3, hEw3, hacc4, hDeb4, hbitsF, hnb3,
      heoflt⟩ := compress_final (ics + 1) hib1 hib2 ([p] ++ rest0) s2 cd
      D2 dec2 E2 B2 v2 W2 hinv2
    rw [hspell] at hE3 hDeb4 hbitsF heoflt
    have hcompress : compress (ics + 1) (p :: rest0)
        = (output (ics + 1) (((1 <<< ics) + 1 : Nat) : Int)
            (output (ics + 1) (cd : Int) s2)).out := by
      show (output (ics + 1) (((1 <<< ics) + 1 : Nat) : Int)
          (output (ics + 1)
            (((compressLoop (ics + 1) rest0
                (output (ics + 1) ((1 <<< ics : Nat) : Int)
                  (initLZWState (ics + 1))) (p &&& 0xff)).2 : Nat) : Int)
            (compressLoop (ics + 1) rest0
              (output (ics + 1) ((1 <<< ics : Nat) : Int)
                (initLZWState (ics + 1))) (p &&& 0xff)).1)).out
        = _
      rw [hand, hr]
    rw [hcompress]
    simp only [decodeGifLzw]
    rw [if_neg (by omega)]
    have hdb := hDeb4 [0] [] rfl
    rw [List.append_nil] at hdb
    rw [List.length_append, hdb]
    show decodeLoop (1 <<< ics) (ics + 1) ((bitsOfBytes Bf).length + 1)
      (bitsOfBytes Bf) (decInit (ics + 1)) = some (p :: rest0)
    rw [List.append_assoc] at hbitsF
    rw [hbitsF]
    have hdl := decodeLoop_of_decRun (1 <<< ics) (ics + 1)
      (E2 ++ [(cd, s2.nBits)]) (decInit (ics + 1)) dec3
      (natToBits (output (ics + 1) (cd : Int) s2).nBits
        ((1 <<< ics) + 1) ++ pad)
      ((codeBits (E2 ++ [(cd, s2.nBits)])
        ++ (natToBits (output (ics + 1) (cd : Int) s2).nBits
            ((1 <<< ics) + 1) ++ pad)).length + 1)
      hE3 hEw3 (by simp only [List.length_append]; omega)
    rw [hdl]
    have hfgt : (E2 ++ [(cd, s2.nBits)]).length
        ≤ (codeBits (E2 ++ [(cd, s2.nBits)])).length :=
      codeBits_length_ge _ hEw3
    simp only [List.length_append] at hfgt
    obtain ⟨f, hf⟩ : ∃ f,
        (codeBits (E2 ++ [(cd, s2.nBits)])
          ++ (natToBits (output (ics + 1) (cd : Int) s2).nBits
              ((1 <<< ics) + 1) ++ pad)).length + 1
          - (E2 ++ [(cd, s2.nBits)]).length = f + 1 := by
      refine ⟨(codeBits (E2 ++ [(cd, s2.nBits)])
          ++ (natToBits (output (ics + 1) (cd : Int) s2).nBits
              ((1 <<< ics) + 1) ++ pad)).length
        - (E2 ++ [(cd, s2.nBits)]).length, ?_⟩
      simp only [List.length_append]
      omega
    rw [hf, ← hnb3,
      decodeLoop_eof_step (1 <<< ics) (ics + 1) (by omega) dec3 pad f
        (by rw [hnb3]; exact heoflt),
      hout3]
    rfl

/-- C1 counterexample: on the empty index sequence (admissible under the
claim's "every palette-index sequence"), `Encode`'s output does not decode
back to the sequence - the encoder packs the `-1` sentinel of the
empty-stream pixel read as a code, which the standard decoder rejects. -/
theorem lzw_roundtrip_claim_counterexample :
    decodeGifLzw (Encode 1 0 [] 2) ≠ some ([] : List Nat) := by
  decide

/-- C1 (amended): for every nonempty palette-index sequence over an
alphabet of size at most `2^colorDepth` (with `colorDepth ≤ 8` and the
declared `width*height` equal to the sequence length), `Encode` produces
an initial-code-size byte plus length-prefixed sub-blocks that a standard
GIF-LZW decoder (variable code width starting at `max(2,colorDepth)+1`,
LSB-first bit packing, 12-bit code ceiling, clear and end-of-information
codes reserved) decodes back to exactly the original index sequence -
including sequences long enough to force clear-code resets. -/
theorem lzw_encode_roundtrip (width height : Nat) (pixels : List Nat)
    (colorDepth : Nat) (hpne : pixels ≠ []) (hcd : colorDepth ≤ 8)
    (hwh : width * height = pixels.length)
    (hpix : ∀ x ∈ pixels, x < 2 ^ colorDepth) :
    decodeGifLzw (Encode width height pixels colorDepth)
      = some pixels := by
  have htake : pixels.take (width * height) = pixels := by
    rw [hwh]
    simp
  have hEnc : Encode width height pixels colorDepth
      = (if colorDepth < 2 then 2 else colorDepth)
        :: (compress ((if colorDepth < 2 then 2 else colorDepth) + 1)
            pixels ++ [0]) := by
    show [if colorDepth < 2 then 2 else colorDepth]
        ++ compress ((if colorDepth < 2 then 2 else colorDepth) + 1)
          (pixels.take (width * height)) ++ [0]
      = _
    rw [htake]
    rfl
  rw [hEnc]
  refine compress_decodes (if colorDepth < 2 then 2 else colorDepth)
    (by split_ifs <;> omega) (by split_ifs <;> omega) pixels hpne ?_
  intro x hx
  have h1 := hpix x hx
  have h2 : colorDepth ≤ (if colorDepth < 2 then 2 else colorDepth) := by
    split_ifs <;> omega
  have h3 : (1 <<< (if colorDepth < 2 then 2 else colorDepth) : Nat)
      = 2 ^ (if colorDepth < 2 then 2 else colorDepth) := by
    rw [Nat.shiftLeft_eq, one_mul]
  have h4 : (2:Nat) ^ colorDepth
      ≤ 2 ^ (if colorDepth < 2 then 2 else colorDepth) :=
    Nat.pow_le_pow_right (by norm_num) h2
  omega

/-- C1 witness: a concrete nonempty two-pixel frame at `colorDepth = 2`
round-trips through `Encode` and the standard decoder. -/
theorem lzw_encode_roundtrip_witness :
    (([0, 1] : List Nat) ≠ [] ∧ (2:Nat) ≤ 8
      ∧ 2 * 1 = ([0, 1] : List Nat).length
      ∧ ∀ x ∈ ([0, 1] : List Nat), x < 2 ^ 2)
    ∧ decodeGifLzw (Encode 2 1 [0, 1] 2) = some [0, 1] :=
  ⟨⟨by decide, by decide, by decide, by decide⟩,
    lzw_encode_roundtrip 2 1 [0, 1] 2 (by decide) (by decide) (by decide)
      (by decide)⟩

end NicoGif
